import Mathlib

/-!
# dde-launcher: the catalog engine of `AppsManager`

A shallow embedding of `src/src/model/appsmanager.cpp`.  The member lists of
`AppsManager` become the fields of a record, every slot becomes a function from
state to state, and the two single-shot timers carry the time left until they
fire.  Signals (`emit ...`) carry no state and are left out, as are the icon
cache, the autostart cache and the list of newly installed applications, none
of which is read by the list operations.

Library behaviour is modelled as follows.

* `qSort` is Qt library code whose result on elements that tie is not fixed by
  its contract.  It is a parameter of the model; theorems that depend on what
  it returns assume `IsSorter`: on a strict weak ordering it returns a sorted
  permutation of its input.
* `std::stable_sort` has one possible result for a strict weak ordering, the
  sorted permutation that keeps tied elements in input order; it is modelled
  by a stable insertion sort.
* The preset key list read from `LAUNCHER_SETTINGS` for the current locale is
  the parameter `preset`.
* `QSettings` entries hold the list last written to them (serialising and
  reading back gives the same list; a missing entry reads as the empty list).
-/

namespace Launcher

/-! ## Strings -/

/-- Models `QString::toLower`, on the ASCII letters. -/
def toLower (s : String) : String := String.mk (s.data.map Char.toLower)

/-- Models `QString::operator<`: lexicographic comparison of the character sequences. -/
def qLess (a b : String) : Bool := decide (a.toList < b.toList)

/-! ## Item records -/

/-- Modelled from the spec: the `ItemInfo` class is declared outside `src/`.
An Item Record has a stable key, a display name, a launch target reference, a
category identifier, an icon key and a non-negative open count.  The field
names are the ones `appsmanager.cpp` uses.  The code keeps the open count in
an `int` (`const int openCount = m_usedSortedList[idx].m_openCount`), so the
field ranges over the integers and `wrapInt32` gives the value an `int` takes
after arithmetic. -/
structure ItemInfo where
  m_desktop : String
  m_name : String
  m_key : String
  m_iconKey : String
  m_categoryId : Int
  m_openCount : Int
deriving DecidableEq, Repr

abbrev ItemInfoList := List ItemInfo

/-- Modelled from the spec: `ItemInfo::operator==` is declared outside `src/`.
"Two item records are equal iff their keys match." -/
def ItemInfo.opEq (a b : ItemInfo) : Bool := a.m_key == b.m_key

/-- Modelled from the spec: `ItemInfo::updateInfo` is declared outside `src/`.
"Fields other than open count are overwritten; open count is preserved." -/
def ItemInfo.updateInfo (self info : ItemInfo) : ItemInfo :=
  { info with m_openCount := self.m_openCount }

/-- Modelled from the spec: `ItemInfo::category()` is declared outside `src/`.
The category of a record is given by its category identifier. -/
def ItemInfo.category (self : ItemInfo) : Int := self.m_categoryId

/-! ## `QList` and `QMap` operations used by the code -/

/-- Models `QList::indexOf`: index of the first element equal to `x`, or `-1`. -/
def QList.indexOf {α : Type} (eq : α → α → Bool) : List α → α → Int
  | [], _ => -1
  | y :: ys, x =>
    if eq y x then 0
    else
      let r := QList.indexOf eq ys x
      if r = -1 then -1 else r + 1

/-- Models `QList::contains`. -/
def QList.contains {α : Type} (eq : α → α → Bool) (l : List α) (x : α) : Bool :=
  l.any (fun y => eq y x)

/-- Models `QList::removeOne`: removes the first element equal to `x`, if any. -/
def QList.removeOne {α : Type} (eq : α → α → Bool) : List α → α → List α
  | [], _ => []
  | y :: ys, x => if eq y x then ys else y :: QList.removeOne eq ys x

/-- Models `QList::insert(i, value)`: prepends when `i <= 0`, appends when
`i >= size()`. -/
def QList.insert {α : Type} (l : List α) (i : Int) (x : α) : List α :=
  if i ≤ 0 then x :: l
  else if (l.length : Int) ≤ i then l ++ [x]
  else l.take i.toNat ++ x :: l.drop i.toNat

/-- The category index `QMap<AppCategory, ItemInfoList>`, as the list of its
entries in key order. -/
abbrev QMap := List (Int × ItemInfoList)

/-- Models `QMap::contains`. -/
def QMap.contains (m : QMap) (c : Int) : Bool := m.any (fun p => p.1 == c)

/-- Models `QMap::insert`: replaces the value of an existing key, otherwise adds the
entry at its place in key order. -/
def QMap.insert : QMap → Int → ItemInfoList → QMap
  | [], c, v => [(c, v)]
  | (k, w) :: m, c, v =>
    if k = c then (c, v) :: m
    else if c < k then (c, v) :: (k, w) :: m
    else (k, w) :: QMap.insert m c v

/-- Models `m[c].append(info)` on a non-const map: the value of key `c` gets `info`
appended (an absent key is first inserted with an empty list). -/
def QMap.appendAt : QMap → Int → ItemInfo → QMap
  | [], c, info => [(c, [info])]
  | (k, w) :: m, c, info =>
    if k = c then (k, w ++ [info]) :: m
    else if c < k then (c, [info]) :: (k, w) :: m
    else (k, w) :: QMap.appendAt m c info

/-- Models `QMap::operator[]` on a const map: the value, or an empty list. -/
def QMap.value (m : QMap) (c : Int) : ItemInfoList :=
  match m.find? (fun p => p.1 == c) with
  | some p => p.2
  | none => []

/-- All buckets of the category index, one after the other. -/
def QMap.allValues (m : QMap) : ItemInfoList := (m.map (fun p => p.2)).flatten

/-- Models `QDBusPendingReply::value()`: the value carried by the reply, or a
default-constructed (empty) list when the reply is an error. -/
def QDBusPendingReply.value (reply : Option ItemInfoList) : ItemInfoList :=
  reply.getD []

/-! ## Sorting -/

/-- The type of `qSort` on item lists with a less-than functor. -/
abbrev Sorter := (ItemInfo → ItemInfo → Bool) → ItemInfoList → ItemInfoList

/-- Strict weak ordering: irreflexive, transitive, and incomparability is
transitive. -/
def StrictWeakOrder {α : Type} (lt : α → α → Bool) : Prop :=
  (∀ a, lt a a = false) ∧
  (∀ a b c, lt a b = true → lt b c = true → lt a c = true) ∧
  (∀ a b c, lt a b = false → lt b a = false → lt b c = false → lt c b = false →
    lt a c = false ∧ lt c a = false)

/-- The contract of `qSort`: on a strict weak ordering the result is a
permutation of the input in which no element is less than an earlier one. -/
def IsSorter (qSort : Sorter) : Prop :=
  ∀ lt, StrictWeakOrder lt → ∀ l,
    (qSort lt l).Perm l ∧ (qSort lt l).Pairwise (fun a b => lt b a = false)

/-- Insertion of `x` in front of a sorted list: `x` passes the elements that
are strictly less than it and stops before the first one that is not. -/
def insertSorted {α : Type} (lt : α → α → Bool) (x : α) : List α → List α
  | [] => [x]
  | y :: ys => if lt y x then y :: insertSorted lt x ys else x :: y :: ys

/-- Models `std::stable_sort` with a less-than functor. -/
def stable_sort {α : Type} (lt : α → α → Bool) : List α → List α
  | [] => []
  | x :: xs => insertSorted lt x (stable_sort lt xs)

/-- A sorter meeting the `qSort` contract, used to run the model. -/
def insertionSorter : Sorter := fun lt l => stable_sort lt l

/-- The value `preset.indexOf(i.m_key.toLower())` computed by the comparator. -/
def presetIndex (preset : List String) (i : ItemInfo) : Int :=
  QList.indexOf (fun a b => a == b) preset (toLower i.m_key)

/-- The less-than functor handed to `qSort` in `sortByPresetOrder`. -/
def presetLess (preset : List String) (i1 i2 : ItemInfo) : Bool :=
  let index1 := QList.indexOf (fun a b => a == b) preset (toLower i1.m_key)
  let index2 := QList.indexOf (fun a b => a == b) preset (toLower i2.m_key)
  if index1 = index2 then
    qLess i1.m_name i2.m_name
  else if index1 = -1 then
    false
  else if index2 = -1 then
    true
  else
    decide (index1 < index2)

/-- Embeds `AppsManager::sortByPresetOrder`. -/
def sortByPresetOrder (qSort : Sorter) (preset : List String)
    (processList : ItemInfoList) : ItemInfoList :=
  qSort (presetLess preset) processList

/-- The less-than functor handed to `std::stable_sort` in
`refreshUsedInfoList`. -/
def openCountGreater (a b : ItemInfo) : Bool := decide (a.m_openCount > b.m_openCount)

/-! ## The manager -/

/-- Interval of the search timer, set in the constructor. -/
def searchTimerInterval : Nat := 150

/-- Interval of the delayed-refresh timer, set in the constructor. -/
def delayRefreshTimerInterval : Nat := 500

/-- The state of `AppsManager`.  A timer is `none` when it is not running and
`some r` when it fires after `r` more time units.  `searchCalls` records the
arguments of the `Search` calls sent to the backend, oldest first. -/
structure AppsManager where
  m_allAppInfoList : ItemInfoList
  m_stashList : ItemInfoList
  m_usedSortedList : ItemInfoList
  m_appSearchResultList : ItemInfoList
  m_appInfos : QMap
  m_searchText : String
  m_searchTimer : Option Nat
  m_delayRefreshTimer : Option Nat
  APP_USER_SORTED_LIST : ItemInfoList
  APP_USED_SORTED_LIST : ItemInfoList
  searchCalls : List String
deriving DecidableEq, Repr

/-- Index of the first record of `l` whose key is `appKey`: the loop
`for (i = 0; i != l.size(); ++i) if (l[i].m_key == appKey) ...`. -/
def keyIndex : ItemInfoList → String → Option Nat
  | [], _ => none
  | x :: xs, appKey =>
    if x.m_key == appKey then some 0 else (keyIndex xs appKey).map (fun i => i + 1)

/-- Embeds `AppsManager::saveUserSortedList`. -/
def saveUserSortedList (s : AppsManager) : AppsManager :=
  { s with APP_USER_SORTED_LIST := s.m_usedSortedList }

/-- Embeds `AppsManager::saveUsedSortedList`. -/
def saveUsedSortedList (s : AppsManager) : AppsManager :=
  { s with APP_USED_SORTED_LIST := s.m_usedSortedList }

/-- The update of the usage-ordered list for one record `info` of the
all-items list, shared by `generateCategoryMap` and `updateUsedListInfo`:
the record found by `indexOf` takes the fields of `info` and keeps its open
count. -/
def updateUsedAt (used : ItemInfoList) (idx : Int) (info : ItemInfo) : ItemInfoList :=
  match used[idx.toNat]? with
  | none => used
  | some u =>
    let openCount := u.m_openCount
    used.set idx.toNat { (u.updateInfo info) with m_openCount := openCount }

/-- The part of the loop body of `generateCategoryMap` that works on
`m_usedSortedList`. -/
def usedListStep (used : ItemInfoList) (info : ItemInfo) : ItemInfoList :=
  let userIdx := QList.indexOf ItemInfo.opEq used info
  if userIdx = -1 then used ++ [info]
  else updateUsedAt used userIdx info

/-- The part of the loop body of `generateCategoryMap` that works on
`m_appInfos`. -/
def categoryStep (m : QMap) (info : ItemInfo) : QMap :=
  let category := info.category
  let m1 := if !QMap.contains m category then QMap.insert m category [] else m
  QMap.appendAt m1 category info

/-- Embeds `AppsManager::generateCategoryMap`. -/
def generateCategoryMap (qSort : Sorter) (preset : List String)
    (s : AppsManager) : AppsManager :=
  let all := sortByPresetOrder qSort preset s.m_allAppInfoList
  let r := all.foldl
    (fun (acc : ItemInfoList × QMap) info =>
      (usedListStep acc.1 info, categoryStep acc.2 info))
    (s.m_usedSortedList, [])
  let used := r.1.filter (fun it => QList.indexOf ItemInfo.opEq all it != -1)
  { s with m_allAppInfoList := all, m_usedSortedList := used, m_appInfos := r.2 }

/-- Embeds `AppsManager::updateUsedListInfo`. -/
def updateUsedListInfo (s : AppsManager) : AppsManager :=
  let used := s.m_allAppInfoList.foldl
    (fun used info =>
      let idx := QList.indexOf ItemInfo.opEq used info
      if idx != -1 then updateUsedAt used idx info else used)
    s.m_usedSortedList
  { s with m_usedSortedList := used }

/-- Embeds `AppsManager::refreshUsedInfoList`. -/
def refreshUsedInfoList (s : AppsManager) : AppsManager :=
  let s1 :=
    if s.m_usedSortedList.isEmpty then
      let used0 := s.APP_USED_SORTED_LIST
      let used1 := if used0.isEmpty then s.m_allAppInfoList else used0
      let used2 := s.m_allAppInfoList.foldl
        (fun used it =>
          if !QList.contains ItemInfo.opEq used it then used ++ [it] else used)
        used1
      let used3 := used2.filter
        (fun it => QList.contains ItemInfo.opEq s.m_allAppInfoList it)
      updateUsedListInfo { s with m_usedSortedList := used3 }
    else s
  let sorted := stable_sort openCountGreater s1.m_usedSortedList
  saveUsedSortedList { s1 with m_usedSortedList := sorted }

/-- Embeds `AppsManager::stashItem(const QString &)`. -/
def stashItem (qSort : Sorter) (preset : List String) (s : AppsManager)
    (appKey : String) : AppsManager :=
  match keyIndex s.m_allAppInfoList appKey with
  | none => s
  | some i =>
    match s.m_allAppInfoList[i]? with
    | none => s
    | some item =>
      refreshUsedInfoList
        (generateCategoryMap qSort preset
          { s with
            m_stashList := s.m_stashList ++ [item],
            m_allAppInfoList := s.m_allAppInfoList.eraseIdx i })

/-- Embeds `AppsManager::abandonStashedItem`. -/
def abandonStashedItem (s : AppsManager) (appKey : String) : AppsManager :=
  match keyIndex s.m_stashList appKey with
  | none => s
  | some i => { s with m_stashList := s.m_stashList.eraseIdx i }

/-- Embeds `AppsManager::restoreItem`; `pos` is `-1` when no position is given. -/
def restoreItem (qSort : Sorter) (preset : List String) (s : AppsManager)
    (appKey : String) (pos : Int) : AppsManager :=
  match keyIndex s.m_stashList appKey with
  | none => s
  | some i =>
    match s.m_stashList[i]? with
    | none => s
    | some item =>
      let used := if pos != -1 then QList.insert s.m_usedSortedList pos item
                  else s.m_usedSortedList
      saveUserSortedList
        (generateCategoryMap qSort preset
          { s with
            m_usedSortedList := used,
            m_allAppInfoList := s.m_allAppInfoList ++ [item],
            m_stashList := s.m_stashList.eraseIdx i })

/-- Embeds `AppsManager::refreshCategoryInfoList`; `reply` is the answer of the
backend to `GetAllItemInfos`. -/
def refreshCategoryInfoList (qSort : Sorter) (preset : List String)
    (s : AppsManager) (reply : Option ItemInfoList) : AppsManager :=
  let datas := QDBusPendingReply.value reply
  saveUserSortedList
    (generateCategoryMap qSort preset
      { s with
        m_usedSortedList := s.APP_USER_SORTED_LIST,
        m_allAppInfoList :=
          datas.filter (fun it => !QList.contains ItemInfo.opEq s.m_stashList it) })

/-- Embeds `AppsManager::delayRefreshData`. -/
def delayRefreshData (qSort : Sorter) (preset : List String)
    (s : AppsManager) : AppsManager :=
  saveUserSortedList (generateCategoryMap qSort preset s)

/-- The loop of the "updated" branch of `handleItemChanged`: the first record
equal to `appInfo` is updated from it. -/
def updateFirst : ItemInfoList → ItemInfo → ItemInfoList
  | [], _ => []
  | item :: rest, appInfo =>
    if item.opEq appInfo then item.updateInfo appInfo :: rest
    else item :: updateFirst rest appInfo

/-- Embeds `AppsManager::handleItemChanged` as built with `QT_NO_DEBUG`, where
`Q_ASSERT` expands to nothing; `handleItemChangedAsserted` is the function
with its assertion, and returns this state whenever it returns. -/
def handleItemChanged (s : AppsManager) (operation : String)
    (appInfo : ItemInfo) : AppsManager :=
  let s1 :=
    if operation == "created" then
      { s with
        m_allAppInfoList := s.m_allAppInfoList ++ [appInfo],
        m_usedSortedList := s.m_usedSortedList ++ [appInfo] }
    else if operation == "deleted" then
      { s with
        m_allAppInfoList := QList.removeOne ItemInfo.opEq s.m_allAppInfoList appInfo,
        m_usedSortedList := QList.removeOne ItemInfo.opEq s.m_usedSortedList appInfo }
    else if operation == "updated" then
      { s with m_allAppInfoList := updateFirst s.m_allAppInfoList appInfo }
    else s
  { s1 with m_delayRefreshTimer := some delayRefreshTimerInterval }

/-- Models `Q_ASSERT(cond)`.  With `QT_NO_DEBUG` defined the statement expands to
nothing; otherwise a false condition calls `qt_assert`, which ends the
process, so that the code after it never runs (`none`). -/
def Q_ASSERT (qtNoDebug cond : Bool) : Option Unit :=
  if qtNoDebug || cond then some () else none

/-- Embeds `AppsManager::handleItemChanged` with the assertion of its "updated"
branch, for a build with `QT_NO_DEBUG` (`qtNoDebug = true`) and for one with
assertions compiled in (`qtNoDebug = false`); `none` when the call does not
return. -/
def handleItemChangedAsserted (qtNoDebug : Bool) (s : AppsManager) (operation : String)
    (appInfo : ItemInfo) : Option AppsManager :=
  let r : Option AppsManager :=
    if operation == "created" then
      some { s with
        m_allAppInfoList := s.m_allAppInfoList ++ [appInfo],
        m_usedSortedList := s.m_usedSortedList ++ [appInfo] }
    else if operation == "deleted" then
      some { s with
        m_allAppInfoList := QList.removeOne ItemInfo.opEq s.m_allAppInfoList appInfo,
        m_usedSortedList := QList.removeOne ItemInfo.opEq s.m_usedSortedList appInfo }
    else if operation == "updated" then
      (Q_ASSERT qtNoDebug (QList.contains ItemInfo.opEq s.m_allAppInfoList appInfo)).bind
        (fun _ => some { s with m_allAppInfoList := updateFirst s.m_allAppInfoList appInfo })
    else some s
  r.bind (fun s1 => some { s1 with m_delayRefreshTimer := some delayRefreshTimerInterval })

/-- Embeds `AppsManager::appendSearchResult`. -/
def appendSearchResult (s : AppsManager) (appKey : String) : AppsManager :=
  match s.m_allAppInfoList.find? (fun info => info.m_key == appKey) with
  | some info => { s with m_appSearchResultList := s.m_appSearchResultList ++ [info] }
  | none => s

/-- Embeds `AppsManager::searchDone`. -/
def searchDone (s : AppsManager) (resultList : List String) : AppsManager :=
  resultList.foldl appendSearchResult { s with m_appSearchResultList := [] }

/-- Embeds `AppsManager::searchApp`. -/
def searchApp (s : AppsManager) (keywords : String) : AppsManager :=
  { s with m_searchTimer := some searchTimerInterval, m_searchText := keywords }

/-- Embeds `AppsManager::onSearchTimeOut`: one `Search` call with the pending text. -/
def onSearchTimeOut (s : AppsManager) : AppsManager :=
  { s with searchCalls := s.searchCalls ++ [s.m_searchText] }

/-- A single-shot `QTimer` over `dt` time units: whether it fires, and the
timer afterwards. -/
def timerElapse (t : Option Nat) (dt : Nat) : Bool × Option Nat :=
  match t with
  | none => (false, none)
  | some r => if r ≤ dt then (true, none) else (false, some (r - dt))

/-- The event loop runs for `dt` time units with no call from outside: each
timer that comes due fires its slot once. -/
def elapse (qSort : Sorter) (preset : List String) (s : AppsManager)
    (dt : Nat) : AppsManager :=
  let t1 := timerElapse s.m_searchTimer dt
  let s1 := { s with m_searchTimer := t1.2 }
  let s2 := if t1.1 then onSearchTimeOut s1 else s1
  let t2 := timerElapse s2.m_delayRefreshTimer dt
  let s3 := { s2 with m_delayRefreshTimer := t2.2 }
  if t2.1 then delayRefreshData qSort preset s3 else s3

/-- The manager before the constructor body runs: every member list is empty
and no timer runs; the two `QSettings` entries hold what an earlier session
left there. -/
def AppsManager.init (userSorted usedSorted : ItemInfoList) : AppsManager :=
  { m_allAppInfoList := [], m_stashList := [], m_usedSortedList := [],
    m_appSearchResultList := [], m_appInfos := [], m_searchText := "",
    m_searchTimer := none, m_delayRefreshTimer := none,
    APP_USER_SORTED_LIST := userSorted, APP_USED_SORTED_LIST := usedSorted,
    searchCalls := [] }

/-- A record with the given key, display name, category and open count, for
concrete runs of the model. -/
def item (key name : String) (category : Int) (count : Int) : ItemInfo :=
  { m_desktop := "", m_name := name, m_key := key, m_iconKey := "",
    m_categoryId := category, m_openCount := count }

/-- A burst of `searchApp` calls: the first one, then for each `(gap, query)`
of `rest` the event loop runs for `gap` time units and `searchApp(query)` is
called. -/
def searchBurst (qSort : Sorter) (preset : List String) (s : AppsManager)
    (first : String) (rest : List (Nat × String)) : AppsManager :=
  rest.foldl (fun st p => searchApp (elapse qSort preset st p.1) p.2) (searchApp s first)

/-- The delayed-refresh timer times out: the single-shot timer stops and its
slot `delayRefreshData` runs. -/
def delayRefreshTimeout (qSort : Sorter) (preset : List String)
    (s : AppsManager) : AppsManager :=
  delayRefreshData qSort preset { s with m_delayRefreshTimer := none }

/-- The calls that change the catalog lists. -/
inductive Op where
  | refreshCategoryInfoList (reply : Option ItemInfoList)
  | stashItem (appKey : String)
  | restoreItem (appKey : String) (pos : Int)
  | abandonStashedItem (appKey : String)
  | handleItemChanged (operation : String) (appInfo : ItemInfo)
  | delayRefreshData
deriving DecidableEq, Repr

/-- One call applied to a state. -/
def applyOp (qSort : Sorter) (preset : List String) (s : AppsManager) : Op → AppsManager
  | Op.refreshCategoryInfoList reply => refreshCategoryInfoList qSort preset s reply
  | Op.stashItem appKey => stashItem qSort preset s appKey
  | Op.restoreItem appKey pos => restoreItem qSort preset s appKey pos
  | Op.abandonStashedItem appKey => abandonStashedItem s appKey
  | Op.handleItemChanged operation appInfo => handleItemChanged s operation appInfo
  | Op.delayRefreshData => delayRefreshTimeout qSort preset s

/-- The state reached from `s` by a sequence of calls. -/
def run (qSort : Sorter) (preset : List String) (s : AppsManager)
    (ops : List Op) : AppsManager :=
  ops.foldl (applyOp qSort preset) s

/-- The effect of one `generateCategoryMap` loop step on the usage-ordered
list, by recursion on the list: the first record with the key of `a` takes
the fields of `a` and keeps its open count; `a` is appended when no record has
its key. -/
def upd : ItemInfoList → ItemInfo → ItemInfoList
  | [], a => [a]
  | u :: rest, a =>
    if u.m_key = a.m_key then { a with m_openCount := u.m_openCount } :: rest
    else u :: upd rest a

/-- The list work of the constructor `AppsManager::AppsManager`: starting from
empty member lists, `refreshCategoryInfoList()` then `refreshUsedInfoList()`. -/
def AppsManager.construct (qSort : Sorter) (preset : List String)
    (userSorted usedSorted : ItemInfoList) (reply : Option ItemInfoList) : AppsManager :=
  refreshUsedInfoList
    (refreshCategoryInfoList qSort preset (AppsManager.init userSorted usedSorted) reply)

/-- A manager constructed on a backend that reports four applications, two of
them listed in the preset order, for concrete runs of the model. -/
def sampleManager : AppsManager :=
  AppsManager.construct insertionSorter ["b", "a"] [] []
    (some [item "k" "Kate" 8 3, item "a" "Atom" 8 0, item "z" "Zip" 9 1, item "b" "Brow" 0 7])

/-- The sample manager right after the backend announced the new item "n": the
record stands at the end of the all-items list until the delayed refresh. -/
def sampleCreated : AppsManager :=
  handleItemChanged sampleManager "created" (item "n" "Nano" 9 0)

/-- The manager built like `sampleManager` from a backend that reports the
largest `int` as the open count of "k". -/
def sampleAtMaxCount : AppsManager :=
  AppsManager.construct insertionSorter ["b", "a"] [] []
    (some [item "k" "Kate" 8 2147483647, item "a" "Atom" 8 0, item "z" "Zip" 9 1,
      item "b" "Brow" 0 7])

/-- The keys of a list of records, in order. -/
def keysOf (l : ItemInfoList) : List String := l.map (fun x => x.m_key)

/-- A call that a backend with unique keys makes on the catalog: the answer to
`GetAllItemInfos` lists no key twice, and an item is announced as created only
when its key is in neither the all-items list nor the stash. -/
def Op.guarded (s : AppsManager) : Op → Prop
  | Op.refreshCategoryInfoList reply => (keysOf (QDBusPendingReply.value reply)).Nodup
  | Op.handleItemChanged operation appInfo =>
    operation = "created" →
      appInfo.m_key ∉ keysOf s.m_allAppInfoList ∧ appInfo.m_key ∉ keysOf s.m_stashList
  | _ => True

/-- Every call of the sequence is guarded in the state in which it is made. -/
def guardedRun (qSort : Sorter) (preset : List String) : AppsManager → List Op → Prop
  | _, [] => True
  | s, op :: ops => op.guarded s ∧ guardedRun qSort preset (applyOp qSort preset s op) ops

/-! ## Further operations and vocabulary -/

/-- Modelled from the spec: `AppsListModel::AppCategory` is declared outside
`src/`.  `appsmanager.cpp` names the values `Custom`, `All`, `Search` and
`Category`; every other value is the category of a bucket of the category
index and is given here by its category identifier. -/
inductive AppCategory where
  | Custom
  | All
  | Search
  | Category
  | ofId (categoryId : Int)
deriving DecidableEq, Repr

/-- The table `categoryTs` of category titles (before translation). -/
def categoryTs : List (Int × String) :=
  [(0, "Internet"), (1, "Chat"), (2, "Music"), (3, "Video"), (4, "Graphics"),
   (5, "Game"), (6, "Office"), (7, "Reading"), (8, "Development"), (9, "System"),
   (10, "Others")]

/-- The table `categoryIcon` of category icons. -/
def categoryIcon : List (Int × String) :=
  [(0, ":/icons/skin/icons/internet_normal_16px.svg"),
   (1, ":/icons/skin/icons/chat_normal_16px.svg"),
   (2, ":/icons/skin/icons/music_normal_16px.svg"),
   (3, ":/icons/skin/icons/multimedia_normal_16px.svg"),
   (4, ":/icons/skin/icons/graphics_normal_16px.svg"),
   (5, ":/icons/skin/icons/game_normal_16px.svg"),
   (6, ":/icons/skin/icons/office_normal_16px.svg"),
   (7, ":/icons/skin/icons/reading_normal_16px.svg"),
   (8, ":/icons/skin/icons/development_normal_16px.svg"),
   (9, ":/icons/skin/icons/system_normal_16px.svg"),
   (10, ":/icons/skin/icons/others_normal_16px.svg")]

/-- The function `createOfCategory`: a record that stands for a category. -/
def createOfCategory (category : Int) : ItemInfo :=
  { m_desktop := "", m_key := "", m_openCount := 0,
    m_name := ((categoryTs.lookup category).getD ""),
    m_categoryId := category,
    m_iconKey := ((categoryIcon.lookup category).getD "") }

/-- The member `m_categoryList`, filled once by the constructor from the keys
of `categoryTs`. -/
def m_categoryList : ItemInfoList := categoryTs.map (fun p => createOfCategory p.1)

/-- Embeds `AppsManager::appsInfoList`. -/
def appsInfoList (s : AppsManager) : AppCategory → ItemInfoList
  | AppCategory.Custom => s.m_usedSortedList
  | AppCategory.All => s.m_usedSortedList
  | AppCategory.Search => s.m_appSearchResultList
  | AppCategory.Category => m_categoryList
  | AppCategory.ofId categoryId => QMap.value s.m_appInfos categoryId

/-- The value a 32-bit `int` holds for the mathematical result `x`: `x` modulo
`2^32`, in the range from `-2147483648` to `2147483647`. -/
def wrapInt32 (x : Int) : Int := (x + 2147483648) % 4294967296 - 2147483648

/-- The statement `m_usedSortedList[idx].m_openCount++`, on the `int` counter. -/
def incrementOpenCount (used : ItemInfoList) (idx : Int) : ItemInfoList :=
  match used[idx.toNat]? with
  | none => used
  | some u => used.set idx.toNat { u with m_openCount := wrapInt32 (u.m_openCount + 1) }

/-- Embeds `AppsManager::launchApp`, with the key read from the model index.
`markLaunched` and the launch request sent to the start manager touch none
of the lists. -/
def launchApp (s : AppsManager) (appKey : String) : AppsManager :=
  let used :=
    match s.m_usedSortedList.find? (fun info => info.m_key == appKey) with
    | some info =>
      let idx := QList.indexOf ItemInfo.opEq s.m_usedSortedList info
      if idx != -1 then incrementOpenCount s.m_usedSortedList idx
      else s.m_usedSortedList
    | none => s.m_usedSortedList
  refreshUsedInfoList { s with m_usedSortedList := used }

/-- The first record with the key has its open count raised by one: the
effect of the loop of `launchApp`, by recursion on the list. -/
def bump : ItemInfoList → String → ItemInfoList
  | [], _ => []
  | u :: rest, k =>
    if u.m_key = k then { u with m_openCount := wrapInt32 (u.m_openCount + 1) } :: rest
    else u :: bump rest k

/-- Key and open count of a record. -/
def keyCount (x : ItemInfo) : String × Int := (x.m_key, x.m_openCount)

/-- The keys of `l` that are not in `seen`, each once, at the place of its
first occurrence in `l`. -/
def freshKeys (seen : List String) : List String → List String
  | [] => []
  | k :: ks => if k ∈ seen then freshKeys seen ks else k :: freshKeys (k :: seen) ks

/-- A call on the manager: one of the list-changing calls, or `searchDone`. -/
inductive Call where
  | op (o : Op)
  | searchDone (resultList : List String)
deriving DecidableEq, Repr

/-- One call applied to a state. -/
def applyCall (qSort : Sorter) (preset : List String) (s : AppsManager) : Call → AppsManager
  | Call.op o => applyOp qSort preset s o
  | Call.searchDone resultList => searchDone s resultList

/-- The state reached from `s` by a sequence of calls. -/
def runCalls (qSort : Sorter) (preset : List String) (s : AppsManager)
    (calls : List Call) : AppsManager :=
  calls.foldl (applyCall qSort preset) s

/-- A call that a backend with unique keys makes: a guarded list call, or a
search result that names no key twice. -/
def Call.guarded (s : AppsManager) : Call → Prop
  | Call.op o => o.guarded s
  | Call.searchDone resultList => resultList.Nodup

/-- Every call of the sequence is guarded in the state in which it is made. -/
def guardedCalls (qSort : Sorter) (preset : List String) : AppsManager → List Call → Prop
  | _, [] => True
  | s, c :: cs => c.guarded s ∧ guardedCalls qSort preset (applyCall qSort preset s c) cs

/-- A catalog as the constructor leaves it on duplicate-free inputs: no key
twice within all-items and stash taken together, none twice in the
usage-ordered list, the search results or the two persisted lists, and every
usage-ordered key is an all-items key. -/
def WellFormed (s : AppsManager) : Prop :=
  (keysOf s.m_allAppInfoList ++ keysOf s.m_stashList).Nodup ∧
  (keysOf s.m_usedSortedList).Nodup ∧
  (∀ k ∈ keysOf s.m_usedSortedList, k ∈ keysOf s.m_allAppInfoList) ∧
  (keysOf s.m_appSearchResultList).Nodup ∧
  (keysOf s.APP_USER_SORTED_LIST).Nodup ∧
  (keysOf s.APP_USED_SORTED_LIST).Nodup

/-! ## Icon sizes -/

/-- The loop of `perfectIconSize` over the table `l`: the first entry that the
requested size is below, or 256 when there is none. -/
def perfectIconSizeLoop : List Int → Int → Int
  | [], _ => 256
  | x :: rest, size => if size < x then x else perfectIconSizeLoop rest size

/-- Embeds `perfectIconSize` of `appsmanager.cpp`. -/
def perfectIconSize (size : Int) : Int :=
  perfectIconSizeLoop [16, 24, 32, 48, 64, 96, 128, 256] size

/-! ## The paged view (`src/src/view/multipagesview.cpp`)

Of `MultiPagesView` the model keeps what paging reads and writes: the page
count, the page index, the list of page views and what is handed to the page
control and to the switch animation.  The list of page models is pushed to and
popped together with the list of page views and always has its length, so it is
not kept apart.  An access `m_appGridViewList[i]` outside the list is an error;
the error carries the state in which the access was made.  The page count that
`AppsManager::getPageCount` returns is an argument of the calls that ask for
it. -/

/-- A page view: what `ShowPageView` sets on it. -/
structure AppGridView where
  visible : Bool
deriving DecidableEq, Repr

/-- The paging state of `MultiPagesView`. -/
structure MultiPagesView where
  m_pageCount : Int
  m_pageIndex : Int
  m_appGridViewList : List AppGridView
  pageControlCount : Int
  pageControlCurrent : Int
  animationEndValue : Int
deriving DecidableEq, Repr

/-- The members as the constructor initialises them. -/
def MultiPagesView.init : MultiPagesView :=
  { m_pageCount := 0, m_pageIndex := 0, m_appGridViewList := [],
    pageControlCount := 0, pageControlCurrent := 0, animationEndValue := 0 }

/-- The access `m_appGridViewList[i]` with an `int` index. -/
def viewAt (l : List AppGridView) (i : Int) : Option AppGridView :=
  if 0 ≤ i then l[i.toNat]? else none

/-- Embeds `MultiPagesView::showCurrentPage`; `viewX` gives the horizontal
position `x()` that the layout has assigned to a page view. -/
def showCurrentPage (viewX : AppGridView → Int) (s : MultiPagesView)
    (currentPage : Int) : Except MultiPagesView MultiPagesView :=
  let m_pageIndex :=
    if currentPage > 0 then
      (if currentPage < s.m_pageCount then currentPage else s.m_pageCount - 1)
    else 0
  let s1 := { s with m_pageIndex := m_pageIndex }
  if m_pageIndex = 0 then
    Except.ok { s1 with animationEndValue := 0, pageControlCurrent := m_pageIndex }
  else
    match viewAt s1.m_appGridViewList m_pageIndex with
    | none => Except.error s1
    | some view =>
      Except.ok { s1 with animationEndValue := viewX view, pageControlCurrent := m_pageIndex }

/-- The loop of `ShowPageView` from index `i` on: the views at the indices
below `bound` are shown when their index is below `pageCount` and hidden
otherwise; an error, with the views as changed so far, when the list ends
before `bound`. -/
def setVisibleFrom (pageCount bound : Int) :
    Int → List AppGridView → Except (List AppGridView) (List AppGridView)
  | i, [] => if i < bound then Except.error [] else Except.ok []
  | i, view :: rest =>
    if i < bound then
      match setVisibleFrom pageCount bound (i + 1) rest with
      | Except.error r => Except.error ({ view with visible := decide (i < pageCount) } :: r)
      | Except.ok r => Except.ok ({ view with visible := decide (i < pageCount) } :: r)
    else Except.ok (view :: rest)

/-- Embeds `MultiPagesView::ShowPageView`; `pageCount` is what `getPageCount`
returns for the category. -/
def ShowPageView (s : MultiPagesView) (pageCount : Int) :
    Except MultiPagesView MultiPagesView :=
  match setVisibleFrom pageCount (max pageCount s.m_pageCount) 0 s.m_appGridViewList with
  | Except.error views => Except.error { s with m_appGridViewList := views }
  | Except.ok views =>
    Except.ok
      { s with
        m_appGridViewList := views,
        pageControlCount := if pageCount > 1 then pageCount else 0,
        m_pageCount := pageCount }

/-- The first loop of `updatePageCount`: views are appended until the page
count reaches `pageCount`. -/
def addPages (pageCount : Int) : Nat → MultiPagesView → MultiPagesView
  | 0, s => s
  | fuel + 1, s =>
    if pageCount > s.m_pageCount then
      addPages pageCount fuel
        { s with
          m_appGridViewList := s.m_appGridViewList ++ [{ visible := false }],
          m_pageCount := s.m_pageCount + 1 }
    else s

/-- The second loop of `updatePageCount`: the last view is removed until the
page count is down to `pageCount`; `removeLast` on an empty list is an
error. -/
def removePages (pageCount : Int) : Nat → MultiPagesView → Except MultiPagesView MultiPagesView
  | 0, s => Except.ok s
  | fuel + 1, s =>
    if pageCount < s.m_pageCount then
      if s.m_appGridViewList.isEmpty then Except.error s
      else
        removePages pageCount fuel
          { s with
            m_appGridViewList := s.m_appGridViewList.dropLast,
            m_pageCount := s.m_pageCount - 1 }
    else Except.ok s

/-- Embeds `MultiPagesView::updatePageCount`; `count` is what `getPageCount`
returns.  Each loop runs for as many rounds as the page counts differ by. -/
def updatePageCount (s : MultiPagesView) (count : Int) :
    Except MultiPagesView MultiPagesView :=
  let pageCount := if count < 1 then 1 else count
  if pageCount = s.m_pageCount then Except.ok s
  else
    let r :=
      if pageCount > s.m_pageCount then
        Except.ok (addPages pageCount (pageCount - s.m_pageCount).toNat s)
      else removePages pageCount (s.m_pageCount - pageCount).toNat s
    match r with
    | Except.error e => Except.error e
    | Except.ok s1 =>
      Except.ok { s1 with pageControlCount := if s1.m_pageCount > 1 then pageCount else 0 }

/-- Embeds `MultiPagesView::resetCurPageIndex`. -/
def resetCurPageIndex (s : MultiPagesView) : MultiPagesView :=
  { s with m_pageIndex := 0 }

/-- The calls that change the paging state. -/
inductive ViewCall where
  | updatePageCount (count : Int)
  | ShowPageView (pageCount : Int)
  | showCurrentPage (currentPage : Int)
  | resetCurPageIndex
deriving DecidableEq, Repr

/-- One call applied to a paging state. -/
def applyViewCall (viewX : AppGridView → Int) (s : MultiPagesView) :
    ViewCall → Except MultiPagesView MultiPagesView
  | ViewCall.updatePageCount count => updatePageCount s count
  | ViewCall.ShowPageView pageCount => ShowPageView s pageCount
  | ViewCall.showCurrentPage currentPage => showCurrentPage viewX s currentPage
  | ViewCall.resetCurPageIndex => Except.ok (resetCurPageIndex s)

/-- A sequence of calls from a state; the first error stops the run. -/
def runView (viewX : AppGridView → Int) :
    MultiPagesView → List ViewCall → Except MultiPagesView MultiPagesView
  | s, [] => Except.ok s
  | s, c :: cs =>
    match applyViewCall viewX s c with
    | Except.error e => Except.error e
    | Except.ok s1 => runView viewX s1 cs

/-- A paged view with three pages, as `updatePageCount` leaves it after the
constructor when `getPageCount` returns 3, for concrete runs of the model. -/
def samplePages : MultiPagesView :=
  { m_pageCount := 3, m_pageIndex := 0,
    m_appGridViewList := [{ visible := false }, { visible := false }, { visible := false }],
    pageControlCount := 3, pageControlCurrent := 0, animationEndValue := 0 }

end Launcher

namespace Launcher

/-! ## Strings and indices -/

theorem qLess_iff (a b : String) : qLess a b = true ↔ a < b := by
  simp [qLess, String.lt_iff_toList_lt]

theorem qLess_eq_false_iff (a b : String) : qLess a b = false ↔ b ≤ a := by
  rw [← not_lt, ← qLess_iff]; simp

theorem indexOf_bounds {α : Type} (eq : α → α → Bool) (l : List α) (x : α) :
    -1 ≤ QList.indexOf eq l x ∧ QList.indexOf eq l x < l.length := by
  induction l with
  | nil => simp [QList.indexOf]
  | cons y ys ih =>
    obtain ⟨h1, h2⟩ := ih
    simp only [QList.indexOf, List.length_cons, Nat.cast_add, Nat.cast_one]
    split_ifs <;> constructor <;> omega

theorem indexOf_eq_neg_one_iff {α : Type} (eq : α → α → Bool) (l : List α) (x : α) :
    QList.indexOf eq l x = -1 ↔ ∀ y ∈ l, eq y x = false := by
  induction l with
  | nil => simp [QList.indexOf]
  | cons y ys ih =>
    have hb := indexOf_bounds eq ys x
    simp only [QList.indexOf, List.mem_cons, forall_eq_or_imp]
    split
    · rename_i h; simp [h]
    · rename_i h
      split
      · rename_i h2
        simp only [h, true_iff]
        exact ⟨by simp [h], ih.mp h2⟩
      · rename_i h2
        constructor
        · intro h3; omega
        · intro h3; exact absurd (ih.mpr h3.2) h2

theorem contains_eq_false_iff {α : Type} (eq : α → α → Bool) (l : List α) (x : α) :
    QList.contains eq l x = false ↔ ∀ y ∈ l, eq y x = false := by
  simp [QList.contains]

theorem opEq_iff (a b : ItemInfo) : a.opEq b = true ↔ a.m_key = b.m_key := by
  simp [ItemInfo.opEq]

theorem opEq_eq_false_iff (a b : ItemInfo) : a.opEq b = false ↔ a.m_key ≠ b.m_key := by
  simp [ItemInfo.opEq]

/-! ## The preset comparator -/

/-- The comparator as a lexicographic order: first the preset index (with
`-1`, not listed, after every index), then the display name. -/
theorem presetLess_iff (preset : List String) (a b : ItemInfo) :
    presetLess preset a b = true ↔
      (presetIndex preset a ≠ -1 ∧
        (presetIndex preset b = -1 ∨ presetIndex preset a < presetIndex preset b)) ∨
      (presetIndex preset a = presetIndex preset b ∧ a.m_name < b.m_name) := by
  unfold presetIndex
  have ha := indexOf_bounds (fun a b => a == b) preset (toLower a.m_key)
  have hb := indexOf_bounds (fun a b => a == b) preset (toLower b.m_key)
  simp only [presetLess]
  split
  · rename_i h
    rw [qLess_iff]
    constructor
    · intro h1; exact Or.inr ⟨h, h1⟩
    · rintro (⟨h1, h2⟩ | ⟨_, h2⟩)
      · exfalso; omega
      · exact h2
  · rename_i h
    split
    · rename_i h1
      simp only [Bool.false_eq_true, false_iff]
      rintro (⟨h2, _⟩ | ⟨h2, _⟩)
      · exact h2 h1
      · exact h h2
    · rename_i h1
      split
      · rename_i h2
        simp only [true_iff]
        exact Or.inl ⟨h1, Or.inl h2⟩
      · rename_i h2
        simp only [decide_eq_true_eq]
        constructor
        · intro h3; exact Or.inl ⟨h1, Or.inr h3⟩
        · rintro (⟨_, h3 | h3⟩ | ⟨h3, _⟩)
          · exact absurd h3 h2
          · exact h3
          · exact absurd h3 h

theorem presetIndex_bounds (preset : List String) (a : ItemInfo) :
    -1 ≤ presetIndex preset a ∧ presetIndex preset a < preset.length :=
  indexOf_bounds _ _ _

theorem presetIndex_eq_neg_one_iff (preset : List String) (a : ItemInfo) :
    presetIndex preset a = -1 ↔ toLower a.m_key ∉ preset := by
  unfold presetIndex
  rw [indexOf_eq_neg_one_iff]
  constructor
  · intro h hm
    have := h _ hm
    simp at this
  · intro h y hy
    simp only [beq_eq_false_iff_ne, ne_eq]
    rintro rfl
    exact h hy

theorem presetLess_eq_false_iff (preset : List String) (a b : ItemInfo) :
    presetLess preset a b = false ↔
      ¬ ((presetIndex preset a ≠ -1 ∧
        (presetIndex preset b = -1 ∨ presetIndex preset a < presetIndex preset b)) ∨
      (presetIndex preset a = presetIndex preset b ∧ a.m_name < b.m_name)) := by
  rw [← presetLess_iff]; simp

theorem presetLess_irrefl (preset : List String) (a : ItemInfo) :
    presetLess preset a a = false := by
  rw [presetLess_eq_false_iff]
  rintro (⟨h1, h2 | h2⟩ | ⟨_, h2⟩)
  · exact h1 h2
  · omega
  · exact lt_irrefl _ h2

theorem presetLess_trans (preset : List String) (a b c : ItemInfo)
    (hab : presetLess preset a b = true) (hbc : presetLess preset b c = true) :
    presetLess preset a c = true := by
  have ha := presetIndex_bounds preset a
  have hb := presetIndex_bounds preset b
  have hc := presetIndex_bounds preset c
  rw [presetLess_iff] at hab hbc ⊢
  rcases hab with h1 | ⟨h1, h1n⟩ <;> rcases hbc with h2 | ⟨h2, h2n⟩
  · left; omega
  · left; omega
  · left; omega
  · right; exact ⟨by omega, lt_trans h1n h2n⟩

/-- Two records tie under the comparator exactly when they have the same
preset index and the same display name. -/
theorem presetLess_incomp_iff (preset : List String) (a b : ItemInfo) :
    (presetLess preset a b = false ∧ presetLess preset b a = false) ↔
      (presetIndex preset a = presetIndex preset b ∧ a.m_name = b.m_name) := by
  have ha := presetIndex_bounds preset a
  have hb := presetIndex_bounds preset b
  rw [presetLess_eq_false_iff, presetLess_eq_false_iff]
  constructor
  · rintro ⟨h1, h2⟩
    have hidx : presetIndex preset a = presetIndex preset b := by
      by_contra hne
      rcases lt_or_gt_of_ne hne with hlt | hgt
      · by_cases h : presetIndex preset a = -1
        · exact h2 (Or.inl ⟨by omega, Or.inl h⟩)
        · exact h1 (Or.inl ⟨h, Or.inr hlt⟩)
      · by_cases h : presetIndex preset b = -1
        · exact h1 (Or.inl ⟨by omega, Or.inl h⟩)
        · exact h2 (Or.inl ⟨h, Or.inr hgt⟩)
    refine ⟨hidx, le_antisymm ?_ ?_⟩
    · exact not_lt.mp (fun h => h2 (Or.inr ⟨hidx.symm, h⟩))
    · exact not_lt.mp (fun h => h1 (Or.inr ⟨hidx, h⟩))
  · rintro ⟨h1, h2⟩
    constructor
    · rintro (⟨h3, h4⟩ | ⟨_, h4⟩)
      · omega
      · rw [h2] at h4; exact lt_irrefl _ h4
    · rintro (⟨h3, h4⟩ | ⟨_, h4⟩)
      · omega
      · rw [h2] at h4; exact lt_irrefl _ h4

theorem presetLess_strictWeakOrder (preset : List String) :
    StrictWeakOrder (presetLess preset) := by
  refine ⟨presetLess_irrefl preset, presetLess_trans preset, ?_⟩
  intro a b c h1 h2 h3 h4
  have hab := (presetLess_incomp_iff preset a b).mp ⟨h1, h2⟩
  have hbc := (presetLess_incomp_iff preset b c).mp ⟨h3, h4⟩
  exact (presetLess_incomp_iff preset a c).mpr
    ⟨hab.1.trans hbc.1, hab.2.trans hbc.2⟩

/-- C5. For every preset key list the comparator of `sortByPresetOrder` is a
strict weak ordering on item records: it is irreflexive, asymmetric and
transitive, its incomparability relation is transitive, and two records that
compare as equivalent (neither before the other) have equal display names. -/
theorem presetLess_strict_weak_ordering (preset : List String) :
    (∀ a, presetLess preset a a = false) ∧
    (∀ a b, presetLess preset a b = true → presetLess preset b a = false) ∧
    (∀ a b c, presetLess preset a b = true → presetLess preset b c = true →
      presetLess preset a c = true) ∧
    (∀ a b c, presetLess preset a b = false → presetLess preset b a = false →
      presetLess preset b c = false → presetLess preset c b = false →
      presetLess preset a c = false ∧ presetLess preset c a = false) ∧
    (∀ a b, presetLess preset a b = false → presetLess preset b a = false →
      a.m_name = b.m_name) := by
  refine ⟨presetLess_irrefl preset, ?_, presetLess_trans preset,
    (presetLess_strictWeakOrder preset).2.2, ?_⟩
  · intro a b hab
    by_contra hba
    have hba : presetLess preset b a = true := by simpa using hba
    have := presetLess_trans preset a b a hab hba
    rw [presetLess_irrefl] at this
    exact Bool.false_ne_true this
  · intro a b h1 h2
    exact ((presetLess_incomp_iff preset a b).mp ⟨h1, h2⟩).2

/-! ## Sorting -/

theorem StrictWeakOrder.asymm {α : Type} {lt : α → α → Bool} (h : StrictWeakOrder lt)
    {a b : α} (hab : lt a b = true) : lt b a = false := by
  by_contra hba
  have hba : lt b a = true := by simpa using hba
  have := h.2.1 a b a hab hba
  rw [h.1] at this
  exact Bool.false_ne_true this

theorem StrictWeakOrder.neg_trans {α : Type} {lt : α → α → Bool} (h : StrictWeakOrder lt)
    {a b c : α} (hab : lt a b = false) (hbc : lt b c = false) : lt a c = false := by
  by_contra hac
  have hac : lt a c = true := by simpa using hac
  have hba : lt b a = false := by
    by_contra hba
    have hba : lt b a = true := by simpa using hba
    have := h.2.1 b a c hba hac
    rw [hbc] at this
    exact Bool.false_ne_true this
  have hcb : lt c b = false := by
    by_contra hcb
    have hcb : lt c b = true := by simpa using hcb
    have := h.2.1 a c b hac hcb
    rw [hab] at this
    exact Bool.false_ne_true this
  have := (h.2.2 a b c hab hba hbc hcb).1
  rw [hac] at this
  exact Bool.false_ne_true this.symm

theorem insertSorted_perm {α : Type} (lt : α → α → Bool) (x : α) (l : List α) :
    (insertSorted lt x l).Perm (x :: l) := by
  induction l with
  | nil => simp [insertSorted]
  | cons y ys ih =>
    simp only [insertSorted]
    split
    · exact (List.Perm.cons y ih).trans (List.Perm.swap x y ys)
    · exact List.Perm.refl _

theorem stable_sort_perm {α : Type} (lt : α → α → Bool) (l : List α) :
    (stable_sort lt l).Perm l := by
  induction l with
  | nil => simp [stable_sort]
  | cons x xs ih =>
    simp only [stable_sort]
    exact (insertSorted_perm lt x _).trans (List.Perm.cons x ih)

theorem insertSorted_sorted {α : Type} {lt : α → α → Bool} (h : StrictWeakOrder lt)
    (x : α) (l : List α) (hl : l.Pairwise (fun a b => lt b a = false)) :
    (insertSorted lt x l).Pairwise (fun a b => lt b a = false) := by
  induction l with
  | nil => simp [insertSorted]
  | cons y ys ih =>
    rw [List.pairwise_cons] at hl
    simp only [insertSorted]
    split
    · rename_i hyx
      rw [List.pairwise_cons]
      refine ⟨?_, ih hl.2⟩
      intro z hz
      rcases List.mem_cons.mp ((List.Perm.mem_iff (insertSorted_perm lt x ys)).mp hz)
        with rfl | hz
      · exact h.asymm hyx
      · exact hl.1 z hz
    · rename_i hyx
      have hyx : lt y x = false := by simpa using hyx
      rw [List.pairwise_cons]
      refine ⟨?_, List.pairwise_cons.mpr hl⟩
      intro z hz
      rcases List.mem_cons.mp hz with rfl | hz
      · exact hyx
      · exact h.neg_trans (hl.1 z hz) hyx

theorem stable_sort_sorted {α : Type} {lt : α → α → Bool} (h : StrictWeakOrder lt)
    (l : List α) : (stable_sort lt l).Pairwise (fun a b => lt b a = false) := by
  induction l with
  | nil => simp [stable_sort]
  | cons x xs ih => exact insertSorted_sorted h x _ ih

/-- Stability: the elements of a class whose members never compare as less
than one another come out in the order they went in. -/
theorem insertSorted_filter {α : Type} (lt : α → α → Bool) (p : α → Bool)
    (hp : ∀ a b, p a = true → p b = true → lt a b = false) (x : α) (l : List α) :
    (insertSorted lt x l).filter p = (x :: l).filter p := by
  induction l with
  | nil => simp [insertSorted]
  | cons y ys ih =>
    simp only [insertSorted]
    split
    · rename_i hyx
      rw [List.filter_cons, ih]
      by_cases hy : p y = true
      · by_cases hx : p x = true
        · have := hp y x hy hx
          rw [hyx] at this
          exact absurd this (by simp)
        · simp [List.filter_cons, hy, hx]
      · simp [List.filter_cons, hy]
    · rfl

theorem stable_sort_filter {α : Type} (lt : α → α → Bool) (p : α → Bool)
    (hp : ∀ a b, p a = true → p b = true → lt a b = false) (l : List α) :
    (stable_sort lt l).filter p = l.filter p := by
  induction l with
  | nil => simp [stable_sort]
  | cons x xs ih =>
    simp only [stable_sort]
    rw [insertSorted_filter lt p hp, List.filter_cons, List.filter_cons, ih]

theorem insertionSorter_isSorter : IsSorter insertionSorter := by
  intro lt h l
  exact ⟨stable_sort_perm lt l, stable_sort_sorted h l⟩

theorem openCountGreater_strictWeakOrder : StrictWeakOrder openCountGreater := by
  refine ⟨?_, ?_, ?_⟩
  · intro a; simp [openCountGreater]
  · intro a b c; simp only [openCountGreater, decide_eq_true_eq]; omega
  · intro a b c; simp only [openCountGreater, decide_eq_false_iff_not]; omega

/-! ## Preset order of a sorted list -/

/-- C4. For every preset key list and every item list, `sortByPresetOrder`
(with a `qSort` that meets its contract) returns a permutation of the input in
which no item whose lowercased key is absent from the preset list stands
before an item whose lowercased key is in the preset list; display names play
no part. -/
theorem sortByPresetOrder_listed_first (qSort : Sorter) (hq : IsSorter qSort)
    (preset : List String) (l : ItemInfoList) :
    (sortByPresetOrder qSort preset l).Perm l ∧
    (sortByPresetOrder qSort preset l).Pairwise
      (fun a b => ¬ (toLower a.m_key ∉ preset ∧ toLower b.m_key ∈ preset)) := by
  obtain ⟨hperm, hsorted⟩ := hq (presetLess preset) (presetLess_strictWeakOrder preset) l
  refine ⟨hperm, hsorted.imp ?_⟩
  intro a b hba
  rintro ⟨ha, hb⟩
  rw [presetLess_eq_false_iff] at hba
  apply hba
  left
  refine ⟨?_, Or.inl ((presetIndex_eq_neg_one_iff preset a).mpr ha)⟩
  intro h
  exact ((presetIndex_eq_neg_one_iff preset b).mp h) hb

theorem sortByPresetOrder_listed_first_witness :
    (sortByPresetOrder insertionSorter ["b", "a"]
        [item "z" "Aaa" 0 0, item "A" "Zed" 0 0, item "y" "Abc" 0 0, item "b" "Zzz" 0 0]).Perm
      [item "z" "Aaa" 0 0, item "A" "Zed" 0 0, item "y" "Abc" 0 0, item "b" "Zzz" 0 0] ∧
    (sortByPresetOrder insertionSorter ["b", "a"]
        [item "z" "Aaa" 0 0, item "A" "Zed" 0 0, item "y" "Abc" 0 0, item "b" "Zzz" 0 0]).Pairwise
      (fun a b => ¬ (toLower a.m_key ∉ ["b", "a"] ∧ toLower b.m_key ∈ ["b", "a"])) :=
  sortByPresetOrder_listed_first insertionSorter insertionSorter_isSorter ["b", "a"]
    [item "z" "Aaa" 0 0, item "A" "Zed" 0 0, item "y" "Abc" 0 0, item "b" "Zzz" 0 0]

/-! ## Usage order -/

theorem refreshUsedInfoList_of_ne_nil (s : AppsManager) (h : s.m_usedSortedList ≠ []) :
    (refreshUsedInfoList s).m_usedSortedList =
      stable_sort openCountGreater s.m_usedSortedList := by
  have he : s.m_usedSortedList.isEmpty = false := by
    cases hs : s.m_usedSortedList with
    | nil => exact absurd hs h
    | cons x xs => rfl
  simp [refreshUsedInfoList, saveUsedSortedList, he]

/-- C3. For every non-empty usage-ordered list, `refreshUsedInfoList` leaves a
permutation of that list in which open counts are non-increasing from front to
back and the records of any one open count stand in their previous relative
order; in particular `[A(5), B(5), C(3)]` stays `[A, B, C]` and becomes
`[C, A, B]` once the count of `C` is 6. -/
theorem refreshUsedInfoList_stable_descending (s : AppsManager)
    (h : s.m_usedSortedList ≠ []) :
    (refreshUsedInfoList s).m_usedSortedList.Perm s.m_usedSortedList ∧
    (refreshUsedInfoList s).m_usedSortedList.Pairwise
      (fun a b => b.m_openCount ≤ a.m_openCount) ∧
    (∀ c, (refreshUsedInfoList s).m_usedSortedList.filter (fun x => x.m_openCount == c) =
      s.m_usedSortedList.filter (fun x => x.m_openCount == c)) ∧
    (refreshUsedInfoList
        { s with m_usedSortedList := [item "A" "A" 0 5, item "B" "B" 0 5, item "C" "C" 0 3]
        }).m_usedSortedList = [item "A" "A" 0 5, item "B" "B" 0 5, item "C" "C" 0 3] ∧
    (refreshUsedInfoList
        { s with m_usedSortedList := [item "A" "A" 0 5, item "B" "B" 0 5, item "C" "C" 0 6]
        }).m_usedSortedList = [item "C" "C" 0 6, item "A" "A" 0 5, item "B" "B" 0 5] := by
  refine ⟨?_, ?_, ?_, ?_, ?_⟩
  · rw [refreshUsedInfoList_of_ne_nil s h]
    exact stable_sort_perm _ _
  · rw [refreshUsedInfoList_of_ne_nil s h]
    refine (stable_sort_sorted openCountGreater_strictWeakOrder _).imp ?_
    intro a b hab
    simpa [openCountGreater] using hab
  · intro c
    rw [refreshUsedInfoList_of_ne_nil s h]
    apply stable_sort_filter
    intro a b ha hb
    simp only [beq_iff_eq] at ha hb
    simp [openCountGreater, ha, hb]
  · rw [refreshUsedInfoList_of_ne_nil _ (by simp)]
    dsimp only
    decide
  · rw [refreshUsedInfoList_of_ne_nil _ (by simp)]
    dsimp only
    decide

theorem refreshUsedInfoList_stable_descending_witness :
    (refreshUsedInfoList
        { AppsManager.init [] [] with
          m_usedSortedList := [item "A" "A" 0 2, item "B" "B" 0 7, item "C" "C" 0 2]
        }).m_usedSortedList = [item "B" "B" 0 7, item "A" "A" 0 2, item "C" "C" 0 2] ∧
    (refreshUsedInfoList
        { AppsManager.init [] [] with
          m_usedSortedList := [item "A" "A" 0 2, item "B" "B" 0 7, item "C" "C" 0 2]
        }).m_usedSortedList.Pairwise (fun a b => b.m_openCount ≤ a.m_openCount) :=
  ⟨by decide,
   (refreshUsedInfoList_stable_descending
      { AppsManager.init [] [] with
        m_usedSortedList := [item "A" "A" 0 2, item "B" "B" 0 7, item "C" "C" 0 2] }
      (by decide)).2.1⟩

/-! ## Search -/

theorem appendSearchResult_foldl (s : AppsManager) (keys : List String) :
    (keys.foldl appendSearchResult s).m_appSearchResultList =
        s.m_appSearchResultList ++
          keys.filterMap (fun key => s.m_allAppInfoList.find? (fun info => info.m_key == key)) ∧
    (keys.foldl appendSearchResult s).m_allAppInfoList = s.m_allAppInfoList := by
  induction keys generalizing s with
  | nil => simp
  | cons k ks ih =>
    simp only [List.foldl_cons, List.filterMap_cons]
    obtain ⟨h1, h2⟩ := ih (appendSearchResult s k)
    rw [h1, h2]
    unfold appendSearchResult
    cases hf : s.m_allAppInfoList.find? (fun info => info.m_key == k) with
    | none => simp
    | some info => simp

/-- C8. After `searchDone` the search-result list is the list of result keys in
the order of the backend, each replaced by the first all-items record with
that key and each key with no all-items record skipped.  The earlier search
results play no part, every result record is an all-items record (the stash is
not consulted), and for all-items `[a, b, c]` with `x` stashed the response
`["c", "a", "x"]` gives `[item(c), item(a)]`. -/
theorem searchDone_resolves_in_order (s : AppsManager) (resultList : List String) :
    (searchDone s resultList).m_appSearchResultList =
      resultList.filterMap
        (fun key => s.m_allAppInfoList.find? (fun info => info.m_key == key)) ∧
    (∀ r ∈ (searchDone s resultList).m_appSearchResultList,
      r ∈ s.m_allAppInfoList ∧ r.m_key ∈ resultList) ∧
    (searchDone
        { s with
          m_allAppInfoList := [item "a" "A" 0 0, item "b" "B" 0 0, item "c" "C" 0 0],
          m_stashList := [item "x" "X" 0 0] }
        ["c", "a", "x"]).m_appSearchResultList = [item "c" "C" 0 0, item "a" "A" 0 0] := by
  have key : ∀ (t : AppsManager) (l : List String),
      (searchDone t l).m_appSearchResultList =
        l.filterMap (fun key => t.m_allAppInfoList.find? (fun info => info.m_key == key)) := by
    intro t l
    unfold searchDone
    rw [(appendSearchResult_foldl _ l).1]
    simp
  refine ⟨key s resultList, ?_, ?_⟩
  · intro r hr
    rw [key, List.mem_filterMap] at hr
    obtain ⟨k, hk, hfind⟩ := hr
    have hmem := List.mem_of_find?_eq_some hfind
    have hp := List.find?_some hfind
    simp only [beq_iff_eq] at hp
    exact ⟨hmem, hp ▸ hk⟩
  · rw [key]
    dsimp only
    decide

/-! ## The search timer -/

theorem generateCategoryMap_search (qSort : Sorter) (preset : List String) (s : AppsManager) :
    (generateCategoryMap qSort preset s).searchCalls = s.searchCalls ∧
    (generateCategoryMap qSort preset s).m_searchText = s.m_searchText ∧
    (generateCategoryMap qSort preset s).m_searchTimer = s.m_searchTimer ∧
    (generateCategoryMap qSort preset s).m_delayRefreshTimer = s.m_delayRefreshTimer := by
  simp [generateCategoryMap]

theorem elapse_search (qSort : Sorter) (preset : List String) (s : AppsManager) (dt : Nat) :
    (elapse qSort preset s dt).searchCalls =
      (if (timerElapse s.m_searchTimer dt).1 then s.searchCalls ++ [s.m_searchText]
        else s.searchCalls) ∧
    (elapse qSort preset s dt).m_searchText = s.m_searchText ∧
    (elapse qSort preset s dt).m_searchTimer = (timerElapse s.m_searchTimer dt).2 := by
  unfold elapse
  by_cases h1 : (timerElapse s.m_searchTimer dt).1 = true <;>
  by_cases h2 : (timerElapse s.m_delayRefreshTimer dt).1 = true <;>
  simp [h1, h2, onSearchTimeOut, delayRefreshData, saveUserSortedList,
    generateCategoryMap_search]

theorem searchBurst_state (qSort : Sorter) (preset : List String) (s : AppsManager)
    (first : String) (rest : List (Nat × String))
    (hgap : ∀ p ∈ rest, p.1 < searchTimerInterval) :
    (searchBurst qSort preset s first rest).searchCalls = s.searchCalls ∧
    (searchBurst qSort preset s first rest).m_searchText =
      (rest.map (fun p => p.2)).getLastD first ∧
    (searchBurst qSort preset s first rest).m_searchTimer = some searchTimerInterval := by
  unfold searchBurst
  induction rest using List.reverseRecOn with
  | nil => simp [searchApp]
  | append_singleton l p ih =>
    have hl : ∀ q ∈ l, q.1 < searchTimerInterval := fun q hq => hgap q (by simp [hq])
    have hp : p.1 < searchTimerInterval := hgap p (by simp)
    obtain ⟨h1, _, h3⟩ := ih hl
    obtain ⟨e1, _, _⟩ := elapse_search qSort preset
      (l.foldl (fun st p => searchApp (elapse qSort preset st p.1) p.2) (searchApp s first)) p.1
    have hnot : (timerElapse (some searchTimerInterval) p.1).1 = false := by
      simp only [timerElapse]
      rw [if_neg (by omega)]
    rw [h3, hnot] at e1
    simp only [List.foldl_append, List.foldl_cons, List.foldl_nil, List.map_append,
      List.map_cons, List.map_nil]
    refine ⟨?_, ?_, ?_⟩
    · show (elapse qSort preset _ p.1).searchCalls = s.searchCalls
      rw [← h1]
      simpa using e1
    · simp [searchApp]
    · simp [searchApp]

/-- C9. For every burst of `n >= 1` calls of `searchApp` in which each call
comes less than the debounce interval (150 time units) after the one before,
followed by a quiet period of at least the interval, exactly one `Search` call
is sent to the backend, its argument is the query of the last `searchApp`
call, and the timer is at rest afterwards. -/
theorem searchApp_debounce (qSort : Sorter) (preset : List String) (s : AppsManager)
    (first : String) (rest : List (Nat × String)) (quiet : Nat)
    (hgap : ∀ p ∈ rest, p.1 < 150) (hquiet : 150 ≤ quiet) :
    (elapse qSort preset (searchBurst qSort preset s first rest) quiet).searchCalls =
      s.searchCalls ++ [(rest.map (fun p => p.2)).getLastD first] ∧
    (elapse qSort preset (searchBurst qSort preset s first rest) quiet).m_searchTimer =
      none := by
  obtain ⟨h1, h2, h3⟩ := searchBurst_state qSort preset s first rest hgap
  obtain ⟨e1, _, e3⟩ := elapse_search qSort preset
    (searchBurst qSort preset s first rest) quiet
  have hfire : timerElapse (some searchTimerInterval) quiet = (true, none) := by
    simp only [timerElapse]
    rw [if_pos (by simpa [searchTimerInterval] using hquiet)]
  rw [h3, hfire] at e1 e3
  rw [h1, h2] at e1
  exact ⟨by simpa using e1, by simpa using e3⟩

theorem searchApp_debounce_witness :
    (elapse insertionSorter []
        (searchBurst insertionSorter [] (AppsManager.init [] []) "d"
          [(40, "de"), (149, "dee"), (0, "deep")]) 150).searchCalls = ["deep"] :=
  (searchApp_debounce insertionSorter [] (AppsManager.init [] []) "d"
    [(40, "de"), (149, "dee"), (0, "deep")] 150 (by decide) (by decide)).1

/-! ## `generateCategoryMap` -/

theorem foldl_pair {α β γ : Type} (f : α → γ → α) (g : β → γ → β) (l : List γ)
    (a : α) (b : β) :
    l.foldl (fun (acc : α × β) x => (f acc.1 x, g acc.2 x)) (a, b) =
      (l.foldl f a, l.foldl g b) := by
  induction l generalizing a b with
  | nil => rfl
  | cons x xs ih => simp only [List.foldl_cons]; exact ih _ _

theorem generateCategoryMap_all (qSort : Sorter) (preset : List String) (s : AppsManager) :
    (generateCategoryMap qSort preset s).m_allAppInfoList =
      sortByPresetOrder qSort preset s.m_allAppInfoList := rfl

theorem generateCategoryMap_stash (qSort : Sorter) (preset : List String) (s : AppsManager) :
    (generateCategoryMap qSort preset s).m_stashList = s.m_stashList := rfl

theorem generateCategoryMap_appInfos (qSort : Sorter) (preset : List String)
    (s : AppsManager) :
    (generateCategoryMap qSort preset s).m_appInfos =
      (sortByPresetOrder qSort preset s.m_allAppInfoList).foldl categoryStep [] := by
  simp only [generateCategoryMap, foldl_pair]

theorem generateCategoryMap_used (qSort : Sorter) (preset : List String)
    (s : AppsManager) :
    (generateCategoryMap qSort preset s).m_usedSortedList =
      ((sortByPresetOrder qSort preset s.m_allAppInfoList).foldl usedListStep
          s.m_usedSortedList).filter
        (fun it => QList.indexOf ItemInfo.opEq
          (sortByPresetOrder qSort preset s.m_allAppInfoList) it != -1) := by
  simp only [generateCategoryMap, foldl_pair]

theorem appendAt_insert_nil (m : QMap) (c : Int) (info : ItemInfo)
    (hc : QMap.contains m c = false) :
    QMap.appendAt (QMap.insert m c []) c info = QMap.appendAt m c info := by
  induction m with
  | nil => simp [QMap.insert, QMap.appendAt]
  | cons p m ih =>
    obtain ⟨k, w⟩ := p
    simp only [QMap.contains, List.any_cons, Bool.or_eq_false_iff, beq_eq_false_iff_ne,
      ne_eq] at hc
    have ih := ih hc.2
    simp only [QMap.insert, QMap.appendAt, if_neg hc.1]
    by_cases hlt : c < k
    · simp [hlt, QMap.appendAt]
    · simp only [hlt, if_false, QMap.appendAt, if_neg hc.1]
      rw [ih]

theorem categoryStep_eq (m : QMap) (info : ItemInfo) :
    categoryStep m info = QMap.appendAt m info.category info := by
  unfold categoryStep
  by_cases hc : QMap.contains m info.category = true
  · simp [hc]
  · have hc : QMap.contains m info.category = false := by simpa using hc
    simp only [hc, Bool.not_false, if_true]
    exact appendAt_insert_nil m _ info hc

theorem allValues_appendAt (m : QMap) (c : Int) (info : ItemInfo) :
    (QMap.allValues (QMap.appendAt m c info)).Perm (QMap.allValues m ++ [info]) := by
  induction m with
  | nil => simp [QMap.appendAt, QMap.allValues]
  | cons p m ih =>
    obtain ⟨k, w⟩ := p
    simp only [QMap.appendAt]
    by_cases hk : k = c
    · simp only [if_pos hk, QMap.allValues, List.map_cons, List.flatten_cons,
        List.append_assoc]
      exact List.Perm.append_left w List.perm_append_comm
    · simp only [if_neg hk]
      by_cases hlt : c < k
      · simp only [if_pos hlt, QMap.allValues, List.map_cons, List.flatten_cons,
          List.singleton_append]
        exact List.perm_append_singleton _ _ |>.symm
      · simp only [if_neg hlt]
        have h1 : QMap.allValues ((k, w) :: QMap.appendAt m c info) =
            w ++ QMap.allValues (QMap.appendAt m c info) := by
          simp [QMap.allValues]
        have h2 : QMap.allValues ((k, w) :: m) = w ++ QMap.allValues m := by
          simp [QMap.allValues]
        rw [h1, h2, List.append_assoc]
        exact List.Perm.append_left w ih

theorem allValues_foldl_categoryStep (l : ItemInfoList) (m : QMap) :
    (QMap.allValues (l.foldl categoryStep m)).Perm (QMap.allValues m ++ l) := by
  induction l generalizing m with
  | nil => simp
  | cons x xs ih =>
    simp only [List.foldl_cons]
    refine (ih _).trans ?_
    rw [categoryStep_eq]
    have := (allValues_appendAt m x.category x).append_right xs
    simpa using this

/-- Right after `generateCategoryMap` the buckets of the category index hold,
as a multiset, exactly the all-items list. -/
theorem generateCategoryMap_complete (qSort : Sorter) (preset : List String)
    (s : AppsManager) :
    (QMap.allValues (generateCategoryMap qSort preset s).m_appInfos).Perm
      (generateCategoryMap qSort preset s).m_allAppInfoList := by
  rw [generateCategoryMap_appInfos, generateCategoryMap_all]
  simpa [QMap.allValues] using
    allValues_foldl_categoryStep (sortByPresetOrder qSort preset s.m_allAppInfoList) []

theorem refreshUsedInfoList_frame (s : AppsManager) :
    (refreshUsedInfoList s).m_allAppInfoList = s.m_allAppInfoList ∧
    (refreshUsedInfoList s).m_stashList = s.m_stashList ∧
    (refreshUsedInfoList s).m_appInfos = s.m_appInfos ∧
    (refreshUsedInfoList s).m_delayRefreshTimer = s.m_delayRefreshTimer := by
  unfold refreshUsedInfoList
  by_cases h : s.m_usedSortedList.isEmpty = true <;>
  simp [h, saveUsedSortedList, updateUsedListInfo]

/-! ## Stash, restore, abandon -/

theorem keyIndex_eq_none_iff (l : ItemInfoList) (k : String) :
    keyIndex l k = none ↔ ∀ y ∈ l, y.m_key ≠ k := by
  induction l with
  | nil => simp [keyIndex]
  | cons x xs ih =>
    simp only [keyIndex, List.mem_cons, forall_eq_or_imp]
    by_cases hx : x.m_key = k
    · simp [hx]
    · simp [hx, ih]

/-- The loop over a list stops at the first record with the key: the list
splits there. -/
theorem keyIndex_eq_some (l : ItemInfoList) (k : String) (i : Nat)
    (h : keyIndex l k = some i) :
    ∃ pre x post, l = pre ++ x :: post ∧ (∀ y ∈ pre, y.m_key ≠ k) ∧ x.m_key = k ∧
      i = pre.length := by
  induction l generalizing i with
  | nil => simp [keyIndex] at h
  | cons x xs ih =>
    simp only [keyIndex] at h
    by_cases hx : x.m_key = k
    · simp only [hx, beq_self_eq_true, if_true, Option.some.injEq] at h
      exact ⟨[], x, xs, rfl, by simp, hx, by simp [← h]⟩
    · have hx2 : (x.m_key == k) = false := by simpa using hx
      simp only [hx2, Bool.false_eq_true, if_false, Option.map_eq_some'] at h
      obtain ⟨j, hj, rfl⟩ := h
      obtain ⟨pre, y, post, hl, hpre, hy, hlen⟩ := ih j hj
      refine ⟨x :: pre, y, post, by simp [hl], ?_, hy, by simp [hlen]⟩
      intro z hz
      rcases List.mem_cons.mp hz with rfl | hz
      · exact hx
      · exact hpre z hz

theorem keyIndex_append_cons (pre post : ItemInfoList) (x : ItemInfo) (k : String)
    (hpre : ∀ y ∈ pre, y.m_key ≠ k) (hx : x.m_key = k) :
    keyIndex (pre ++ x :: post) k = some pre.length := by
  induction pre with
  | nil => simp [keyIndex, hx]
  | cons y ys ih =>
    have hy : (y.m_key == k) = false := by simpa using hpre y (by simp)
    have ih := ih (fun z hz => hpre z (by simp [hz]))
    show keyIndex (y :: (ys ++ x :: post)) k = some (ys.length + 1)
    simp only [keyIndex, hy, Bool.false_eq_true, if_false]
    rw [ih]
    rfl

theorem getElem?_append_cons_length (pre post : ItemInfoList) (x : ItemInfo) :
    (pre ++ x :: post)[pre.length]? = some x := by
  induction pre with
  | nil => simp
  | cons y ys ih => simpa using ih

theorem eraseIdx_append_cons_length (pre post : ItemInfoList) (x : ItemInfo) :
    (pre ++ x :: post).eraseIdx pre.length = pre ++ post := by
  induction pre with
  | nil => simp
  | cons y ys ih => simp [ih]

theorem stashItem_of_split (qSort : Sorter) (preset : List String) (s : AppsManager)
    (k : String) (pre post : ItemInfoList) (x : ItemInfo)
    (hl : s.m_allAppInfoList = pre ++ x :: post)
    (hpre : ∀ y ∈ pre, y.m_key ≠ k) (hx : x.m_key = k) :
    stashItem qSort preset s k =
      refreshUsedInfoList
        (generateCategoryMap qSort preset
          { s with
            m_stashList := s.m_stashList ++ [x],
            m_allAppInfoList := pre ++ post }) := by
  unfold stashItem
  rw [hl, keyIndex_append_cons pre post x k hpre hx]
  simp only [getElem?_append_cons_length, eraseIdx_append_cons_length]

theorem stashItem_of_absent (qSort : Sorter) (preset : List String) (s : AppsManager)
    (k : String) (h : ∀ y ∈ s.m_allAppInfoList, y.m_key ≠ k) :
    stashItem qSort preset s k = s := by
  unfold stashItem
  rw [(keyIndex_eq_none_iff _ _).mpr h]

theorem restoreItem_of_split (qSort : Sorter) (preset : List String) (s : AppsManager)
    (k : String) (pos : Int) (pre post : ItemInfoList) (x : ItemInfo)
    (hl : s.m_stashList = pre ++ x :: post)
    (hpre : ∀ y ∈ pre, y.m_key ≠ k) (hx : x.m_key = k) :
    restoreItem qSort preset s k pos =
      saveUserSortedList
        (generateCategoryMap qSort preset
          { s with
            m_usedSortedList :=
              if pos != -1 then QList.insert s.m_usedSortedList pos x
              else s.m_usedSortedList,
            m_allAppInfoList := s.m_allAppInfoList ++ [x],
            m_stashList := pre ++ post }) := by
  unfold restoreItem
  rw [hl, keyIndex_append_cons pre post x k hpre hx]
  simp only [getElem?_append_cons_length, eraseIdx_append_cons_length]

theorem restoreItem_of_absent (qSort : Sorter) (preset : List String) (s : AppsManager)
    (k : String) (pos : Int) (h : ∀ y ∈ s.m_stashList, y.m_key ≠ k) :
    restoreItem qSort preset s k pos = s := by
  unfold restoreItem
  rw [(keyIndex_eq_none_iff _ _).mpr h]

theorem abandonStashedItem_of_split (s : AppsManager)
    (k : String) (pre post : ItemInfoList) (x : ItemInfo)
    (hl : s.m_stashList = pre ++ x :: post)
    (hpre : ∀ y ∈ pre, y.m_key ≠ k) (hx : x.m_key = k) :
    abandonStashedItem s k = { s with m_stashList := pre ++ post } := by
  unfold abandonStashedItem
  rw [hl, keyIndex_append_cons pre post x k hpre hx]
  simp only [eraseIdx_append_cons_length]

theorem abandonStashedItem_frame (s : AppsManager) (k : String) :
    (abandonStashedItem s k).m_allAppInfoList = s.m_allAppInfoList ∧
    (abandonStashedItem s k).m_usedSortedList = s.m_usedSortedList ∧
    (abandonStashedItem s k).m_appInfos = s.m_appInfos ∧
    (abandonStashedItem s k).m_delayRefreshTimer = s.m_delayRefreshTimer := by
  unfold abandonStashedItem
  cases keyIndex s.m_stashList k <;> simp

/-- The key is either in no record of the list, or the list splits at the first
record that has it. -/
theorem key_split (l : ItemInfoList) (k : String) :
    (∀ y ∈ l, y.m_key ≠ k) ∨
    ∃ pre x post, l = pre ++ x :: post ∧ (∀ y ∈ pre, y.m_key ≠ k) ∧ x.m_key = k := by
  cases h : keyIndex l k with
  | none => exact Or.inl ((keyIndex_eq_none_iff l k).mp h)
  | some i =>
    obtain ⟨pre, x, post, h1, h2, h3, _⟩ := keyIndex_eq_some l k i h
    exact Or.inr ⟨pre, x, post, h1, h2, h3⟩

/-! ## Completeness of the category index -/

/-- C2 (as amended). In every state reached through `refreshCategoryInfoList`,
`stashItem`, `restoreItem`, `abandonStashedItem`, `handleItemChanged` and
`delayRefreshData` in which the delayed-refresh timer is not running (no
`handleItemChanged` call is still waiting for its `delayRefreshData`), the
buckets of the category index, taken together, are as a multiset exactly the
all-items list. -/
theorem category_index_complete_when_refreshed (qSort : Sorter) (preset : List String)
    (s0 : AppsManager) (ops : List Op)
    (h0 : s0.m_delayRefreshTimer = none →
      (QMap.allValues s0.m_appInfos).Perm s0.m_allAppInfoList) :
    (run qSort preset s0 ops).m_delayRefreshTimer = none →
      (QMap.allValues (run qSort preset s0 ops).m_appInfos).Perm
        (run qSort preset s0 ops).m_allAppInfoList := by
  unfold run
  induction ops generalizing s0 with
  | nil => exact h0
  | cons op ops ih =>
    simp only [List.foldl_cons]
    apply ih
    cases op with
    | refreshCategoryInfoList reply =>
      intro _
      exact generateCategoryMap_complete qSort preset _
    | stashItem appKey =>
      rcases key_split s0.m_allAppInfoList appKey with h | ⟨pre, x, post, h1, h2, h3⟩
      · simp only [applyOp]
        rw [stashItem_of_absent qSort preset s0 appKey h]
        exact h0
      · intro _
        simp only [applyOp]
        rw [stashItem_of_split qSort preset s0 appKey pre post x h1 h2 h3]
        obtain ⟨e1, _, e3, _⟩ := refreshUsedInfoList_frame
          (generateCategoryMap qSort preset
            { s0 with m_stashList := s0.m_stashList ++ [x], m_allAppInfoList := pre ++ post })
        rw [e1, e3]
        exact generateCategoryMap_complete qSort preset _
    | restoreItem appKey pos =>
      rcases key_split s0.m_stashList appKey with h | ⟨pre, x, post, h1, h2, h3⟩
      · simp only [applyOp]
        rw [restoreItem_of_absent qSort preset s0 appKey pos h]
        exact h0
      · intro _
        simp only [applyOp]
        rw [restoreItem_of_split qSort preset s0 appKey pos pre post x h1 h2 h3]
        exact generateCategoryMap_complete qSort preset _
    | abandonStashedItem appKey =>
      obtain ⟨e1, _, e3, e4⟩ := abandonStashedItem_frame s0 appKey
      simp only [applyOp]
      rw [e1, e3, e4]
      exact h0
    | handleItemChanged operation appInfo =>
      intro h
      simp [applyOp, handleItemChanged] at h
    | delayRefreshData =>
      intro _
      exact generateCategoryMap_complete qSort preset _

theorem category_index_complete_when_refreshed_witness :
    (QMap.allValues
      (run insertionSorter ["b"] (AppsManager.init [] [])
        [Op.refreshCategoryInfoList (some [item "a" "A" 1 0, item "b" "B" 2 0]),
         Op.handleItemChanged "created" (item "c" "C" 1 0),
         Op.stashItem "a",
         Op.delayRefreshData]).m_appInfos).Perm
      (run insertionSorter ["b"] (AppsManager.init [] [])
        [Op.refreshCategoryInfoList (some [item "a" "A" 1 0, item "b" "B" 2 0]),
         Op.handleItemChanged "created" (item "c" "C" 1 0),
         Op.stashItem "a",
         Op.delayRefreshData]).m_allAppInfoList :=
  category_index_complete_when_refreshed insertionSorter ["b"] (AppsManager.init [] [])
    [Op.refreshCategoryInfoList (some [item "a" "A" 1 0, item "b" "B" 2 0]),
     Op.handleItemChanged "created" (item "c" "C" 1 0),
     Op.stashItem "a",
     Op.delayRefreshData]
    (fun _ => List.Perm.refl _) (by decide)

/-- C2 as stated fails: after the backend reports `a` and then announces a
newly created `b`, the all-items list is `[a, b]` while the only bucket still
holds `[a]`; the index is rebuilt only when the delayed-refresh timer fires. -/
theorem category_index_stale_after_created :
    (run insertionSorter [] (AppsManager.init [] [])
        [Op.refreshCategoryInfoList (some [item "a" "A" 1 0]),
         Op.handleItemChanged "created" (item "b" "B" 1 0)]).m_allAppInfoList =
      [item "a" "A" 1 0, item "b" "B" 1 0] ∧
    (run insertionSorter [] (AppsManager.init [] [])
        [Op.refreshCategoryInfoList (some [item "a" "A" 1 0]),
         Op.handleItemChanged "created" (item "b" "B" 1 0)]).m_appInfos =
      [(1, [item "a" "A" 1 0])] ∧
    ¬ (QMap.allValues
        (run insertionSorter [] (AppsManager.init [] [])
          [Op.refreshCategoryInfoList (some [item "a" "A" 1 0]),
           Op.handleItemChanged "created" (item "b" "B" 1 0)]).m_appInfos).Perm
      (run insertionSorter [] (AppsManager.init [] [])
        [Op.refreshCategoryInfoList (some [item "a" "A" 1 0]),
         Op.handleItemChanged "created" (item "b" "B" 1 0)]).m_allAppInfoList := by
  refine ⟨by decide, by decide, ?_⟩
  intro h
  have := h.length_eq
  revert this
  decide

/-! ## All-items and stash -/

/-- C1 at the failing input.  The backend reports `a`; `a` is stashed for
uninstall; the backend then announces `a` as created.  `handleItemChanged`
appends the record without looking at the stash, so `a` is in the all-items
list and in the stash at once. -/
theorem created_while_stashed_in_both_lists :
    (run insertionSorter [] (AppsManager.init [] [])
        [Op.refreshCategoryInfoList (some [item "a" "A" 1 0]),
         Op.stashItem "a",
         Op.handleItemChanged "created" (item "a" "A" 1 0)]).m_allAppInfoList =
      [item "a" "A" 1 0] ∧
    (run insertionSorter [] (AppsManager.init [] [])
        [Op.refreshCategoryInfoList (some [item "a" "A" 1 0]),
         Op.stashItem "a",
         Op.handleItemChanged "created" (item "a" "A" 1 0)]).m_stashList =
      [item "a" "A" 1 0] := by
  constructor <;> decide

/-! ## The usage-ordered list under `generateCategoryMap` -/

theorem indexOf_ne_neg_one_iff (l : ItemInfoList) (x : ItemInfo) :
    QList.indexOf ItemInfo.opEq l x ≠ -1 ↔ ∃ y ∈ l, y.m_key = x.m_key := by
  rw [Ne, indexOf_eq_neg_one_iff]
  simp only [opEq_eq_false_iff]
  push_neg
  rfl

theorem contains_iff (l : ItemInfoList) (x : ItemInfo) :
    QList.contains ItemInfo.opEq l x = true ↔ ∃ y ∈ l, y.m_key = x.m_key := by
  simp [QList.contains, ItemInfo.opEq]

theorem updateUsedAt_cons_succ (u : ItemInfo) (rest : ItemInfoList) (r : Int) (hr : 0 ≤ r)
    (info : ItemInfo) :
    updateUsedAt (u :: rest) (r + 1) info = u :: updateUsedAt rest r info := by
  have h : (r + 1).toNat = r.toNat + 1 := by omega
  unfold updateUsedAt
  rw [h]
  simp only [List.getElem?_cons_succ]
  cases rest[r.toNat]? with
  | none => rfl
  | some v => simp

theorem updateUsedAt_indexOf (used : ItemInfoList) (info : ItemInfo)
    (h : QList.indexOf ItemInfo.opEq used info ≠ -1) :
    updateUsedAt used (QList.indexOf ItemInfo.opEq used info) info = upd used info := by
  induction used with
  | nil => simp [QList.indexOf] at h
  | cons u rest ih =>
    by_cases hu : u.opEq info = true
    · have hk : u.m_key = info.m_key := (opEq_iff u info).mp hu
      simp [QList.indexOf, hu, updateUsedAt, upd, hk, ItemInfo.updateInfo]
    · have hk : ¬ u.m_key = info.m_key := fun hk => hu ((opEq_iff u info).mpr hk)
      have hb := indexOf_bounds ItemInfo.opEq rest info
      by_cases hr : QList.indexOf ItemInfo.opEq rest info = -1
      · simp [QList.indexOf, hu, hr] at h
      · have hidx : QList.indexOf ItemInfo.opEq (u :: rest) info =
            QList.indexOf ItemInfo.opEq rest info + 1 := by
          simp [QList.indexOf, hu, hr]
        rw [hidx, updateUsedAt_cons_succ u rest _ (by omega), ih hr]
        simp [upd, hk]

theorem upd_of_absent (used : ItemInfoList) (info : ItemInfo)
    (h : ∀ y ∈ used, y.m_key ≠ info.m_key) : upd used info = used ++ [info] := by
  induction used with
  | nil => rfl
  | cons u rest ih =>
    have hu : ¬ u.m_key = info.m_key := h u (by simp)
    simp only [upd, if_neg hu, List.cons_append]
    rw [ih (fun y hy => h y (by simp [hy]))]

theorem usedListStep_eq_upd (used : ItemInfoList) (info : ItemInfo) :
    usedListStep used info = upd used info := by
  unfold usedListStep
  by_cases h : QList.indexOf ItemInfo.opEq used info = -1
  · simp only [h, if_true]
    rw [upd_of_absent]
    intro y hy
    have := (indexOf_eq_neg_one_iff ItemInfo.opEq used info).mp h y hy
    exact (opEq_eq_false_iff y info).mp this
  · simp only [h, if_false]
    exact updateUsedAt_indexOf used info h

theorem upd_keys_of_present (used : ItemInfoList) (info : ItemInfo)
    (h : ∃ y ∈ used, y.m_key = info.m_key) :
    (upd used info).map (fun x => x.m_key) = used.map (fun x => x.m_key) := by
  induction used with
  | nil => simp at h
  | cons u rest ih =>
    by_cases hu : u.m_key = info.m_key
    · simp [upd, hu]
    · simp only [upd, if_neg hu, List.map_cons]
      rw [ih]
      obtain ⟨y, hy, hyk⟩ := h
      rcases List.mem_cons.mp hy with rfl | hy
      · exact absurd hyk hu
      · exact ⟨y, hy, hyk⟩

theorem updateUsedListInfo_keys (s : AppsManager) :
    (updateUsedListInfo s).m_usedSortedList.map (fun x => x.m_key) =
      s.m_usedSortedList.map (fun x => x.m_key) := by
  unfold updateUsedListInfo
  simp only
  generalize s.m_usedSortedList = used
  induction s.m_allAppInfoList generalizing used with
  | nil => rfl
  | cons a rest ih =>
    simp only [List.foldl_cons]
    rw [ih]
    by_cases h : QList.indexOf ItemInfo.opEq used a = -1
    · simp [h]
    · have hne : (QList.indexOf ItemInfo.opEq used a != -1) = true := by simpa using h
      simp only [hne, if_true]
      rw [updateUsedAt_indexOf used a h]
      exact upd_keys_of_present used a ((indexOf_ne_neg_one_iff used a).mp h)

theorem mem_keys_of_map_eq {l1 l2 : ItemInfoList}
    (h : l1.map (fun x => x.m_key) = l2.map (fun x => x.m_key)) (y : ItemInfo)
    (hy : y ∈ l1) : ∃ z ∈ l2, z.m_key = y.m_key := by
  have : y.m_key ∈ l1.map (fun x => x.m_key) := List.mem_map.mpr ⟨y, hy, rfl⟩
  rw [h] at this
  obtain ⟨z, hz, hzk⟩ := List.mem_map.mp this
  exact ⟨z, hz, hzk⟩

/-- Every record that `refreshUsedInfoList` leaves in the usage-ordered list
was in that list before or has the key of an all-items record. -/
theorem refreshUsedInfoList_used_mem (s : AppsManager) (y : ItemInfo)
    (hy : y ∈ (refreshUsedInfoList s).m_usedSortedList) :
    y ∈ s.m_usedSortedList ∨ ∃ z ∈ s.m_allAppInfoList, z.m_key = y.m_key := by
  unfold refreshUsedInfoList at hy
  by_cases h : s.m_usedSortedList.isEmpty = true
  · right
    simp only [h, if_true, saveUsedSortedList] at hy
    have hy := (List.Perm.mem_iff (stable_sort_perm _ _)).mp hy
    obtain ⟨z, hz, hzk⟩ := mem_keys_of_map_eq (updateUsedListInfo_keys _) y hy
    simp only [List.mem_filter] at hz
    obtain ⟨w, hw, hwk⟩ := (contains_iff _ _).mp hz.2
    exact ⟨w, hw, hwk.trans hzk⟩
  · left
    simp only [h, saveUsedSortedList] at hy
    exact (List.Perm.mem_iff (stable_sort_perm _ _)).mp hy

/-- Every record that `generateCategoryMap` leaves in the usage-ordered list
has the key of a record of the sorted all-items list. -/
theorem generateCategoryMap_used_mem (qSort : Sorter) (preset : List String)
    (s : AppsManager) (y : ItemInfo)
    (hy : y ∈ (generateCategoryMap qSort preset s).m_usedSortedList) :
    ∃ z ∈ (generateCategoryMap qSort preset s).m_allAppInfoList, z.m_key = y.m_key := by
  rw [generateCategoryMap_used, List.mem_filter] at hy
  rw [generateCategoryMap_all]
  have := hy.2
  simp only [bne_iff_ne] at this
  exact (indexOf_ne_neg_one_iff _ _).mp this

/-! ## The uninstall round trip -/

theorem sortByPresetOrder_perm (qSort : Sorter) (hq : IsSorter qSort)
    (preset : List String) (l : ItemInfoList) :
    (sortByPresetOrder qSort preset l).Perm l :=
  (hq (presetLess preset) (presetLess_strictWeakOrder preset) l).1

theorem filter_key_eq_nil (l : ItemInfoList) (k : String)
    (h : ∀ y ∈ l, y.m_key ≠ k) : l.filter (fun x => x.m_key == k) = [] := by
  rw [List.filter_eq_nil_iff]
  intro y hy
  simpa using h y hy

/-- A list in which the key occurs exactly once splits around that record. -/
theorem split_of_filter_singleton (l : ItemInfoList) (k : String) (r : ItemInfo)
    (h : l.filter (fun x => x.m_key == k) = [r]) :
    ∃ pre post, l = pre ++ r :: post ∧ (∀ y ∈ pre, y.m_key ≠ k) ∧ r.m_key = k ∧
      (∀ y ∈ post, y.m_key ≠ k) := by
  rcases key_split l k with habs | ⟨pre, x, post, hl, hpre, hx⟩
  · rw [filter_key_eq_nil l k habs] at h
    simp at h
  · have hxb : (x.m_key == k) = true := by simpa using hx
    rw [hl, List.filter_append, filter_key_eq_nil pre k hpre, List.nil_append,
      List.filter_cons, if_pos hxb] at h
    have h1 : x = r := (List.cons.inj h).1
    have h2 : post.filter (fun x => x.m_key == k) = [] := (List.cons.inj h).2
    subst h1
    refine ⟨pre, post, hl, hpre, hx, ?_⟩
    intro y hy
    have := List.filter_eq_nil_iff.mp h2 y hy
    simpa using this

/-- The state right after a `stashItem` that finds its key exactly once. -/
theorem stashItem_of_once (qSort : Sorter) (hq : IsSorter qSort) (preset : List String)
    (s : AppsManager) (k : String) (r : ItemInfo)
    (hall : s.m_allAppInfoList.filter (fun x => x.m_key == k) = [r]) :
    (stashItem qSort preset s k).m_stashList = s.m_stashList ++ [r] ∧
    (stashItem qSort preset s k).m_allAppInfoList.Perm
      (s.m_allAppInfoList.filter (fun x => x.m_key != k)) ∧
    (r :: (stashItem qSort preset s k).m_allAppInfoList).Perm s.m_allAppInfoList ∧
    (∀ y ∈ (stashItem qSort preset s k).m_allAppInfoList, y.m_key ≠ k) ∧
    (∀ y ∈ (stashItem qSort preset s k).m_usedSortedList, y.m_key ≠ k) ∧
    (∀ p ∈ (stashItem qSort preset s k).m_appInfos, ∀ y ∈ p.2, y.m_key ≠ k) := by
  obtain ⟨pre, post, hl, hpre, hr, hpost⟩ :=
    split_of_filter_singleton s.m_allAppInfoList k r hall
  rw [stashItem_of_split qSort preset s k pre post r hl hpre hr]
  generalize hg : generateCategoryMap qSort preset
    { s with m_stashList := s.m_stashList ++ [r], m_allAppInfoList := pre ++ post } = g
  have hgall : g.m_allAppInfoList.Perm (pre ++ post) := by
    rw [← hg, generateCategoryMap_all]
    exact sortByPresetOrder_perm qSort hq preset _
  have hgstash : g.m_stashList = s.m_stashList ++ [r] := by
    rw [← hg, generateCategoryMap_stash]
  have hnok : ∀ y ∈ g.m_allAppInfoList, y.m_key ≠ k := by
    intro y hy
    rcases List.mem_append.mp ((List.Perm.mem_iff hgall).mp hy) with h | h
    · exact hpre y h
    · exact hpost y h
  have hfilter : s.m_allAppInfoList.filter (fun x => x.m_key != k) = pre ++ post := by
    have hrb : (r.m_key != k) = false := by simp [hr]
    rw [hl, List.filter_append, List.filter_cons, hrb]
    simp only [Bool.false_eq_true, if_false]
    rw [List.filter_eq_self.mpr, List.filter_eq_self.mpr]
    · intro y hy; simpa using hpost y hy
    · intro y hy; simpa using hpre y hy
  obtain ⟨e1, e2, e3, _⟩ := refreshUsedInfoList_frame g
  rw [e1, e2, e3]
  refine ⟨hgstash, ?_, ?_, hnok, ?_, ?_⟩
  · rw [hfilter]; exact hgall
  · rw [hl]
    exact (List.Perm.cons r hgall).trans List.perm_middle.symm
  · intro y hy
    rcases refreshUsedInfoList_used_mem g y hy with h | ⟨z, hz, hzk⟩
    · rw [← hg] at h
      obtain ⟨z, hz, hzk⟩ := generateCategoryMap_used_mem qSort preset _ y h
      rw [hg] at hz
      exact hzk ▸ hnok z hz
    · exact hzk ▸ hnok z hz
  · intro p hp y hy
    have hmem : y ∈ QMap.allValues g.m_appInfos := by
      simp only [QMap.allValues, List.mem_flatten, List.mem_map]
      exact ⟨p.2, ⟨p, hp, rfl⟩, hy⟩
    have hcomplete : (QMap.allValues g.m_appInfos).Perm g.m_allAppInfoList := by
      rw [← hg]; exact generateCategoryMap_complete qSort preset _
    exact hnok y ((List.Perm.mem_iff hcomplete).mp hmem)

/-- C6. In every state in which key `k` occurs exactly once in all-items, in the
record `r`, and not in the stash, `stashItem(k)` followed by `restoreItem(k)`
(with or without an insert position) leaves `k` in all-items and not in the
stash, and the one all-items record with key `k` is `r` itself, open count
included; the all-items list holds the same records as before and the stash
is the same list as before. -/
theorem stash_restore_round_trip (qSort : Sorter) (hq : IsSorter qSort)
    (preset : List String) (s : AppsManager) (k : String) (pos : Int) (r : ItemInfo)
    (hall : s.m_allAppInfoList.filter (fun x => x.m_key == k) = [r])
    (hstash : ∀ y ∈ s.m_stashList, y.m_key ≠ k) :
    (restoreItem qSort preset (stashItem qSort preset s k) k pos).m_allAppInfoList.filter
      (fun x => x.m_key == k) = [r] ∧
    r ∈ (restoreItem qSort preset (stashItem qSort preset s k) k pos).m_allAppInfoList ∧
    (∀ y ∈ (restoreItem qSort preset (stashItem qSort preset s k) k pos).m_stashList,
      y.m_key ≠ k) ∧
    (restoreItem qSort preset (stashItem qSort preset s k) k pos).m_allAppInfoList.Perm
      s.m_allAppInfoList ∧
    (restoreItem qSort preset (stashItem qSort preset s k) k pos).m_stashList =
      s.m_stashList := by
  obtain ⟨h1, _, h3, _, _, _⟩ := stashItem_of_once qSort hq preset s k r hall
  obtain ⟨_, _, _, _, hr, _⟩ := split_of_filter_singleton s.m_allAppInfoList k r hall
  rw [restoreItem_of_split qSort preset _ k pos s.m_stashList [] r h1 hstash hr]
  simp only [saveUserSortedList, generateCategoryMap_all, generateCategoryMap_stash,
    List.append_nil]
  have hperm : (sortByPresetOrder qSort preset
      ((stashItem qSort preset s k).m_allAppInfoList ++ [r])).Perm s.m_allAppInfoList :=
    (sortByPresetOrder_perm qSort hq preset _).trans
      ((List.perm_append_singleton r _).trans h3)
  refine ⟨?_, ?_, hstash, hperm, trivial⟩
  · have := hperm.filter (fun x => x.m_key == k)
    rw [hall] at this
    exact List.perm_singleton.mp this
  · exact (List.Perm.mem_iff hperm).mpr (by
      have : r ∈ s.m_allAppInfoList.filter (fun x => x.m_key == k) := by rw [hall]; simp
      exact (List.mem_filter.mp this).1)

theorem stash_restore_round_trip_witness :
    (restoreItem insertionSorter ["b", "a"]
        (stashItem insertionSorter ["b", "a"] sampleManager "k") "k" (-1)).m_allAppInfoList.filter
      (fun x => x.m_key == "k") = [item "k" "Kate" 8 3] ∧
    (∀ y ∈ (restoreItem insertionSorter ["b", "a"]
        (stashItem insertionSorter ["b", "a"] sampleManager "k") "k" (-1)).m_stashList,
      y.m_key ≠ "k") :=
  ⟨(stash_restore_round_trip insertionSorter insertionSorter_isSorter ["b", "a"]
      sampleManager "k" (-1) (item "k" "Kate" 8 3) (by decide) (by decide)).1,
   (stash_restore_round_trip insertionSorter insertionSorter_isSorter ["b", "a"]
      sampleManager "k" (-1) (item "k" "Kate" 8 3) (by decide) (by decide)).2.2.1⟩

/-- A list in preset order in which no two records tie is the only list in
preset order with its records. -/
theorem eq_of_perm_of_preset_sorted (preset : List String) (l1 l2 : ItemInfoList)
    (hperm : l2.Perm l1)
    (hs1 : l1.Pairwise (fun a b => presetLess preset b a = false))
    (hn1 : l1.Pairwise
      (fun a b => ¬ (presetLess preset a b = false ∧ presetLess preset b a = false)))
    (hs2 : l2.Pairwise (fun a b => presetLess preset b a = false)) : l2 = l1 := by
  have hn2 : l2.Pairwise
      (fun a b => ¬ (presetLess preset a b = false ∧ presetLess preset b a = false)) := by
    refine (List.Perm.pairwise_iff ?_ hperm).mpr hn1
    intro a b hab hba
    exact hab ⟨hba.2, hba.1⟩
  have strict : ∀ l : ItemInfoList,
      l.Pairwise (fun a b => presetLess preset b a = false) →
      l.Pairwise
        (fun a b => ¬ (presetLess preset a b = false ∧ presetLess preset b a = false)) →
      l.Pairwise (fun a b => presetLess preset a b = true) := by
    intro l h1 h2
    refine (h1.and h2).imp ?_
    rintro a b ⟨hba, hnt⟩
    by_contra hab
    exact hnt ⟨by simpa using hab, hba⟩
  have hanti : IsAntisymm ItemInfo (fun a b => presetLess preset a b = true) :=
    ⟨fun a b hab hba => by
      have := (presetLess_strictWeakOrder preset).asymm hab
      rw [hba] at this
      exact absurd this (by simp)⟩
  exact @List.eq_of_perm_of_sorted _ _ hanti _ _ hperm (strict l2 hs2 hn2) (strict l1 hs1 hn1)

/-- After a `stashItem` that finds its key exactly once the all-items list is
the list of the other records, sorted again by `sortByPresetOrder`. -/
theorem stashItem_all_of_once (qSort : Sorter) (preset : List String)
    (s : AppsManager) (k : String) (r : ItemInfo)
    (hall : s.m_allAppInfoList.filter (fun x => x.m_key == k) = [r]) :
    (stashItem qSort preset s k).m_allAppInfoList =
      sortByPresetOrder qSort preset (s.m_allAppInfoList.filter (fun x => x.m_key != k)) := by
  obtain ⟨pre, post, hl, hpre, hr, hpost⟩ :=
    split_of_filter_singleton s.m_allAppInfoList k r hall
  have hfilter : s.m_allAppInfoList.filter (fun x => x.m_key != k) = pre ++ post := by
    have hrb : (r.m_key != k) = false := by simp [hr]
    rw [hl, List.filter_append, List.filter_cons, hrb]
    simp only [Bool.false_eq_true, if_false]
    rw [List.filter_eq_self.mpr, List.filter_eq_self.mpr]
    · intro y hy; simpa using hpost y hy
    · intro y hy; simpa using hpre y hy
  rw [stashItem_of_split qSort preset s k pre post r hl hpre hr, hfilter,
    (refreshUsedInfoList_frame _).1, generateCategoryMap_all]

/-- C7. In every state in which key `k` occurs exactly once in all-items and not
in the stash, `stashItem(k)` followed by `abandonStashedItem(k)` leaves `k`
absent from the all-items list, from the stash, from the usage-ordered list
and from every bucket of the category index, and the stash is the list it
was.  The all-items list then holds exactly the other records it held
before, arranged by `sortByPresetOrder`: it is in preset order, and when the
list was in preset order without ties before the call the other records
stand in their previous order. -/
theorem stash_abandon_removes_key (qSort : Sorter) (hq : IsSorter qSort)
    (preset : List String) (s : AppsManager) (k : String) (r : ItemInfo)
    (hall : s.m_allAppInfoList.filter (fun x => x.m_key == k) = [r])
    (hstash : ∀ y ∈ s.m_stashList, y.m_key ≠ k) :
    (∀ y ∈ (abandonStashedItem (stashItem qSort preset s k) k).m_allAppInfoList,
      y.m_key ≠ k) ∧
    (∀ y ∈ (abandonStashedItem (stashItem qSort preset s k) k).m_stashList,
      y.m_key ≠ k) ∧
    (∀ y ∈ (abandonStashedItem (stashItem qSort preset s k) k).m_usedSortedList,
      y.m_key ≠ k) ∧
    (∀ p ∈ (abandonStashedItem (stashItem qSort preset s k) k).m_appInfos,
      ∀ y ∈ p.2, y.m_key ≠ k) ∧
    (abandonStashedItem (stashItem qSort preset s k) k).m_allAppInfoList.Perm
      (s.m_allAppInfoList.filter (fun x => x.m_key != k)) ∧
    (abandonStashedItem (stashItem qSort preset s k) k).m_stashList = s.m_stashList ∧
    (abandonStashedItem (stashItem qSort preset s k) k).m_allAppInfoList =
      sortByPresetOrder qSort preset (s.m_allAppInfoList.filter (fun x => x.m_key != k)) ∧
    (abandonStashedItem (stashItem qSort preset s k) k).m_allAppInfoList.Pairwise
      (fun a b => presetLess preset b a = false) ∧
    (s.m_allAppInfoList.Pairwise (fun a b => presetLess preset b a = false) →
      s.m_allAppInfoList.Pairwise
        (fun a b => ¬ (presetLess preset a b = false ∧ presetLess preset b a = false)) →
      (abandonStashedItem (stashItem qSort preset s k) k).m_allAppInfoList =
        s.m_allAppInfoList.filter (fun x => x.m_key != k)) := by
  obtain ⟨h1, h2, _, h4, h5, h6⟩ := stashItem_of_once qSort hq preset s k r hall
  obtain ⟨_, _, _, _, hr, _⟩ := split_of_filter_singleton s.m_allAppInfoList k r hall
  obtain ⟨e1, e2, e3, _⟩ := abandonStashedItem_frame (stashItem qSort preset s k) k
  have hst : (abandonStashedItem (stashItem qSort preset s k) k).m_stashList =
      s.m_stashList := by
    rw [abandonStashedItem_of_split _ k s.m_stashList [] r h1 hstash hr]
    simp
  have hall2 := stashItem_all_of_once qSort preset s k r hall
  have hsorted2 : (stashItem qSort preset s k).m_allAppInfoList.Pairwise
      (fun a b => presetLess preset b a = false) := by
    rw [hall2]
    exact (hq (presetLess preset) (presetLess_strictWeakOrder preset) _).2
  rw [e1, e2, e3, hst]
  refine ⟨h4, hstash, h5, h6, h2, rfl, hall2, hsorted2, ?_⟩
  intro hsorted hnotie
  exact eq_of_perm_of_preset_sorted preset _ _ h2
    (hsorted.sublist (List.filter_sublist _)) (hnotie.sublist (List.filter_sublist _))
    hsorted2

theorem stash_abandon_removes_key_witness :
    (∀ y ∈ (abandonStashedItem
        (stashItem insertionSorter ["b", "a"] sampleManager "k") "k").m_usedSortedList,
      y.m_key ≠ "k") ∧
    (abandonStashedItem
        (stashItem insertionSorter ["b", "a"] sampleManager "k") "k").m_allAppInfoList =
      [item "b" "Brow" 0 7, item "a" "Atom" 8 0, item "z" "Zip" 9 1] :=
  ⟨(stash_abandon_removes_key insertionSorter insertionSorter_isSorter ["b", "a"]
      sampleManager "k" (item "k" "Kate" 8 3) (by decide) (by decide)).2.2.1,
   (stash_abandon_removes_key insertionSorter insertionSorter_isSorter ["b", "a"]
      sampleManager "k" (item "k" "Kate" 8 3) (by decide) (by decide)).2.2.2.2.2.2.2.2
      (by decide) (by decide)⟩

/-- Right after the backend announced the new item "n", the all-items list of
the sample manager is not in preset order; key "k" occurs in it once and not
in the stash.  `stashItem("k")` followed by `abandonStashedItem("k")` sorts
the list again, so the other records do not stay in place: "z" and "n"
change places. -/
theorem stash_abandon_reorders_other_records :
    sampleCreated.m_allAppInfoList.filter (fun x => x.m_key == "k") =
      [item "k" "Kate" 8 3] ∧
    (∀ y ∈ sampleCreated.m_stashList, y.m_key ≠ "k") ∧
    sampleCreated.m_allAppInfoList.filter (fun x => x.m_key != "k") =
      [item "b" "Brow" 0 7, item "a" "Atom" 8 0, item "z" "Zip" 9 1,
        item "n" "Nano" 9 0] ∧
    (abandonStashedItem
        (stashItem insertionSorter ["b", "a"] sampleCreated "k") "k").m_allAppInfoList =
      [item "b" "Brow" 0 7, item "a" "Atom" 8 0, item "n" "Nano" 9 0,
        item "z" "Zip" 9 1] ∧
    (abandonStashedItem
        (stashItem insertionSorter ["b", "a"] sampleCreated "k") "k").m_allAppInfoList ≠
      sampleCreated.m_allAppInfoList.filter (fun x => x.m_key != "k") := by
  decide

/-! ## Reloading from the backend twice -/

theorem upd_mem_key (used : ItemInfoList) (a : ItemInfo) :
    ∃ y ∈ upd used a, y.m_key = a.m_key := by
  induction used with
  | nil => exact ⟨a, by simp [upd], rfl⟩
  | cons u rest ih =>
    by_cases hu : u.m_key = a.m_key
    · exact ⟨{ a with m_openCount := u.m_openCount }, by simp [upd, hu], rfl⟩
    · obtain ⟨y, hy, hyk⟩ := ih
      exact ⟨y, by simp [upd, hu, hy], hyk⟩

theorem upd_keeps_key (used : ItemInfoList) (a : ItemInfo) (k : String)
    (h : ∃ y ∈ used, y.m_key = k) : ∃ y ∈ upd used a, y.m_key = k := by
  induction used with
  | nil => simp at h
  | cons u rest ih =>
    obtain ⟨y, hy, hyk⟩ := h
    by_cases hu : u.m_key = a.m_key
    · rcases List.mem_cons.mp hy with rfl | hy
      · exact ⟨{ a with m_openCount := y.m_openCount }, by simp [upd, hu],
          by simp [← hu, hyk]⟩
      · exact ⟨y, by simp [upd, hu, hy], hyk⟩
    · rcases List.mem_cons.mp hy with rfl | hy
      · exact ⟨y, by simp [upd, hu], hyk⟩
      · obtain ⟨z, hz, hzk⟩ := ih ⟨y, hy, hyk⟩
        exact ⟨z, by simp [upd, hu, hz], hzk⟩

theorem foldl_upd_keeps_key (l : ItemInfoList) (used : ItemInfoList) (k : String)
    (h : ∃ y ∈ used, y.m_key = k) : ∃ y ∈ l.foldl upd used, y.m_key = k := by
  induction l generalizing used with
  | nil => exact h
  | cons a rest ih => exact ih _ (upd_keeps_key used a k h)

theorem foldl_upd_mem_key (l : ItemInfoList) (used : ItemInfoList) (b : ItemInfo)
    (hb : b ∈ l) : ∃ y ∈ l.foldl upd used, y.m_key = b.m_key := by
  induction l generalizing used with
  | nil => simp at hb
  | cons a rest ih =>
    rcases List.mem_cons.mp hb with rfl | hb
    · exact foldl_upd_keeps_key rest _ _ (upd_mem_key used b)
    · exact ih _ hb

theorem upd_idem (used : ItemInfoList) (a : ItemInfo) :
    upd (upd used a) a = upd used a := by
  induction used with
  | nil => simp [upd]
  | cons u rest ih =>
    by_cases hu : u.m_key = a.m_key
    · simp [upd, hu]
    · simp [upd, hu, ih]

/-- A later update of a key that is present overrides an earlier one. -/
theorem upd_absorb (used : ItemInfoList) (a b : ItemInfo) (hab : a.m_key = b.m_key)
    (h : ∃ y ∈ used, y.m_key = a.m_key) : upd (upd used a) b = upd used b := by
  induction used with
  | nil => simp at h
  | cons u rest ih =>
    by_cases hu : u.m_key = a.m_key
    · have hub : u.m_key = b.m_key := hu.trans hab
      simp [upd, hu, hub, hab]
    · have hub : ¬ u.m_key = b.m_key := fun h2 => hu (h2.trans hab.symm)
      simp only [upd, if_neg hu, if_neg hub]
      rw [ih]
      obtain ⟨y, hy, hyk⟩ := h
      rcases List.mem_cons.mp hy with rfl | hy
      · exact absurd hyk hu
      · exact ⟨y, hy, hyk⟩

/-- Updates of two different keys commute when the later key is present. -/
theorem upd_comm (used : ItemInfoList) (a b : ItemInfo) (hab : a.m_key ≠ b.m_key)
    (h : ∃ y ∈ used, y.m_key = b.m_key) :
    upd (upd used a) b = upd (upd used b) a := by
  induction used with
  | nil => simp at h
  | cons u rest ih =>
    by_cases hua : u.m_key = a.m_key
    · have hub : ¬ u.m_key = b.m_key := fun h2 => hab (hua.symm.trans h2)
      simp [upd, hua, hub, hab]
    · by_cases hub : u.m_key = b.m_key
      · have hba : ¬ b.m_key = a.m_key := fun h2 => hab h2.symm
        simp [upd, hua, hub, hba]
      · simp only [upd, if_neg hua, if_neg hub]
        rw [ih]
        obtain ⟨y, hy, hyk⟩ := h
        rcases List.mem_cons.mp hy with rfl | hy
        · exact absurd hyk hub
        · exact ⟨y, hy, hyk⟩

theorem upd_foldl_upd (l : ItemInfoList) (used : ItemInfoList) (a : ItemInfo)
    (h : ∀ b ∈ l, ∃ y ∈ used, y.m_key = b.m_key) :
    upd (l.foldl upd (upd used a)) a = upd (l.foldl upd used) a := by
  induction l generalizing used with
  | nil => exact upd_idem used a
  | cons b rest ih =>
    simp only [List.foldl_cons]
    have hb : ∃ y ∈ used, y.m_key = b.m_key := h b (by simp)
    have hrest : ∀ c ∈ rest, ∃ y ∈ upd used b, y.m_key = c.m_key :=
      fun c hc => upd_keeps_key used b _ (h c (by simp [hc]))
    by_cases hab : a.m_key = b.m_key
    · rw [upd_absorb used a b hab (hab ▸ hb)]
    · rw [upd_comm used a b hab hb]
      exact ih (upd used b) hrest

/-- Running the loop of `generateCategoryMap` a second time over the same
all-items list leaves the usage-ordered list as the first run left it. -/
theorem foldl_upd_idem (l : ItemInfoList) (used : ItemInfoList) :
    l.foldl upd (l.foldl upd used) = l.foldl upd used := by
  induction l using List.reverseRecOn generalizing used with
  | nil => rfl
  | append_singleton l a ih =>
    simp only [List.foldl_append, List.foldl_cons, List.foldl_nil]
    rw [upd_foldl_upd l (l.foldl upd used) a (fun b hb => foldl_upd_mem_key l used b hb),
      ih]

theorem filter_upd (p : ItemInfo → Bool)
    (hp : ∀ x y : ItemInfo, x.m_key = y.m_key → p x = p y)
    (used : ItemInfoList) (a : ItemInfo) (ha : p a = true) :
    (upd used a).filter p = upd (used.filter p) a := by
  induction used with
  | nil => simp [upd, ha]
  | cons u rest ih =>
    by_cases hu : u.m_key = a.m_key
    · have h1 : p u = true := (hp u a hu).trans ha
      have h2 : p { a with m_openCount := u.m_openCount } = true :=
        (hp { a with m_openCount := u.m_openCount } a rfl).trans ha
      simp [upd, hu, List.filter_cons, h1, h2]
    · by_cases h1 : p u = true
      · simp [upd, hu, List.filter_cons, h1, ih]
      · simp [upd, hu, List.filter_cons, h1, ih]

theorem filter_foldl_upd (p : ItemInfo → Bool)
    (hp : ∀ x y : ItemInfo, x.m_key = y.m_key → p x = p y)
    (l : ItemInfoList) (used : ItemInfoList) (hl : ∀ a ∈ l, p a = true) :
    (l.foldl upd used).filter p = l.foldl upd (used.filter p) := by
  induction l generalizing used with
  | nil => rfl
  | cons a rest ih =>
    simp only [List.foldl_cons]
    rw [ih _ (fun b hb => hl b (by simp [hb])), filter_upd p hp used a (hl a (by simp))]

theorem indexOf_congr_key (l : ItemInfoList) (x y : ItemInfo) (h : x.m_key = y.m_key) :
    QList.indexOf ItemInfo.opEq l x = QList.indexOf ItemInfo.opEq l y := by
  induction l with
  | nil => rfl
  | cons u rest ih => simp only [QList.indexOf, ItemInfo.opEq, h, ih]

theorem foldl_usedListStep (l used : ItemInfoList) :
    l.foldl usedListStep used = l.foldl upd used := by
  have : usedListStep = upd := by
    funext u a; exact usedListStep_eq_upd u a
  rw [this]

/-- The usage-ordered list that `generateCategoryMap` computes from a sorted
all-items list `l` is not changed by computing it again from `l`. -/
theorem usedAfter_idem (l used : ItemInfoList) :
    ((l.foldl usedListStep
        ((l.foldl usedListStep used).filter
          (fun it => QList.indexOf ItemInfo.opEq l it != -1))).filter
      (fun it => QList.indexOf ItemInfo.opEq l it != -1)) =
    (l.foldl usedListStep used).filter
      (fun it => QList.indexOf ItemInfo.opEq l it != -1) := by
  have hp : ∀ x y : ItemInfo, x.m_key = y.m_key →
      (QList.indexOf ItemInfo.opEq l x != -1) = (QList.indexOf ItemInfo.opEq l y != -1) := by
    intro x y h; rw [indexOf_congr_key l x y h]
  have hl : ∀ a ∈ l, (QList.indexOf ItemInfo.opEq l a != -1) = true := by
    intro a ha
    simp only [bne_iff_ne]
    exact (indexOf_ne_neg_one_iff l a).mpr ⟨a, ha, rfl⟩
  rw [foldl_usedListStep, foldl_usedListStep,
    ← filter_foldl_upd (fun it => QList.indexOf ItemInfo.opEq l it != -1) hp l _ hl,
    foldl_upd_idem, List.filter_filter]
  simp

/-- A second `refreshCategoryInfoList` with the same reply changes nothing. -/
theorem refreshCategoryInfoList_twice (qSort : Sorter) (preset : List String)
    (s : AppsManager) (reply : Option ItemInfoList) :
    refreshCategoryInfoList qSort preset
        (refreshCategoryInfoList qSort preset s reply) reply =
      refreshCategoryInfoList qSort preset s reply := by
  simp only [refreshCategoryInfoList, saveUserSortedList, generateCategoryMap, foldl_pair]
  simp only [usedAfter_idem]

/-- C10. For every stash, every persisted usage list and every backend answer,
running `refreshCategoryInfoList` twice in a row against the same answer
yields, after the second run, the same category index and the same
usage-ordered list (and the same all-items list) as after the first run. -/
theorem refreshCategoryInfoList_idempotent (qSort : Sorter) (preset : List String)
    (s : AppsManager) (reply : Option ItemInfoList) :
    (refreshCategoryInfoList qSort preset
        (refreshCategoryInfoList qSort preset s reply) reply).m_appInfos =
      (refreshCategoryInfoList qSort preset s reply).m_appInfos ∧
    (refreshCategoryInfoList qSort preset
        (refreshCategoryInfoList qSort preset s reply) reply).m_usedSortedList =
      (refreshCategoryInfoList qSort preset s reply).m_usedSortedList ∧
    (refreshCategoryInfoList qSort preset
        (refreshCategoryInfoList qSort preset s reply) reply).m_allAppInfoList =
      (refreshCategoryInfoList qSort preset s reply).m_allAppInfoList := by
  rw [refreshCategoryInfoList_twice]
  exact ⟨rfl, rfl, rfl⟩

/-! ## What keeps all-items and stash apart -/

theorem keysOf_perm {l1 l2 : ItemInfoList} (h : l1.Perm l2) : (keysOf l1).Perm (keysOf l2) :=
  h.map _

theorem keysOf_append (l1 l2 : ItemInfoList) : keysOf (l1 ++ l2) = keysOf l1 ++ keysOf l2 := by
  simp [keysOf]

theorem generateCategoryMap_keys (qSort : Sorter) (hq : IsSorter qSort)
    (preset : List String) (s : AppsManager) :
    (keysOf (generateCategoryMap qSort preset s).m_allAppInfoList ++
        keysOf (generateCategoryMap qSort preset s).m_stashList).Perm
      (keysOf s.m_allAppInfoList ++ keysOf s.m_stashList) := by
  rw [generateCategoryMap_all, generateCategoryMap_stash]
  exact (keysOf_perm (sortByPresetOrder_perm qSort hq preset _)).append_right _

theorem perm_move_out {α : Type} (pre post other : List α) (x : α) :
    ((pre ++ x :: post) ++ other).Perm ((pre ++ post) ++ (other ++ [x])) := by
  have e1 : (pre ++ x :: post) ++ other = pre ++ x :: (post ++ other) := by simp
  have e2 : (pre ++ post) ++ (other ++ [x]) = (pre ++ (post ++ other)) ++ [x] := by simp
  rw [e1, e2]
  exact List.perm_middle.trans (List.perm_append_singleton x _).symm

theorem perm_move_back {α : Type} (other pre post : List α) (x : α) :
    (other ++ (pre ++ x :: post)).Perm ((other ++ [x]) ++ (pre ++ post)) := by
  have e1 : other ++ (pre ++ x :: post) = (other ++ pre) ++ x :: post := by simp
  have e2 : (other ++ [x]) ++ (pre ++ post) = other ++ x :: (pre ++ post) := by simp
  rw [e1, e2]
  refine List.perm_middle.trans ?_
  rw [List.append_assoc]
  exact List.perm_middle.symm

theorem removeOne_sublist (l : ItemInfoList) (x : ItemInfo) :
    (QList.removeOne ItemInfo.opEq l x).Sublist l := by
  induction l with
  | nil => simp [QList.removeOne]
  | cons y ys ih =>
    simp only [QList.removeOne]
    split
    · exact List.sublist_cons_self y ys
    · exact ih.cons₂ y

theorem updateFirst_keys (l : ItemInfoList) (x : ItemInfo) :
    keysOf (updateFirst l x) = keysOf l := by
  induction l with
  | nil => rfl
  | cons y ys ih =>
    simp only [updateFirst]
    split
    · rename_i h
      have hk : y.m_key = x.m_key := (opEq_iff y x).mp h
      simp [keysOf, ItemInfo.updateInfo, hk]
    · simp only [keysOf, List.map_cons] at ih ⊢
      rw [ih]

/-- One guarded call keeps the keys of all-items and stash, taken together,
free of repetitions. -/
theorem applyOp_keeps_apart (qSort : Sorter) (hq : IsSorter qSort) (preset : List String)
    (s : AppsManager) (op : Op) (hg : op.guarded s)
    (h : (keysOf s.m_allAppInfoList ++ keysOf s.m_stashList).Nodup) :
    (keysOf (applyOp qSort preset s op).m_allAppInfoList ++
      keysOf (applyOp qSort preset s op).m_stashList).Nodup := by
  cases op with
  | refreshCategoryInfoList reply =>
    simp only [applyOp, refreshCategoryInfoList, saveUserSortedList]
    refine (generateCategoryMap_keys qSort hq preset _).nodup_iff.mpr ?_
    simp only [Op.guarded] at hg
    rw [List.nodup_append]
    refine ⟨?_, (List.nodup_append.mp h).2.1, ?_⟩
    · exact hg.sublist ((List.filter_sublist _).map _)
    · intro k hk1 hk2
      obtain ⟨x, hx, rfl⟩ := List.mem_map.mp hk1
      obtain ⟨y, hy, hyk⟩ := List.mem_map.mp hk2
      have hx2 := (List.mem_filter.mp hx).2
      simp only [Bool.not_eq_true', contains_eq_false_iff, opEq_eq_false_iff] at hx2
      exact hx2 y hy hyk
  | stashItem appKey =>
    simp only [applyOp]
    rcases key_split s.m_allAppInfoList appKey with ha | ⟨pre, x, post, h1, h2, h3⟩
    · rw [stashItem_of_absent qSort preset s appKey ha]; exact h
    · rw [stashItem_of_split qSort preset s appKey pre post x h1 h2 h3]
      obtain ⟨e1, e2, _, _⟩ := refreshUsedInfoList_frame
        (generateCategoryMap qSort preset
          { s with m_stashList := s.m_stashList ++ [x], m_allAppInfoList := pre ++ post })
      rw [e1, e2]
      refine (generateCategoryMap_keys qSort hq preset _).nodup_iff.mpr ?_
      refine (List.Perm.nodup_iff ?_).mp h
      rw [h1]
      show (keysOf (pre ++ x :: post) ++ keysOf s.m_stashList).Perm
        (keysOf (pre ++ post) ++ keysOf (s.m_stashList ++ [x]))
      rw [← keysOf_append, ← keysOf_append]
      exact keysOf_perm (perm_move_out pre post s.m_stashList x)
  | restoreItem appKey pos =>
    simp only [applyOp]
    rcases key_split s.m_stashList appKey with ha | ⟨pre, x, post, h1, h2, h3⟩
    · rw [restoreItem_of_absent qSort preset s appKey pos ha]; exact h
    · rw [restoreItem_of_split qSort preset s appKey pos pre post x h1 h2 h3]
      simp only [saveUserSortedList]
      refine (generateCategoryMap_keys qSort hq preset _).nodup_iff.mpr ?_
      refine (List.Perm.nodup_iff ?_).mp h
      rw [h1]
      show (keysOf s.m_allAppInfoList ++ keysOf (pre ++ x :: post)).Perm
        (keysOf (s.m_allAppInfoList ++ [x]) ++ keysOf (pre ++ post))
      rw [← keysOf_append, ← keysOf_append]
      exact keysOf_perm (perm_move_back s.m_allAppInfoList pre post x)
  | abandonStashedItem appKey =>
    simp only [applyOp]
    rcases key_split s.m_stashList appKey with ha | ⟨pre, x, post, h1, h2, h3⟩
    · have : abandonStashedItem s appKey = s := by
        unfold abandonStashedItem
        rw [(keyIndex_eq_none_iff _ _).mpr ha]
      rw [this]; exact h
    · rw [abandonStashedItem_of_split s appKey pre post x h1 h2 h3]
      refine h.sublist ?_
      rw [h1]
      simp only [keysOf]
      exact (List.Sublist.refl _).append
        (((List.Sublist.refl pre).append (List.sublist_cons_self x post)).map _)
  | handleItemChanged operation appInfo =>
    simp only [applyOp, handleItemChanged]
    by_cases hc : operation = "created"
    · obtain ⟨g1, g2⟩ := hg hc
      simp only [hc, beq_self_eq_true, if_true, keysOf_append]
      have hnd : (appInfo.m_key :: (keysOf s.m_allAppInfoList ++ keysOf s.m_stashList)).Nodup := by
        refine List.nodup_cons.mpr ⟨?_, h⟩
        intro hm
        rcases List.mem_append.mp hm with hm | hm
        · exact g1 hm
        · exact g2 hm
      refine (List.Perm.nodup_iff ?_).mp hnd
      show (appInfo.m_key :: (keysOf s.m_allAppInfoList ++ keysOf s.m_stashList)).Perm
        ((keysOf s.m_allAppInfoList ++ [appInfo.m_key]) ++ keysOf s.m_stashList)
      rw [List.append_assoc]
      exact List.perm_middle.symm
    · have hc2 : (operation == "created") = false := by simpa using hc
      simp only [hc2, Bool.false_eq_true, if_false]
      by_cases hd : operation = "deleted"
      · simp only [hd, beq_self_eq_true, if_true]
        exact h.sublist (((removeOne_sublist _ _).map _).append (List.Sublist.refl _))
      · have hd2 : (operation == "deleted") = false := by simpa using hd
        simp only [hd2, Bool.false_eq_true, if_false]
        by_cases hu : operation = "updated"
        · simp only [hu, beq_self_eq_true, if_true, updateFirst_keys]
          exact h
        · have hu2 : (operation == "updated") = false := by simpa using hu
          simp only [hu2, Bool.false_eq_true, if_false]
          exact h
  | delayRefreshData =>
    simp only [applyOp, delayRefreshTimeout, delayRefreshData, saveUserSortedList]
    exact (generateCategoryMap_keys qSort hq preset _).nodup_iff.mpr h

/-- Without the unguarded "created" notification the code keeps all-items and
stash apart: from a state whose all-items and stash keys are, taken together,
free of repetitions, every guarded sequence of calls reaches a state in which
no record of the all-items list has the key of a stashed record. -/
theorem guardedRun_disjoint (qSort : Sorter) (hq : IsSorter qSort) (preset : List String)
    (s : AppsManager) (ops : List Op)
    (h : (keysOf s.m_allAppInfoList ++ keysOf s.m_stashList).Nodup)
    (hg : guardedRun qSort preset s ops) :
    ∀ x ∈ (run qSort preset s ops).m_allAppInfoList,
      ∀ y ∈ (run qSort preset s ops).m_stashList, x.m_key ≠ y.m_key := by
  have key : (keysOf (run qSort preset s ops).m_allAppInfoList ++
      keysOf (run qSort preset s ops).m_stashList).Nodup := by
    unfold run
    induction ops generalizing s with
    | nil => exact h
    | cons op ops ih =>
      simp only [List.foldl_cons]
      exact ih _ (applyOp_keeps_apart qSort hq preset s op hg.1 h) hg.2
  intro x hx y hy hxy
  have := (List.nodup_append.mp key).2.2
  exact this (List.mem_map.mpr ⟨x, hx, rfl⟩) (List.mem_map.mpr ⟨y, hy, hxy.symm⟩)

/-! ## Calls that find nothing to do -/

/-- C14. For every state and every key `k` that is in no all-items record,
`stashItem(k)` changes nothing: all-items, stash, usage-ordered list and
category index (and every other member) are as before; and for every key `k`
that is in no stashed record, `abandonStashedItem(k)` changes nothing
either. -/
theorem stash_and_abandon_noop_on_absent_key (qSort : Sorter) (preset : List String)
    (s : AppsManager) (k : String) :
    ((∀ y ∈ s.m_allAppInfoList, y.m_key ≠ k) → stashItem qSort preset s k = s) ∧
    ((∀ y ∈ s.m_stashList, y.m_key ≠ k) → abandonStashedItem s k = s) := by
  constructor
  · exact stashItem_of_absent qSort preset s k
  · intro h
    unfold abandonStashedItem
    rw [(keyIndex_eq_none_iff _ _).mpr h]

theorem stash_and_abandon_noop_on_absent_key_witness :
    stashItem insertionSorter ["b", "a"] sampleManager "q" = sampleManager ∧
    abandonStashedItem sampleManager "k" = sampleManager :=
  ⟨(stash_and_abandon_noop_on_absent_key insertionSorter ["b", "a"] sampleManager "q").1
      (by decide),
   (stash_and_abandon_noop_on_absent_key insertionSorter ["b", "a"] sampleManager "k").2
      (by decide)⟩

theorem updateFirst_of_absent (l : ItemInfoList) (appInfo : ItemInfo)
    (h : ∀ y ∈ l, y.m_key ≠ appInfo.m_key) : updateFirst l appInfo = l := by
  induction l with
  | nil => rfl
  | cons x xs ih =>
    have hx : x.opEq appInfo = false := (opEq_eq_false_iff x appInfo).mpr (h x (by simp))
    simp only [updateFirst, hx, Bool.false_eq_true, if_false]
    rw [ih (fun y hy => h y (by simp [hy]))]

/-- Whenever the function with its assertion returns, in either build, it
returns the state of `handleItemChanged`. -/
theorem handleItemChangedAsserted_eq (qtNoDebug : Bool) (s s2 : AppsManager)
    (operation : String) (appInfo : ItemInfo)
    (h : handleItemChangedAsserted qtNoDebug s operation appInfo = some s2) :
    s2 = handleItemChanged s operation appInfo := by
  unfold handleItemChangedAsserted at h
  unfold handleItemChanged
  by_cases h1 : (operation == "created") = true
  · simp only [h1, if_true, Option.some_bind, Option.some.injEq] at h
    simp only [h1, if_true]
    exact h.symm
  · by_cases h2 : (operation == "deleted") = true
    · simp only [h1, h2, if_true, Bool.false_eq_true, if_false, Option.some_bind,
        Option.some.injEq] at h
      simp only [h1, h2, if_true, Bool.false_eq_true, if_false]
      exact h.symm
    · by_cases h3 : (operation == "updated") = true
      · simp only [h1, h2, h3, if_true, Bool.false_eq_true, if_false] at h
        simp only [h1, h2, h3, if_true, Bool.false_eq_true, if_false]
        cases hq : Q_ASSERT qtNoDebug (QList.contains ItemInfo.opEq s.m_allAppInfoList appInfo) with
        | none => rw [hq] at h; simp at h
        | some u =>
          rw [hq] at h
          simp only [Option.some_bind, Option.some.injEq] at h
          exact h.symm
      · simp only [h1, h2, h3, Bool.false_eq_true, if_false, Option.some_bind,
          Option.some.injEq] at h
        simp only [h1, h2, h3, Bool.false_eq_true, if_false]
        exact h.symm

/-- Built with `QT_NO_DEBUG`, the function with its assertion always returns. -/
theorem handleItemChangedAsserted_noDebug (s : AppsManager) (operation : String)
    (appInfo : ItemInfo) :
    handleItemChangedAsserted true s operation appInfo =
      some (handleItemChanged s operation appInfo) := by
  unfold handleItemChangedAsserted handleItemChanged Q_ASSERT
  by_cases h1 : (operation == "created") = true
  · simp [h1]
  · by_cases h2 : (operation == "deleted") = true
    · simp [h1, h2]
    · by_cases h3 : (operation == "updated") = true
      · simp [h1, h2, h3]
      · simp [h1, h2, h3]

theorem contains_eq_false_of_absent (l : ItemInfoList) (appInfo : ItemInfo)
    (h : ∀ y ∈ l, y.m_key ≠ appInfo.m_key) :
    QList.contains ItemInfo.opEq l appInfo = false := by
  unfold QList.contains
  rw [List.any_eq_false]
  intro y hy
  simpa using (opEq_eq_false_iff y appInfo).mpr (h y hy)

/-- C15. For every state and every item whose key is in no all-items record:
built with `QT_NO_DEBUG`, `handleItemChanged("updated", item)` returns and
changes none of the all-items list, the usage-ordered list, the stash and the
category index (the call only starts the delayed-refresh timer); built with
assertions, the call stops at `Q_ASSERT(m_allAppInfoList.contains(appInfo))`
and does not return.  In either build, a call that returns has changed none
of the four. -/
theorem updated_of_unknown_key_dropped (s : AppsManager) (appInfo : ItemInfo)
    (h : ∀ y ∈ s.m_allAppInfoList, y.m_key ≠ appInfo.m_key) :
    handleItemChangedAsserted true s "updated" appInfo =
      some { s with m_delayRefreshTimer := some delayRefreshTimerInterval } ∧
    handleItemChangedAsserted false s "updated" appInfo = none ∧
    (∀ qtNoDebug s2, handleItemChangedAsserted qtNoDebug s "updated" appInfo = some s2 →
      s2.m_allAppInfoList = s.m_allAppInfoList ∧
      s2.m_usedSortedList = s.m_usedSortedList ∧
      s2.m_stashList = s.m_stashList ∧
      s2.m_appInfos = s.m_appInfos) := by
  have e : handleItemChanged s "updated" appInfo =
      { s with m_delayRefreshTimer := some delayRefreshTimerInterval } := by
    have h1 : ("updated" == "created") = false := by decide
    have h2 : ("updated" == "deleted") = false := by decide
    simp only [handleItemChanged, h1, h2, Bool.false_eq_true, if_false, beq_self_eq_true,
      if_true, updateFirst_of_absent s.m_allAppInfoList appInfo h]
  refine ⟨?_, ?_, ?_⟩
  · rw [handleItemChangedAsserted_noDebug, e]
  · have h1 : ("updated" == "created") = false := by decide
    have h2 : ("updated" == "deleted") = false := by decide
    simp only [handleItemChangedAsserted, h1, h2, Bool.false_eq_true, if_false,
      beq_self_eq_true, if_true, Q_ASSERT,
      contains_eq_false_of_absent s.m_allAppInfoList appInfo h, Bool.or_self,
      Option.none_bind]
  · intro qtNoDebug s2 hs2
    rw [handleItemChangedAsserted_eq qtNoDebug s s2 "updated" appInfo hs2, e]
    exact ⟨rfl, rfl, rfl, rfl⟩

theorem updated_of_unknown_key_dropped_witness :
    handleItemChangedAsserted true sampleManager "updated" (item "q" "Quill" 2 0) =
      some { sampleManager with m_delayRefreshTimer := some 500 } ∧
    handleItemChangedAsserted false sampleManager "updated" (item "q" "Quill" 2 0) = none :=
  ⟨(updated_of_unknown_key_dropped sampleManager (item "q" "Quill" 2 0) (by decide)).1,
   (updated_of_unknown_key_dropped sampleManager (item "q" "Quill" 2 0) (by decide)).2.1⟩

/-- With assertions compiled in, an "updated" notification for the key "q",
which is in no all-items record of the sample manager, does not return a
state: the mutation is not dropped with the lists unchanged, the call stops
at the assertion. -/
theorem updated_of_unknown_key_stops_at_assertion :
    (∀ y ∈ sampleManager.m_allAppInfoList, y.m_key ≠ (item "q" "Quill" 2 0).m_key) ∧
    handleItemChangedAsserted false sampleManager "updated" (item "q" "Quill" 2 0) = none ∧
    ¬ ∃ s2, handleItemChangedAsserted false sampleManager "updated" (item "q" "Quill" 2 0) =
        some s2 ∧
      s2.m_allAppInfoList = sampleManager.m_allAppInfoList ∧
      s2.m_usedSortedList = sampleManager.m_usedSortedList ∧
      s2.m_stashList = sampleManager.m_stashList ∧
      s2.m_appInfos = sampleManager.m_appInfos := by
  have hn : handleItemChangedAsserted false sampleManager "updated" (item "q" "Quill" 2 0) =
      none := by decide
  refine ⟨by decide, hn, ?_⟩
  rintro ⟨s2, hs2, _⟩
  rw [hn] at hs2
  exact Option.noConfusion hs2

/-! ## A failed fetch -/

theorem appendAt_key_mem (m : QMap) (c : Int) (info : ItemInfo) (k : Int)
    (h : k ∈ (QMap.appendAt m c info).map (fun p => p.1)) :
    k = c ∨ k ∈ m.map (fun p => p.1) := by
  induction m with
  | nil => simpa [QMap.appendAt] using h
  | cons p m ih =>
    obtain ⟨k1, w⟩ := p
    simp only [QMap.appendAt] at h
    split_ifs at h with h1 h2
    · right; simpa using h
    · simp only [List.map_cons, List.mem_cons] at h ⊢
      rcases h with h | h | h
      · exact Or.inl h
      · exact Or.inr (Or.inl h)
      · exact Or.inr (Or.inr h)
    · simp only [List.map_cons, List.mem_cons] at h ⊢
      rcases h with h | h
      · exact Or.inr (Or.inl h)
      · rcases ih h with h | h
        · exact Or.inl h
        · exact Or.inr (Or.inr h)

theorem appendAt_keys_sorted (m : QMap) (c : Int) (info : ItemInfo)
    (h : (m.map (fun p => p.1)).Pairwise (fun a b => a < b)) :
    ((QMap.appendAt m c info).map (fun p => p.1)).Pairwise (fun a b => a < b) := by
  induction m with
  | nil => simp [QMap.appendAt]
  | cons p m ih =>
    obtain ⟨k1, w⟩ := p
    simp only [List.map_cons, List.pairwise_cons] at h
    simp only [QMap.appendAt]
    split_ifs with h1 h2
    · simpa using h
    · simp only [List.map_cons, List.pairwise_cons, List.mem_cons]
      refine ⟨?_, h.1, h.2⟩
      rintro k (rfl | hk)
      · exact h2
      · exact lt_trans h2 (h.1 k hk)
    · simp only [List.map_cons, List.pairwise_cons]
      refine ⟨?_, ih h.2⟩
      intro k hk
      rcases appendAt_key_mem m c info k hk with rfl | hk
      · omega
      · exact h.1 k hk

theorem value_of_lt_keys (m : QMap) (c : Int)
    (h : ∀ k ∈ m.map (fun p => p.1), c < k) : QMap.value m c = [] := by
  have : m.find? (fun p => p.1 == c) = none := by
    rw [List.find?_eq_none]
    intro p hp
    have := h p.1 (List.mem_map.mpr ⟨p, hp, rfl⟩)
    simp only [beq_iff_eq]
    omega
  simp [QMap.value, this]

theorem value_cons (k : Int) (w : ItemInfoList) (m : QMap) (c : Int) :
    QMap.value ((k, w) :: m) c = if k = c then w else QMap.value m c := by
  by_cases h : k = c
  · simp [QMap.value, h]
  · have hb : (k == c) = false := by simpa using h
    simp [QMap.value, List.find?_cons, hb, h]

theorem value_appendAt (m : QMap) (c : Int) (info : ItemInfo) (c2 : Int)
    (h : (m.map (fun p => p.1)).Pairwise (fun a b => a < b)) :
    QMap.value (QMap.appendAt m c info) c2 =
      if c2 = c then QMap.value m c ++ [info] else QMap.value m c2 := by
  induction m with
  | nil =>
    by_cases hc : c2 = c
    · simp [QMap.appendAt, value_cons, hc, QMap.value]
    · have hc2 : ¬ c = c2 := fun e => hc e.symm
      simp [QMap.appendAt, value_cons, hc, hc2, QMap.value]
  | cons p m ih =>
    obtain ⟨k1, w⟩ := p
    simp only [List.map_cons, List.pairwise_cons] at h
    simp only [QMap.appendAt]
    by_cases h1 : k1 = c
    · subst h1
      simp only [if_true, value_cons]
      by_cases hc : c2 = k1
      · subst hc; simp
      · have hc2 : ¬ k1 = c2 := fun e => hc e.symm
        simp [hc, hc2]
    · simp only [if_neg h1]
      by_cases h2 : c < k1
      · simp only [if_pos h2]
        have hv : QMap.value ((k1, w) :: m) c = [] := by
          apply value_of_lt_keys
          intro k hk
          simp only [List.map_cons, List.mem_cons] at hk
          rcases hk with rfl | hk
          · exact h2
          · exact lt_trans h2 (h.1 k hk)
        by_cases hc : c2 = c
        · subst hc
          rw [if_pos rfl, hv, value_cons, if_pos rfl]
          rfl
        · have hc2 : ¬ c = c2 := fun e => hc e.symm
          rw [if_neg hc, value_cons, if_neg hc2]
      · simp only [if_neg h2]
        rw [value_cons, ih h.2]
        by_cases hc : c2 = c
        · subst hc
          rw [if_pos rfl, if_pos rfl, if_neg h1, value_cons, if_neg h1]
        · rw [if_neg hc, if_neg hc, value_cons]

theorem foldl_categoryStep_sorted (l : ItemInfoList) (m : QMap)
    (h : (m.map (fun p => p.1)).Pairwise (fun a b => a < b)) :
    ((l.foldl categoryStep m).map (fun p => p.1)).Pairwise (fun a b => a < b) := by
  induction l generalizing m with
  | nil => exact h
  | cons x xs ih =>
    simp only [List.foldl_cons]
    apply ih
    rw [categoryStep_eq]
    exact appendAt_keys_sorted m _ x h

theorem value_foldl_categoryStep (l : ItemInfoList) (m : QMap) (c : Int)
    (h : (m.map (fun p => p.1)).Pairwise (fun a b => a < b)) :
    QMap.value (l.foldl categoryStep m) c =
      QMap.value m c ++ l.filter (fun x => x.category == c) := by
  induction l generalizing m with
  | nil => simp
  | cons x xs ih =>
    simp only [List.foldl_cons]
    rw [ih _ (by rw [categoryStep_eq]; exact appendAt_keys_sorted m _ x h), categoryStep_eq,
      value_appendAt m _ x c h]
    by_cases hc : c = x.category
    · subst hc; simp [List.filter_cons]
    · have hc2 : (x.category == c) = false := by
        simp only [beq_eq_false_iff_ne, ne_eq]
        exact fun e => hc e.symm
      simp [List.filter_cons, hc, hc2]

theorem contains_appendAt (m : QMap) (c : Int) (info : ItemInfo) (c2 : Int) :
    QMap.contains (QMap.appendAt m c info) c2 = true ↔
      c2 = c ∨ QMap.contains m c2 = true := by
  induction m with
  | nil =>
    simp only [QMap.appendAt, QMap.contains, List.any_cons, List.any_nil, Bool.or_false,
      beq_iff_eq, Bool.false_eq_true, or_false]
    exact eq_comm
  | cons p m ih =>
    obtain ⟨k1, w⟩ := p
    simp only [QMap.appendAt]
    split_ifs with h1 h2
    · subst h1
      simp only [QMap.contains, List.any_cons, Bool.or_eq_true, beq_iff_eq]
      constructor
      · intro h; exact Or.inr h
      · rintro (h | h)
        · exact Or.inl h.symm
        · exact h
    · simp only [QMap.contains, List.any_cons, Bool.or_eq_true, beq_iff_eq]
      constructor
      · rintro (h | h)
        · exact Or.inl h.symm
        · exact Or.inr h
      · rintro (h | h)
        · exact Or.inl h.symm
        · exact Or.inr h
    · have ih2 : (((QMap.appendAt m c info).any fun p => p.1 == c2) = true) ↔
          c2 = c ∨ (m.any fun p => p.1 == c2) = true := ih
      simp only [QMap.contains, List.any_cons, Bool.or_eq_true, beq_iff_eq]
      rw [ih2]
      constructor
      · rintro (h | h | h)
        · exact Or.inr (Or.inl h)
        · exact Or.inl h
        · exact Or.inr (Or.inr h)
      · rintro (h | h | h)
        · exact Or.inr (Or.inl h)
        · exact Or.inl h
        · exact Or.inr (Or.inr h)

theorem contains_foldl_categoryStep (l : ItemInfoList) (m : QMap) (c : Int) :
    QMap.contains (l.foldl categoryStep m) c = true ↔
      QMap.contains m c = true ∨ ∃ x ∈ l, x.category = c := by
  induction l generalizing m with
  | nil => simp
  | cons x xs ih =>
    simp only [List.foldl_cons]
    rw [ih, categoryStep_eq, contains_appendAt]
    simp only [List.mem_cons, exists_eq_or_imp]
    constructor
    · rintro ((h | h) | h)
      · exact Or.inr (Or.inl h.symm)
      · exact Or.inl h
      · exact Or.inr (Or.inr h)
    · rintro (h | h | h)
      · exact Or.inl (Or.inr h)
      · exact Or.inl (Or.inl h.symm)
      · exact Or.inr h

/-- C19. After `generateCategoryMap` the bucket of every category `c` is the
list of the records of category `c` of the preset-sorted all-items list, in
the order of that list; the index has a bucket for `c` exactly when some
all-items record has category `c`, and `appsInfoList` returns the bucket, the
empty list when there is none. -/
theorem generateCategoryMap_buckets (qSort : Sorter) (preset : List String)
    (s : AppsManager) (c : Int) :
    QMap.value (generateCategoryMap qSort preset s).m_appInfos c =
      (sortByPresetOrder qSort preset s.m_allAppInfoList).filter
        (fun x => x.category == c) ∧
    (QMap.contains (generateCategoryMap qSort preset s).m_appInfos c = true ↔
      ∃ x ∈ sortByPresetOrder qSort preset s.m_allAppInfoList, x.category = c) ∧
    appsInfoList (generateCategoryMap qSort preset s) (AppCategory.ofId c) =
      (generateCategoryMap qSort preset s).m_allAppInfoList.filter
        (fun x => x.category == c) ∧
    ((∀ x ∈ (generateCategoryMap qSort preset s).m_allAppInfoList, x.category ≠ c) →
      QMap.contains (generateCategoryMap qSort preset s).m_appInfos c = false ∧
      appsInfoList (generateCategoryMap qSort preset s) (AppCategory.ofId c) = []) := by
  have hv : QMap.value (generateCategoryMap qSort preset s).m_appInfos c =
      (sortByPresetOrder qSort preset s.m_allAppInfoList).filter
        (fun x => x.category == c) := by
    rw [generateCategoryMap_appInfos, value_foldl_categoryStep _ _ _ (by simp)]
    simp [QMap.value]
  have hc : QMap.contains (generateCategoryMap qSort preset s).m_appInfos c = true ↔
      ∃ x ∈ sortByPresetOrder qSort preset s.m_allAppInfoList, x.category = c := by
    rw [generateCategoryMap_appInfos, contains_foldl_categoryStep]
    simp [QMap.contains]
  refine ⟨hv, hc, ?_, ?_⟩
  · simp only [appsInfoList]
    rw [hv, generateCategoryMap_all]
  · intro hno
    rw [generateCategoryMap_all] at hno
    constructor
    · rw [← Bool.not_eq_true, hc]
      rintro ⟨x, hx, hxc⟩
      exact hno x hx hxc
    · simp only [appsInfoList]
      rw [hv, List.filter_eq_nil_iff]
      intro x hx
      simpa using hno x hx

theorem generateCategoryMap_buckets_witness :
    appsInfoList (generateCategoryMap insertionSorter ["b", "a"] sampleManager)
        (AppCategory.ofId 8) = [item "a" "Atom" 8 0, item "k" "Kate" 8 3] ∧
    QMap.contains (generateCategoryMap insertionSorter ["b", "a"] sampleManager).m_appInfos 5 =
        false ∧
    appsInfoList (generateCategoryMap insertionSorter ["b", "a"] sampleManager)
        (AppCategory.ofId 5) = [] :=
  ⟨by decide,
   ((generateCategoryMap_buckets insertionSorter ["b", "a"] sampleManager 5).2.2.2
      (by decide)).1,
   ((generateCategoryMap_buckets insertionSorter ["b", "a"] sampleManager 5).2.2.2
      (by decide)).2⟩

/-! ## Launching an application -/

theorem incrementOpenCount_cons_succ (u : ItemInfo) (rest : ItemInfoList) (r : Int)
    (hr : 0 ≤ r) :
    incrementOpenCount (u :: rest) (r + 1) = u :: incrementOpenCount rest r := by
  have h : (r + 1).toNat = r.toNat + 1 := by omega
  unfold incrementOpenCount
  rw [h]
  simp only [List.getElem?_cons_succ]
  cases rest[r.toNat]? with
  | none => rfl
  | some v => simp

theorem incrementOpenCount_indexOf (used : ItemInfoList) (info : ItemInfo)
    (h : QList.indexOf ItemInfo.opEq used info ≠ -1) :
    incrementOpenCount used (QList.indexOf ItemInfo.opEq used info) =
      bump used info.m_key := by
  induction used with
  | nil => simp [QList.indexOf] at h
  | cons u rest ih =>
    by_cases hu : u.opEq info = true
    · have hk : u.m_key = info.m_key := (opEq_iff u info).mp hu
      simp [QList.indexOf, hu, incrementOpenCount, bump, hk]
    · have hk : ¬ u.m_key = info.m_key := fun hk => hu ((opEq_iff u info).mpr hk)
      have hb := indexOf_bounds ItemInfo.opEq rest info
      by_cases hr : QList.indexOf ItemInfo.opEq rest info = -1
      · simp [QList.indexOf, hu, hr] at h
      · have hidx : QList.indexOf ItemInfo.opEq (u :: rest) info =
            QList.indexOf ItemInfo.opEq rest info + 1 := by
          simp [QList.indexOf, hu, hr]
        rw [hidx, incrementOpenCount_cons_succ u rest _ (by omega), ih hr]
        simp [bump, hk]

theorem bump_of_absent (used : ItemInfoList) (k : String)
    (h : ∀ y ∈ used, y.m_key ≠ k) : bump used k = used := by
  induction used with
  | nil => rfl
  | cons u rest ih =>
    have hu : ¬ u.m_key = k := h u (by simp)
    simp only [bump, if_neg hu]
    rw [ih (fun y hy => h y (by simp [hy]))]

/-- The loop of `launchApp` raises the open count of the first record with the
key. -/
theorem launchApp_eq (s : AppsManager) (k : String) :
    launchApp s k = refreshUsedInfoList { s with m_usedSortedList := bump s.m_usedSortedList k } := by
  unfold launchApp
  cases hf : s.m_usedSortedList.find? (fun info => info.m_key == k) with
  | none =>
    have habs : ∀ y ∈ s.m_usedSortedList, y.m_key ≠ k := by
      intro y hy
      have := List.find?_eq_none.mp hf y hy
      simpa using this
    simp only [bump_of_absent _ _ habs]
  | some info =>
    have hmem := List.mem_of_find?_eq_some hf
    have hkey : info.m_key = k := by simpa using List.find?_some hf
    have hidx : QList.indexOf ItemInfo.opEq s.m_usedSortedList info ≠ -1 :=
      (indexOf_ne_neg_one_iff _ _).mpr ⟨info, hmem, rfl⟩
    have hne : (QList.indexOf ItemInfo.opEq s.m_usedSortedList info != -1) = true := by
      simpa using hidx
    simp only [hne, if_true]
    rw [incrementOpenCount_indexOf _ _ hidx, hkey]

theorem wrapInt32_of_range (x : Int) (h1 : -2147483648 ≤ x) (h2 : x ≤ 2147483647) :
    wrapInt32 x = x := by
  unfold wrapInt32
  omega

theorem bump_eq_map (used : ItemInfoList) (k : String) (h : (keysOf used).Nodup) :
    bump used k =
      used.map (fun x =>
        if x.m_key = k then { x with m_openCount := wrapInt32 (x.m_openCount + 1) }
        else x) := by
  induction used with
  | nil => rfl
  | cons u rest ih =>
    simp only [keysOf, List.map_cons, List.nodup_cons, List.mem_map, not_exists, not_and] at h
    by_cases hu : u.m_key = k
    · simp only [bump, if_pos hu, List.map_cons]
      congr 1
      symm
      have : ∀ x ∈ rest, ¬ x.m_key = k := fun x hx hxk => h.1 x hx (hxk.trans hu.symm)
      calc rest.map (fun x =>
            if x.m_key = k then { x with m_openCount := wrapInt32 (x.m_openCount + 1) }
            else x)
          = rest.map id := List.map_congr_left (fun x hx => by simp [this x hx])
        _ = rest := List.map_id rest
    · simp only [bump, if_neg hu, List.map_cons]
      rw [ih h.2]

/-- The counter of every record with key `k` is an `int` below the largest
one, so adding one to it does not wrap. -/
theorem map_wrap_eq_map_succ (used : ItemInfoList) (k : String)
    (hmax : ∀ x ∈ used, x.m_key = k →
      -2147483648 ≤ x.m_openCount ∧ x.m_openCount < 2147483647) :
    used.map (fun x =>
        if x.m_key = k then { x with m_openCount := wrapInt32 (x.m_openCount + 1) }
        else x) =
      used.map (fun x =>
        if x.m_key = k then { x with m_openCount := x.m_openCount + 1 } else x) := by
  apply List.map_congr_left
  intro x hx
  by_cases hxk : x.m_key = k
  · obtain ⟨h1, h2⟩ := hmax x hx hxk
    simp only [if_pos hxk]
    rw [wrapInt32_of_range _ (by omega) (by omega)]
  · simp only [if_neg hxk]

/-- C20. For every usage-ordered list without repeated keys that contains key
`k` in a record whose open count is an `int` below `2147483647`, `launchApp`
on `k` leaves a permutation of the list in which the record of `k` has its
open count raised by exactly one and every other record is unchanged (no
record is added or removed); the result is sorted by non-increasing open
count, and the records of any one open count stand in their previous
relative order. -/
theorem launchApp_raises_one_count (s : AppsManager) (k : String)
    (hnd : (keysOf s.m_usedSortedList).Nodup) (hk : k ∈ keysOf s.m_usedSortedList)
    (hmax : ∀ x ∈ s.m_usedSortedList, x.m_key = k →
      -2147483648 ≤ x.m_openCount ∧ x.m_openCount < 2147483647) :
    (launchApp s k).m_usedSortedList.Perm
      (s.m_usedSortedList.map (fun x =>
        if x.m_key = k then { x with m_openCount := x.m_openCount + 1 } else x)) ∧
    (launchApp s k).m_usedSortedList.length = s.m_usedSortedList.length ∧
    (launchApp s k).m_usedSortedList.Pairwise
      (fun a b => b.m_openCount ≤ a.m_openCount) ∧
    (∀ c, (launchApp s k).m_usedSortedList.filter (fun x => x.m_openCount == c) =
      (s.m_usedSortedList.map (fun x =>
        if x.m_key = k then { x with m_openCount := x.m_openCount + 1 } else x)).filter
        (fun x => x.m_openCount == c)) := by
  have hne : bump s.m_usedSortedList k ≠ [] := by
    rw [bump_eq_map _ _ hnd]
    intro h
    rw [List.map_eq_nil_iff] at h
    rw [h] at hk
    simp [keysOf] at hk
  have e : (launchApp s k).m_usedSortedList =
      stable_sort openCountGreater
        (s.m_usedSortedList.map (fun x =>
          if x.m_key = k then { x with m_openCount := x.m_openCount + 1 } else x)) := by
    rw [launchApp_eq, refreshUsedInfoList_of_ne_nil _ hne]
    exact congrArg _ ((bump_eq_map _ _ hnd).trans (map_wrap_eq_map_succ _ _ hmax))
  rw [e]
  refine ⟨stable_sort_perm _ _, ?_, ?_, ?_⟩
  · rw [(stable_sort_perm _ _).length_eq, List.length_map]
  · refine (stable_sort_sorted openCountGreater_strictWeakOrder _).imp ?_
    intro a b hab
    simpa [openCountGreater] using hab
  · intro c
    apply stable_sort_filter
    intro a b ha hb
    simp only [beq_iff_eq] at ha hb
    simp [openCountGreater, ha, hb]

theorem launchApp_raises_one_count_witness :
    (launchApp sampleManager "k").m_usedSortedList =
      [item "b" "Brow" 0 7, item "k" "Kate" 8 4, item "z" "Zip" 9 1, item "a" "Atom" 8 0] ∧
    (launchApp sampleManager "k").m_usedSortedList.Pairwise
      (fun a b => b.m_openCount ≤ a.m_openCount) :=
  ⟨by decide,
   (launchApp_raises_one_count sampleManager "k" (by decide) (by decide)
      (by decide)).2.2.1⟩

/-- With the open count of "k" at `2147483647`, the largest `int`, `launchApp`
does not raise it by one: the counter wraps to `-2147483648` and the record
moves from the first place to the last. -/
theorem launchApp_wraps_at_max_count :
    (keysOf sampleAtMaxCount.m_usedSortedList).Nodup ∧
    "k" ∈ keysOf sampleAtMaxCount.m_usedSortedList ∧
    sampleAtMaxCount.m_usedSortedList =
      [item "k" "Kate" 8 2147483647, item "b" "Brow" 0 7, item "z" "Zip" 9 1,
        item "a" "Atom" 8 0] ∧
    (launchApp sampleAtMaxCount "k").m_usedSortedList =
      [item "b" "Brow" 0 7, item "z" "Zip" 9 1, item "a" "Atom" 8 0,
        item "k" "Kate" 8 (-2147483648)] ∧
    (∀ y ∈ (launchApp sampleAtMaxCount "k").m_usedSortedList,
      y.m_key = "k" → y.m_openCount ≠ 2147483647 + 1) ∧
    ¬ (launchApp sampleAtMaxCount "k").m_usedSortedList.Perm
      (sampleAtMaxCount.m_usedSortedList.map (fun x =>
        if x.m_key = "k" then { x with m_openCount := x.m_openCount + 1 } else x)) := by
  refine ⟨by decide, by decide, by decide, by decide, by decide, ?_⟩
  intro h
  have hmem : item "k" "Kate" 8 (2147483647 + 1) ∈
      (launchApp sampleAtMaxCount "k").m_usedSortedList :=
    h.mem_iff.mpr (by decide)
  revert hmem
  decide

/-! ## Restoring to the original position -/

theorem stash_restore_all (qSort : Sorter) (hq : IsSorter qSort)
    (preset : List String) (s : AppsManager) (k : String) (pos : Int) (r : ItemInfo)
    (hall : s.m_allAppInfoList.filter (fun x => x.m_key == k) = [r])
    (hstash : ∀ y ∈ s.m_stashList, y.m_key ≠ k) :
    (restoreItem qSort preset (stashItem qSort preset s k) k pos).m_allAppInfoList.Perm
      s.m_allAppInfoList ∧
    (restoreItem qSort preset (stashItem qSort preset s k) k pos).m_allAppInfoList.Pairwise
      (fun a b => presetLess preset b a = false) := by
  obtain ⟨h1, _, h3, _, _, _⟩ := stashItem_of_once qSort hq preset s k r hall
  obtain ⟨_, _, _, _, hr, _⟩ := split_of_filter_singleton s.m_allAppInfoList k r hall
  rw [restoreItem_of_split qSort preset _ k pos s.m_stashList [] r h1 hstash hr]
  simp only [saveUserSortedList, generateCategoryMap_all]
  obtain ⟨hp, hs⟩ := hq (presetLess preset) (presetLess_strictWeakOrder preset)
    ((stashItem qSort preset s k).m_allAppInfoList ++ [r])
  exact ⟨hp.trans ((List.perm_append_singleton r _).trans h3), hs⟩

/-- C18. In every state in which the all-items list is in preset order, no two
of its records tie under the preset comparator, and key `k` occurs in it
exactly once and not in the stash, `stashItem(k)` followed by `restoreItem(k)`
yields an all-items list equal, element by element, to the list before the
stash: the record of `k` is back at its original position. -/
theorem stash_restore_original_position (qSort : Sorter) (hq : IsSorter qSort)
    (preset : List String) (s : AppsManager) (k : String) (pos : Int) (r : ItemInfo)
    (hsorted : s.m_allAppInfoList.Pairwise (fun a b => presetLess preset b a = false))
    (hnotie : s.m_allAppInfoList.Pairwise
      (fun a b => ¬ (presetLess preset a b = false ∧ presetLess preset b a = false)))
    (hall : s.m_allAppInfoList.filter (fun x => x.m_key == k) = [r])
    (hstash : ∀ y ∈ s.m_stashList, y.m_key ≠ k) :
    (restoreItem qSort preset (stashItem qSort preset s k) k pos).m_allAppInfoList =
      s.m_allAppInfoList := by
  obtain ⟨hp, hs⟩ := stash_restore_all qSort hq preset s k pos r hall hstash
  exact eq_of_perm_of_preset_sorted preset _ _ hp hsorted hnotie hs

theorem stash_restore_original_position_witness :
    (restoreItem insertionSorter ["b", "a"]
        (stashItem insertionSorter ["b", "a"] sampleManager "k") "k" (-1)).m_allAppInfoList =
      [item "b" "Brow" 0 7, item "a" "Atom" 8 0, item "k" "Kate" 8 3, item "z" "Zip" 9 1] :=
  stash_restore_original_position insertionSorter insertionSorter_isSorter ["b", "a"]
    sampleManager "k" (-1) (item "k" "Kate" 8 3) (by decide) (by decide) (by decide)
    (by decide)

/-! ## The shape of the usage-ordered list after `generateCategoryMap` -/

theorem freshKeys_mem (seen l : List String) (k : String) :
    k ∈ freshKeys seen l ↔ k ∈ l ∧ k ∉ seen := by
  induction l generalizing seen with
  | nil => simp [freshKeys]
  | cons x xs ih =>
    simp only [freshKeys]
    by_cases hx : x ∈ seen
    · rw [if_pos hx, ih]
      constructor
      · rintro ⟨h1, h2⟩; exact ⟨List.mem_cons_of_mem _ h1, h2⟩
      · rintro ⟨h1, h2⟩
        rcases List.mem_cons.mp h1 with rfl | h1
        · exact absurd hx h2
        · exact ⟨h1, h2⟩
    · rw [if_neg hx, List.mem_cons, ih]
      constructor
      · rintro (rfl | ⟨h1, h2⟩)
        · exact ⟨List.mem_cons_self _ _, hx⟩
        · exact ⟨List.mem_cons_of_mem _ h1, fun h => h2 (List.mem_cons_of_mem _ h)⟩
      · rintro ⟨h1, h2⟩
        by_cases hkx : k = x
        · exact Or.inl hkx
        · right
          rcases List.mem_cons.mp h1 with h1 | h1
          · exact absurd h1 hkx
          · refine ⟨h1, ?_⟩
            intro h
            rcases List.mem_cons.mp h with h | h
            · exact hkx h
            · exact h2 h

theorem freshKeys_nodup (seen l : List String) : (freshKeys seen l).Nodup := by
  induction l generalizing seen with
  | nil => simp [freshKeys]
  | cons x xs ih =>
    simp only [freshKeys]
    by_cases hx : x ∈ seen
    · rw [if_pos hx]; exact ih seen
    · rw [if_neg hx, List.nodup_cons]
      refine ⟨?_, ih _⟩
      rw [freshKeys_mem]
      rintro ⟨_, h⟩
      exact h (List.mem_cons_self _ _)

theorem freshKeys_sublist (seen l : List String) : (freshKeys seen l).Sublist l := by
  induction l generalizing seen with
  | nil => simp [freshKeys]
  | cons x xs ih =>
    simp only [freshKeys]
    by_cases hx : x ∈ seen
    · rw [if_pos hx]; exact (ih seen).cons x
    · rw [if_neg hx]; exact (ih _).cons₂ x

theorem freshKeys_congr (s1 s2 l : List String) (h : ∀ k, k ∈ s1 ↔ k ∈ s2) :
    freshKeys s1 l = freshKeys s2 l := by
  induction l generalizing s1 s2 with
  | nil => rfl
  | cons x xs ih =>
    simp only [freshKeys]
    by_cases hx : x ∈ s1
    · rw [if_pos hx, if_pos ((h x).mp hx)]
      exact ih s1 s2 h
    · rw [if_neg hx, if_neg (fun h2 => hx ((h x).mpr h2))]
      congr 1
      apply ih
      intro k
      simp only [List.mem_cons, h k]

theorem keysOf_eq_of_keyCount {l1 l2 : ItemInfoList}
    (h : l1.map keyCount = l2.map keyCount) : keysOf l1 = keysOf l2 := by
  have := congrArg (List.map Prod.fst) h
  simpa [keysOf, keyCount, List.map_map, Function.comp_def] using this

theorem mem_keysOf_iff (l : ItemInfoList) (k : String) :
    k ∈ keysOf l ↔ ∃ y ∈ l, y.m_key = k := by
  simp [keysOf]

theorem upd_keyCount_of_present (used : ItemInfoList) (info : ItemInfo)
    (h : ∃ y ∈ used, y.m_key = info.m_key) :
    (upd used info).map keyCount = used.map keyCount := by
  induction used with
  | nil => simp at h
  | cons u rest ih =>
    by_cases hu : u.m_key = info.m_key
    · simp [upd, hu, keyCount]
    · simp only [upd, if_neg hu, List.map_cons]
      rw [ih]
      obtain ⟨y, hy, hyk⟩ := h
      rcases List.mem_cons.mp hy with rfl | hy
      · exact absurd hyk hu
      · exact ⟨y, hy, hyk⟩

/-- The loop of `generateCategoryMap` over `l` leaves the records it found,
each with its key and open count, and puts behind them one record for each
key of `l` that was not there, in the order of first occurrence in `l`. -/
theorem foldl_upd_shape (l used : ItemInfoList) :
    ∃ kept added, l.foldl upd used = kept ++ added ∧
      kept.map keyCount = used.map keyCount ∧
      keysOf added = freshKeys (keysOf used) (keysOf l) := by
  induction l generalizing used with
  | nil => exact ⟨used, [], by simp, rfl, by simp [keysOf, freshKeys]⟩
  | cons a rest ih =>
    simp only [List.foldl_cons]
    by_cases hp : ∃ y ∈ used, y.m_key = a.m_key
    · obtain ⟨kept, added, e, hk, ha⟩ := ih (upd used a)
      refine ⟨kept, added, e, hk.trans (upd_keyCount_of_present used a hp), ?_⟩
      have hkeys : keysOf (upd used a) = keysOf used :=
        keysOf_eq_of_keyCount (upd_keyCount_of_present used a hp)
      rw [ha, hkeys]
      have hmem : a.m_key ∈ keysOf used := (mem_keysOf_iff _ _).mpr hp
      show _ = freshKeys (keysOf used) (a.m_key :: keysOf rest)
      simp only [freshKeys, if_pos hmem]
    · have habs : ∀ y ∈ used, y.m_key ≠ a.m_key := fun y hy hyk => hp ⟨y, hy, hyk⟩
      rw [upd_of_absent used a habs]
      obtain ⟨kept, added, e, hk, ha⟩ := ih (used ++ [a])
      rw [List.map_append] at hk
      obtain ⟨l1, l2, hl, h1, h2⟩ := List.map_eq_append_iff.mp hk
      refine ⟨l1, l2 ++ added, by rw [e, hl, List.append_assoc], h1, ?_⟩
      have hl2 : keysOf l2 = [a.m_key] := by
        have := @keysOf_eq_of_keyCount l2 [a] (by simpa using h2)
        simpa [keysOf] using this
      have hmem : a.m_key ∉ keysOf used := fun h => hp ((mem_keysOf_iff _ _).mp h)
      rw [keysOf_append, hl2, ha]
      show _ = freshKeys (keysOf used) (a.m_key :: keysOf rest)
      simp only [freshKeys, if_neg hmem, List.singleton_append]
      congr 1
      apply freshKeys_congr
      intro k
      rw [keysOf_append]
      simp only [keysOf, List.map_cons, List.map_nil, List.mem_append,
        List.mem_singleton, List.mem_cons, List.not_mem_nil, or_false]
      exact or_comm

theorem indexOf_ne_eq_contains (l : ItemInfoList) (x : ItemInfo) :
    (QList.indexOf ItemInfo.opEq l x != -1) = QList.contains ItemInfo.opEq l x := by
  rw [Bool.eq_iff_iff, bne_iff_ne, indexOf_ne_neg_one_iff, contains_iff]

/-- The usage-ordered list after `generateCategoryMap`: first the earlier
records whose key is still an all-items key, each with its key and open
count, in their earlier order; then one record for every all-items key that
was not in the list, in the order of the sorted all-items list. -/
theorem generateCategoryMap_used_shape (qSort : Sorter) (preset : List String)
    (s : AppsManager) :
    ∃ kept added, (generateCategoryMap qSort preset s).m_usedSortedList = kept ++ added ∧
      kept.map keyCount =
        (s.m_usedSortedList.filter (fun it =>
          QList.contains ItemInfo.opEq
            (generateCategoryMap qSort preset s).m_allAppInfoList it)).map keyCount ∧
      keysOf added =
        freshKeys (keysOf s.m_usedSortedList)
          (keysOf (generateCategoryMap qSort preset s).m_allAppInfoList) := by
  rw [generateCategoryMap_used, generateCategoryMap_all, foldl_usedListStep]
  generalize sortByPresetOrder qSort preset s.m_allAppInfoList = l
  obtain ⟨kept, added, e, hk, ha⟩ := foldl_upd_shape l s.m_usedSortedList
  have hfun : (fun it => QList.indexOf ItemInfo.opEq l it != -1) =
      (fun it => QList.contains ItemInfo.opEq l it) := by
    funext it; exact indexOf_ne_eq_contains l it
  have hq : (fun it => QList.contains ItemInfo.opEq l it) =
      (fun (pr : String × Int) => l.any (fun y => y.m_key == pr.1)) ∘ keyCount := rfl
  refine ⟨kept.filter (fun it => QList.contains ItemInfo.opEq l it), added, ?_, ?_, ha⟩
  · rw [e, hfun, List.filter_append]
    congr 1
    rw [List.filter_eq_self]
    intro x hx
    have hxk : x.m_key ∈ keysOf added := (mem_keysOf_iff _ _).mpr ⟨x, hx, rfl⟩
    rw [ha, freshKeys_mem] at hxk
    obtain ⟨y, hy, hyk⟩ := (mem_keysOf_iff _ _).mp hxk.1
    exact (contains_iff l x).mpr ⟨y, hy, hyk⟩
  · rw [hq, ← List.filter_map, ← List.filter_map, hk]

theorem updateUsedListInfo_keyCount (s : AppsManager) :
    (updateUsedListInfo s).m_usedSortedList.map keyCount =
      s.m_usedSortedList.map keyCount := by
  unfold updateUsedListInfo
  simp only
  generalize s.m_usedSortedList = used
  induction s.m_allAppInfoList generalizing used with
  | nil => rfl
  | cons a rest ih =>
    simp only [List.foldl_cons]
    rw [ih]
    by_cases h : QList.indexOf ItemInfo.opEq used a = -1
    · simp [h]
    · have hne : (QList.indexOf ItemInfo.opEq used a != -1) = true := by simpa using h
      simp only [hne, if_true]
      rw [updateUsedAt_indexOf used a h]
      exact upd_keyCount_of_present used a ((indexOf_ne_neg_one_iff used a).mp h)

/-- C16. `generateCategoryMap` leaves every record of the usage-ordered list
whose key is still an all-items key in the list with the open count it had,
whatever open count the all-items record of that key carries: the records in
front of the newly appended ones have, one by one, the keys and open counts of
the earlier records that stay.  `updateUsedListInfo` likewise leaves the key
and the open count of every record of the list as they were.  A record
`a(5)` beside an all-items record `a(0)` keeps the count 5 and takes the
other fields. -/
theorem generateCategoryMap_keeps_open_counts (qSort : Sorter) (preset : List String)
    (s : AppsManager) :
    (∃ kept added, (generateCategoryMap qSort preset s).m_usedSortedList = kept ++ added ∧
      kept.map keyCount =
        (s.m_usedSortedList.filter (fun it =>
          QList.contains ItemInfo.opEq
            (generateCategoryMap qSort preset s).m_allAppInfoList it)).map keyCount ∧
      (∀ x ∈ added, x.m_key ∉ keysOf s.m_usedSortedList)) ∧
    (updateUsedListInfo s).m_usedSortedList.map keyCount =
      s.m_usedSortedList.map keyCount ∧
    (generateCategoryMap insertionSorter []
        { AppsManager.init [] [] with
          m_allAppInfoList := [item "a" "New name" 2 0],
          m_usedSortedList := [item "a" "Old name" 1 5] }).m_usedSortedList =
      [item "a" "New name" 2 5] ∧
    (updateUsedListInfo
        { AppsManager.init [] [] with
          m_allAppInfoList := [item "a" "New name" 2 0],
          m_usedSortedList := [item "a" "Old name" 1 5] }).m_usedSortedList =
      [item "a" "New name" 2 5] := by
  refine ⟨?_, updateUsedListInfo_keyCount s, by decide, by decide⟩
  obtain ⟨kept, added, e, hk, ha⟩ := generateCategoryMap_used_shape qSort preset s
  refine ⟨kept, added, e, hk, ?_⟩
  intro x hx hmem
  have hxk : x.m_key ∈ keysOf added := (mem_keysOf_iff _ _).mpr ⟨x, hx, rfl⟩
  rw [ha, freshKeys_mem] at hxk
  exact hxk.2 hmem

/-- C17. After `generateCategoryMap` a key is in the usage-ordered list if and
only if it is in the all-items list.  The list consists of the earlier records
whose key is still in all-items, in their earlier relative order (with their
keys and open counts), followed by one record for each all-items key that was
not in the list: each such key once, in the order of the preset-sorted
all-items list. -/
theorem generateCategoryMap_used_keys (qSort : Sorter) (preset : List String)
    (s : AppsManager) :
    (∀ k, k ∈ keysOf (generateCategoryMap qSort preset s).m_usedSortedList ↔
      k ∈ keysOf (generateCategoryMap qSort preset s).m_allAppInfoList) ∧
    (∃ kept added, (generateCategoryMap qSort preset s).m_usedSortedList = kept ++ added ∧
      kept.map keyCount =
        (s.m_usedSortedList.filter (fun it =>
          QList.contains ItemInfo.opEq
            (generateCategoryMap qSort preset s).m_allAppInfoList it)).map keyCount ∧
      (keysOf added).Nodup ∧
      (keysOf added).Sublist (keysOf (generateCategoryMap qSort preset s).m_allAppInfoList) ∧
      (∀ k, k ∈ keysOf added ↔
        k ∈ keysOf (generateCategoryMap qSort preset s).m_allAppInfoList ∧
          k ∉ keysOf s.m_usedSortedList)) := by
  constructor
  · intro k
    constructor
    · intro hk
      obtain ⟨y, hy, hyk⟩ := (mem_keysOf_iff _ _).mp hk
      obtain ⟨z, hz, hzk⟩ := generateCategoryMap_used_mem qSort preset s y hy
      exact (mem_keysOf_iff _ _).mpr ⟨z, hz, hzk.trans hyk⟩
    · intro hk
      obtain ⟨a, ha, hak⟩ := (mem_keysOf_iff _ _).mp hk
      rw [generateCategoryMap_all] at ha
      obtain ⟨y, hy, hyk⟩ := foldl_upd_mem_key _ s.m_usedSortedList a ha
      refine (mem_keysOf_iff _ _).mpr ⟨y, ?_, hyk.trans hak⟩
      rw [generateCategoryMap_used, foldl_usedListStep, List.mem_filter]
      refine ⟨hy, ?_⟩
      simp only [bne_iff_ne]
      exact (indexOf_ne_neg_one_iff _ _).mpr ⟨a, ha, hyk.symm⟩
  · obtain ⟨kept, added, e, hk, ha⟩ := generateCategoryMap_used_shape qSort preset s
    refine ⟨kept, added, e, hk, ?_, ?_, ?_⟩
    · rw [ha]; exact freshKeys_nodup _ _
    · rw [ha]; exact freshKeys_sublist _ _
    · intro k; rw [ha]; exact freshKeys_mem _ _ k

/-! ## The open count across stash and restore -/

theorem upd_filter_other (used : ItemInfoList) (a : ItemInfo) (k : String)
    (h : a.m_key ≠ k) :
    (upd used a).filter (fun x => x.m_key == k) = used.filter (fun x => x.m_key == k) := by
  induction used with
  | nil =>
    have : (a.m_key == k) = false := by simpa using h
    simp [upd, List.filter_cons, this]
  | cons u rest ih =>
    by_cases hu : u.m_key = a.m_key
    · have h1 : (u.m_key == k) = false := by simpa [hu] using h
      have h2 : (a.m_key == k) = false := by simpa using h
      simp [upd, hu, List.filter_cons, h2]
    · simp only [upd, if_neg hu, List.filter_cons, ih]

theorem foldl_upd_filter_other (l used : ItemInfoList) (k : String)
    (h : ∀ a ∈ l, a.m_key ≠ k) :
    (l.foldl upd used).filter (fun x => x.m_key == k) =
      used.filter (fun x => x.m_key == k) := by
  induction l generalizing used with
  | nil => rfl
  | cons a rest ih =>
    simp only [List.foldl_cons]
    rw [ih _ (fun b hb => h b (by simp [hb])), upd_filter_other used a k (h a (by simp))]

/-- When the key is in no record of the usage-ordered list and in exactly one
record `r` of the all-items list, the loop of `generateCategoryMap` leaves
exactly `r` as the record of that key. -/
theorem foldl_upd_filter_new (l used : ItemInfoList) (k : String) (r : ItemInfo)
    (hl : l.filter (fun x => x.m_key == k) = [r])
    (hu : ∀ y ∈ used, y.m_key ≠ k) :
    (l.foldl upd used).filter (fun x => x.m_key == k) = [r] := by
  obtain ⟨pre, post, e, hpre, hr, hpost⟩ := split_of_filter_singleton l k r hl
  rw [e, List.foldl_append, List.foldl_cons, foldl_upd_filter_other post _ k hpost]
  have hnone : ∀ y ∈ pre.foldl upd used, y.m_key ≠ k := by
    intro y hy hyk
    have hmem : y ∈ (pre.foldl upd used).filter (fun x => x.m_key == k) :=
      List.mem_filter.mpr ⟨hy, by simpa using hyk⟩
    rw [foldl_upd_filter_other pre used k hpre, filter_key_eq_nil used k hu] at hmem
    simp at hmem
  rw [upd_of_absent _ r (fun y hy => by rw [hr]; exact hnone y hy), List.filter_append,
    filter_key_eq_nil _ k hnone]
  have hrb : (r.m_key == k) = true := by simpa using hr
  simp [List.filter_cons, hrb]

/-- C13 (as amended). In every state in which key `k` occurs exactly once in
all-items, in the record `r`, and not in the stash, `stashItem(k)` followed by
`restoreItem(k)` with no insert position leaves exactly one record with key
`k` in the usage-ordered list, and that record is `r`: the open count
recorded for `k` is the one of the all-items record, whatever count the
usage-ordered list held before the stash. -/
theorem stash_restore_takes_all_items_count (qSort : Sorter) (hq : IsSorter qSort)
    (preset : List String) (s : AppsManager) (k : String) (r : ItemInfo)
    (hall : s.m_allAppInfoList.filter (fun x => x.m_key == k) = [r])
    (hstash : ∀ y ∈ s.m_stashList, y.m_key ≠ k) :
    (restoreItem qSort preset (stashItem qSort preset s k) k (-1)).m_usedSortedList.filter
      (fun x => x.m_key == k) = [r] := by
  obtain ⟨h1, _, h3, h4, h5, _⟩ := stashItem_of_once qSort hq preset s k r hall
  obtain ⟨_, _, _, _, hr, _⟩ := split_of_filter_singleton s.m_allAppInfoList k r hall
  rw [restoreItem_of_split qSort preset _ k (-1) s.m_stashList [] r h1 hstash hr]
  simp only [saveUserSortedList]
  rw [generateCategoryMap_used, foldl_usedListStep]
  simp only [bne_self_eq_false, Bool.false_eq_true, if_false]
  generalize hA : sortByPresetOrder qSort preset
    ((stashItem qSort preset s k).m_allAppInfoList ++ [r]) = l
  have hperm : l.Perm ((stashItem qSort preset s k).m_allAppInfoList ++ [r]) := by
    rw [← hA]; exact sortByPresetOrder_perm qSort hq preset _
  have hl : l.filter (fun x => x.m_key == k) = [r] := by
    have := hperm.filter (fun x => x.m_key == k)
    rw [List.filter_append, filter_key_eq_nil _ k h4] at this
    have hrb : (r.m_key == k) = true := by simpa using hr
    simp only [List.nil_append, List.filter_cons, hrb, if_true, List.filter_nil] at this
    exact List.perm_singleton.mp this
  rw [List.filter_comm, foldl_upd_filter_new l _ k r hl h5]
  have hrl : r ∈ l := by
    have : r ∈ l.filter (fun x => x.m_key == k) := by rw [hl]; simp
    exact (List.mem_filter.mp this).1
  have hp : (QList.indexOf ItemInfo.opEq l r != -1) = true := by
    simp only [bne_iff_ne]
    exact (indexOf_ne_neg_one_iff l r).mpr ⟨r, hrl, rfl⟩
  simp [List.filter_cons, hp]

theorem stash_restore_takes_all_items_count_witness :
    (restoreItem insertionSorter ["b", "a"]
        (stashItem insertionSorter ["b", "a"] (launchApp sampleManager "k") "k")
        "k" (-1)).m_usedSortedList.filter (fun x => x.m_key == "k") =
      [item "k" "Kate" 8 3] :=
  stash_restore_takes_all_items_count insertionSorter insertionSorter_isSorter ["b", "a"]
    (launchApp sampleManager "k") "k" (item "k" "Kate" 8 3) (by decide) (by decide)

/-- C13 as stated fails: after one launch the usage-ordered list records open
count 4 for `k` while the all-items record still carries 3; `stashItem("k")`
followed by `restoreItem("k")` leaves the usage-ordered record with count 3. -/
theorem stash_restore_lowers_open_count :
    (launchApp sampleManager "k").m_usedSortedList.filter (fun x => x.m_key == "k") =
      [item "k" "Kate" 8 4] ∧
    (launchApp sampleManager "k").m_allAppInfoList.filter (fun x => x.m_key == "k") =
      [item "k" "Kate" 8 3] ∧
    (restoreItem insertionSorter ["b", "a"]
        (stashItem insertionSorter ["b", "a"] (launchApp sampleManager "k") "k")
        "k" (-1)).m_usedSortedList.filter (fun x => x.m_key == "k") =
      [item "k" "Kate" 8 3] := by
  decide

/-! ## Lists without repeated keys -/

theorem upd_keys (used : ItemInfoList) (a : ItemInfo) :
    keysOf (upd used a) =
      if a.m_key ∈ keysOf used then keysOf used else keysOf used ++ [a.m_key] := by
  by_cases h : a.m_key ∈ keysOf used
  · rw [if_pos h]
    exact keysOf_eq_of_keyCount (upd_keyCount_of_present used a ((mem_keysOf_iff _ _).mp h))
  · rw [if_neg h, upd_of_absent used a
      (fun y hy hyk => h ((mem_keysOf_iff _ _).mpr ⟨y, hy, hyk⟩)), keysOf_append]
    rfl

theorem upd_keys_nodup (used : ItemInfoList) (a : ItemInfo) (h : (keysOf used).Nodup) :
    (keysOf (upd used a)).Nodup := by
  rw [upd_keys]
  split
  · exact h
  · rename_i hmem
    rw [List.nodup_append]
    refine ⟨h, by simp, ?_⟩
    intro k hk1 hk2
    simp only [List.mem_singleton] at hk2
    exact hmem (hk2 ▸ hk1)

theorem foldl_upd_keys_nodup (l used : ItemInfoList) (h : (keysOf used).Nodup) :
    (keysOf (l.foldl upd used)).Nodup := by
  induction l generalizing used with
  | nil => exact h
  | cons a rest ih => exact ih _ (upd_keys_nodup used a h)

theorem keysOf_filter_sublist (p : ItemInfo → Bool) (l : ItemInfoList) :
    (keysOf (l.filter p)).Sublist (keysOf l) :=
  (List.filter_sublist l).map _

/-- The usage-ordered list that `generateCategoryMap` leaves has no key twice
when the list it started from had none, and all its keys are all-items keys. -/
theorem generateCategoryMap_used_nodup (qSort : Sorter) (preset : List String)
    (s : AppsManager) (h : (keysOf s.m_usedSortedList).Nodup) :
    (keysOf (generateCategoryMap qSort preset s).m_usedSortedList).Nodup ∧
    (∀ k ∈ keysOf (generateCategoryMap qSort preset s).m_usedSortedList,
      k ∈ keysOf (generateCategoryMap qSort preset s).m_allAppInfoList) := by
  constructor
  · rw [generateCategoryMap_used, foldl_usedListStep]
    exact (foldl_upd_keys_nodup _ _ h).sublist (keysOf_filter_sublist _ _)
  · intro k hk
    obtain ⟨y, hy, hyk⟩ := (mem_keysOf_iff _ _).mp hk
    obtain ⟨z, hz, hzk⟩ := generateCategoryMap_used_mem qSort preset s y hy
    exact (mem_keysOf_iff _ _).mpr ⟨z, hz, hzk.trans hyk⟩

theorem generateCategoryMap_frame (qSort : Sorter) (preset : List String)
    (s : AppsManager) :
    (generateCategoryMap qSort preset s).m_appSearchResultList = s.m_appSearchResultList ∧
    (generateCategoryMap qSort preset s).APP_USER_SORTED_LIST = s.APP_USER_SORTED_LIST ∧
    (generateCategoryMap qSort preset s).APP_USED_SORTED_LIST = s.APP_USED_SORTED_LIST :=
  ⟨rfl, rfl, rfl⟩

theorem addMissing_keys_nodup (l used : ItemInfoList) (h : (keysOf used).Nodup) :
    (keysOf (l.foldl
      (fun used it =>
        if !QList.contains ItemInfo.opEq used it then used ++ [it] else used) used)).Nodup := by
  induction l generalizing used with
  | nil => exact h
  | cons a rest ih =>
    simp only [List.foldl_cons]
    apply ih
    by_cases hc : QList.contains ItemInfo.opEq used a = true
    · simp only [hc, Bool.not_true, Bool.false_eq_true, if_false]
      exact h
    · have hc2 : QList.contains ItemInfo.opEq used a = false := by simpa using hc
      simp only [hc2, Bool.not_false, if_true, keysOf_append]
      rw [List.nodup_append]
      refine ⟨h, by simp [keysOf], ?_⟩
      intro k hk1 hk2
      simp only [keysOf, List.map_cons, List.map_nil, List.mem_singleton] at hk2
      obtain ⟨y, hy, hyk⟩ := (mem_keysOf_iff _ _).mp hk1
      have := (contains_eq_false_iff ItemInfo.opEq used a).mp hc2 y hy
      exact (opEq_eq_false_iff y a).mp this (hyk.trans hk2)

/-- The usage-ordered list that `refreshUsedInfoList` leaves has no key twice
and only all-items keys, when that held before and neither the all-items list
nor the persisted list has a key twice; it is also the list persisted. -/
theorem refreshUsedInfoList_used_nodup (s : AppsManager)
    (hall : (keysOf s.m_allAppInfoList).Nodup)
    (hused : (keysOf s.m_usedSortedList).Nodup)
    (hstore : (keysOf s.APP_USED_SORTED_LIST).Nodup)
    (hsub : ∀ k ∈ keysOf s.m_usedSortedList, k ∈ keysOf s.m_allAppInfoList) :
    (keysOf (refreshUsedInfoList s).m_usedSortedList).Nodup ∧
    (∀ k ∈ keysOf (refreshUsedInfoList s).m_usedSortedList, k ∈ keysOf s.m_allAppInfoList) ∧
    (refreshUsedInfoList s).APP_USED_SORTED_LIST = (refreshUsedInfoList s).m_usedSortedList ∧
    (refreshUsedInfoList s).m_appSearchResultList = s.m_appSearchResultList ∧
    (refreshUsedInfoList s).APP_USER_SORTED_LIST = s.APP_USER_SORTED_LIST := by
  by_cases h : s.m_usedSortedList.isEmpty = true
  · have hsub2 : ∀ k ∈ keysOf (refreshUsedInfoList s).m_usedSortedList,
        k ∈ keysOf s.m_allAppInfoList := by
      intro k hk
      obtain ⟨y, hy, hyk⟩ := (mem_keysOf_iff _ _).mp hk
      rcases refreshUsedInfoList_used_mem s y hy with h1 | ⟨z, hz, hzk⟩
      · exact hsub k ((mem_keysOf_iff _ _).mpr ⟨y, h1, hyk⟩)
      · exact (mem_keysOf_iff _ _).mpr ⟨z, hz, hzk.trans hyk⟩
    refine ⟨?_, hsub2, ?_, ?_, ?_⟩
    · unfold refreshUsedInfoList
      simp only [h, if_true, saveUsedSortedList]
      refine (List.Perm.nodup_iff (keysOf_perm (stable_sort_perm _ _))).mpr ?_
      have key : ∀ t : AppsManager, keysOf (updateUsedListInfo t).m_usedSortedList =
          keysOf t.m_usedSortedList := updateUsedListInfo_keys
      rw [key]
      dsimp only
      refine (List.Nodup.sublist (keysOf_filter_sublist _ _) ?_)
      apply addMissing_keys_nodup
      split
      · exact hall
      · exact hstore
    · unfold refreshUsedInfoList
      simp [h, saveUsedSortedList]
    · unfold refreshUsedInfoList
      simp [h, saveUsedSortedList, updateUsedListInfo]
    · unfold refreshUsedInfoList
      simp [h, saveUsedSortedList, updateUsedListInfo]
  · have hne : s.m_usedSortedList ≠ [] := by
      intro e; rw [e] at h; exact h rfl
    have e := refreshUsedInfoList_of_ne_nil s hne
    have hperm := keysOf_perm (stable_sort_perm openCountGreater s.m_usedSortedList)
    refine ⟨?_, ?_, ?_, ?_, ?_⟩
    · rw [e]; exact (List.Perm.nodup_iff hperm).mpr hused
    · intro k hk
      rw [e] at hk
      exact hsub k ((List.Perm.mem_iff hperm).mp hk)
    · unfold refreshUsedInfoList
      simp [h, saveUsedSortedList]
    · unfold refreshUsedInfoList
      simp [h, saveUsedSortedList]
    · unfold refreshUsedInfoList
      simp [h, saveUsedSortedList]

theorem insert_perm {α : Type} (l : List α) (i : Int) (x : α) :
    (QList.insert l i x).Perm (x :: l) := by
  unfold QList.insert
  split
  · exact List.Perm.refl _
  · split
    · exact List.perm_append_singleton x l
    · have : (x :: l) = x :: (l.take i.toNat ++ l.drop i.toNat) := by
        rw [List.take_append_drop]
      rw [this]
      exact List.perm_middle

theorem removeOne_keys_mem (l : ItemInfoList) (a : ItemInfo) (k : String)
    (h : (keysOf l).Nodup) :
    k ∈ keysOf (QList.removeOne ItemInfo.opEq l a) ↔ k ∈ keysOf l ∧ k ≠ a.m_key := by
  induction l with
  | nil => simp [QList.removeOne, keysOf]
  | cons y ys ih =>
    have hnd : y.m_key ∉ keysOf ys ∧ (keysOf ys).Nodup := by
      simpa [keysOf] using h
    simp only [QList.removeOne]
    by_cases hy : y.opEq a = true
    · have hk : y.m_key = a.m_key := (opEq_iff y a).mp hy
      simp only [hy, if_true]
      constructor
      · intro hm
        refine ⟨by simp [keysOf] at hm ⊢; exact Or.inr hm, ?_⟩
        rintro rfl
        exact hnd.1 (hk ▸ hm)
      · rintro ⟨hm, hne⟩
        have hm2 : k = y.m_key ∨ k ∈ keysOf ys := by simpa [keysOf] using hm
        rcases hm2 with rfl | hm2
        · exact absurd hk hne
        · exact hm2
    · have hk : ¬ y.m_key = a.m_key := fun e => hy ((opEq_iff y a).mpr e)
      simp only [hy, Bool.false_eq_true, if_false]
      have e1 : keysOf (y :: QList.removeOne ItemInfo.opEq ys a) =
          y.m_key :: keysOf (QList.removeOne ItemInfo.opEq ys a) := rfl
      have e2 : keysOf (y :: ys) = y.m_key :: keysOf ys := rfl
      rw [e1, e2, List.mem_cons, List.mem_cons, ih hnd.2]
      constructor
      · rintro (rfl | ⟨h1, h2⟩)
        · exact ⟨Or.inl rfl, hk⟩
        · exact ⟨Or.inr h1, h2⟩
      · rintro ⟨h1 | h1, h2⟩
        · exact Or.inl h1
        · exact Or.inr ⟨h1, h2⟩

theorem appendSearchResult_foldl_frame (keys : List String) (t : AppsManager) :
    (keys.foldl appendSearchResult t).m_stashList = t.m_stashList ∧
    (keys.foldl appendSearchResult t).m_usedSortedList = t.m_usedSortedList ∧
    (keys.foldl appendSearchResult t).APP_USER_SORTED_LIST = t.APP_USER_SORTED_LIST ∧
    (keys.foldl appendSearchResult t).APP_USED_SORTED_LIST = t.APP_USED_SORTED_LIST := by
  induction keys generalizing t with
  | nil => exact ⟨rfl, rfl, rfl, rfl⟩
  | cons k ks ih =>
    simp only [List.foldl_cons]
    obtain ⟨h1, h2, h3, h4⟩ := ih (appendSearchResult t k)
    rw [h1, h2, h3, h4]
    unfold appendSearchResult
    cases t.m_allAppInfoList.find? (fun info => info.m_key == k) with
    | none => exact ⟨rfl, rfl, rfl, rfl⟩
    | some info => exact ⟨rfl, rfl, rfl, rfl⟩

theorem searchDone_frame (s : AppsManager) (resultList : List String) :
    (searchDone s resultList).m_allAppInfoList = s.m_allAppInfoList ∧
    (searchDone s resultList).m_stashList = s.m_stashList ∧
    (searchDone s resultList).m_usedSortedList = s.m_usedSortedList ∧
    (searchDone s resultList).APP_USER_SORTED_LIST = s.APP_USER_SORTED_LIST ∧
    (searchDone s resultList).APP_USED_SORTED_LIST = s.APP_USED_SORTED_LIST := by
  unfold searchDone
  obtain ⟨h1, h2, h3, h4⟩ :=
    appendSearchResult_foldl_frame resultList { s with m_appSearchResultList := [] }
  exact ⟨(appendSearchResult_foldl _ resultList).2, h1, h2, h3, h4⟩

/-- The keys of the search results are the backend keys that resolve, in the
order of the backend. -/
theorem searchDone_keys (s : AppsManager) (resultList : List String) :
    (keysOf (searchDone s resultList).m_appSearchResultList).Sublist resultList := by
  have e : (searchDone s resultList).m_appSearchResultList =
      resultList.filterMap
        (fun key => s.m_allAppInfoList.find? (fun info => info.m_key == key)) := by
    unfold searchDone
    rw [(appendSearchResult_foldl _ resultList).1]
    simp
  rw [e]
  clear e
  generalize s.m_allAppInfoList = l
  induction resultList with
  | nil => simp [keysOf]
  | cons k ks ih =>
    rw [List.filterMap_cons]
    cases hf : l.find? (fun info => info.m_key == k) with
    | none => exact ih.cons k
    | some info =>
      have hk : info.m_key = k := by simpa using List.find?_some hf
      simp only [keysOf, List.map_cons, hk]
      exact List.Sublist.cons₂ k ih

theorem not_mem_used_of_stashed (s : AppsManager) (x : ItemInfo)
    (h1 : (keysOf s.m_allAppInfoList ++ keysOf s.m_stashList).Nodup)
    (h3 : ∀ k ∈ keysOf s.m_usedSortedList, k ∈ keysOf s.m_allAppInfoList)
    (hx : x ∈ s.m_stashList) : x.m_key ∉ keysOf s.m_usedSortedList := by
  intro hm
  exact (List.nodup_append.mp h1).2.2 (h3 _ hm) ((mem_keysOf_iff _ _).mpr ⟨x, hx, rfl⟩)

/-- One guarded call on a well-formed catalog leaves a well-formed catalog. -/
theorem applyCall_wellFormed (qSort : Sorter) (hq : IsSorter qSort) (preset : List String)
    (s : AppsManager) (c : Call) (hg : c.guarded s) (h : WellFormed s) :
    WellFormed (applyCall qSort preset s c) := by
  obtain ⟨h1, h2, h3, h4, h5, h6⟩ := h
  cases c with
  | searchDone resultList =>
    obtain ⟨e1, e2, e3, e4, e5⟩ := searchDone_frame s resultList
    have hs : (keysOf (searchDone s resultList).m_appSearchResultList).Nodup :=
      List.Nodup.sublist (searchDone_keys s resultList) hg
    unfold WellFormed
    simp only [applyCall]
    rw [e1, e2, e3, e4, e5]
    exact ⟨h1, h2, h3, hs, h5, h6⟩
  | op o =>
    have hap := applyOp_keeps_apart qSort hq preset s o hg h1
    simp only [applyCall]
    cases o with
    | refreshCategoryInfoList reply =>
      have gnd := generateCategoryMap_used_nodup qSort preset
        { s with
          m_usedSortedList := s.APP_USER_SORTED_LIST,
          m_allAppInfoList := (QDBusPendingReply.value reply).filter
            (fun it => !QList.contains ItemInfo.opEq s.m_stashList it) } h5
      exact ⟨hap, gnd.1, gnd.2, h4, gnd.1, h6⟩
    | stashItem appKey =>
      simp only [applyOp] at hap ⊢
      rcases key_split s.m_allAppInfoList appKey with ha | ⟨pre, x, post, e1, e2, e3⟩
      · rw [stashItem_of_absent qSort preset s appKey ha]
        exact ⟨h1, h2, h3, h4, h5, h6⟩
      · rw [stashItem_of_split qSort preset s appKey pre post x e1 e2 e3] at hap ⊢
        have gnd := generateCategoryMap_used_nodup qSort preset
          { s with m_stashList := s.m_stashList ++ [x], m_allAppInfoList := pre ++ post } h2
        obtain ⟨f1, _, _, _⟩ := refreshUsedInfoList_frame
          (generateCategoryMap qSort preset
            { s with m_stashList := s.m_stashList ++ [x], m_allAppInfoList := pre ++ post })
        have hallg := (List.nodup_append.mp hap).1
        rw [f1] at hallg
        obtain ⟨r1, r2, r3, r4, r5⟩ := refreshUsedInfoList_used_nodup
          (generateCategoryMap qSort preset
            { s with m_stashList := s.m_stashList ++ [x], m_allAppInfoList := pre ++ post })
          hallg gnd.1 h6 gnd.2
        refine ⟨hap, r1, ?_, ?_, ?_, ?_⟩
        · rw [f1]; exact r2
        · rw [r4]; exact h4
        · rw [r5]; exact h5
        · rw [r3]; exact r1
    | restoreItem appKey pos =>
      simp only [applyOp] at hap ⊢
      rcases key_split s.m_stashList appKey with ha | ⟨pre, x, post, e1, e2, e3⟩
      · rw [restoreItem_of_absent qSort preset s appKey pos ha]
        exact ⟨h1, h2, h3, h4, h5, h6⟩
      · rw [restoreItem_of_split qSort preset s appKey pos pre post x e1 e2 e3] at hap ⊢
        have hx : x ∈ s.m_stashList := by rw [e1]; simp
        have hxu := not_mem_used_of_stashed s x h1 h3 hx
        have hused : (keysOf (if pos != -1 then QList.insert s.m_usedSortedList pos x
            else s.m_usedSortedList)).Nodup := by
          split
          · refine (List.Perm.nodup_iff (keysOf_perm (insert_perm _ pos x))).mpr ?_
            exact List.nodup_cons.mpr ⟨hxu, h2⟩
          · exact h2
        have gnd := generateCategoryMap_used_nodup qSort preset
          { s with
            m_usedSortedList :=
              if pos != -1 then QList.insert s.m_usedSortedList pos x
              else s.m_usedSortedList,
            m_allAppInfoList := s.m_allAppInfoList ++ [x],
            m_stashList := pre ++ post } hused
        exact ⟨hap, gnd.1, gnd.2, h4, gnd.1, h6⟩
    | abandonStashedItem appKey =>
      simp only [applyOp] at hap ⊢
      rcases key_split s.m_stashList appKey with ha | ⟨pre, x, post, e1, e2, e3⟩
      · have : abandonStashedItem s appKey = s := by
          unfold abandonStashedItem
          rw [(keyIndex_eq_none_iff _ _).mpr ha]
        rw [this]
        exact ⟨h1, h2, h3, h4, h5, h6⟩
      · rw [abandonStashedItem_of_split s appKey pre post x e1 e2 e3] at hap ⊢
        exact ⟨hap, h2, h3, h4, h5, h6⟩
    | handleItemChanged operation appInfo =>
      simp only [applyOp] at hap ⊢
      by_cases hc : operation = "created"
      · obtain ⟨g1, _⟩ := hg hc
        subst hc
        have hnu : appInfo.m_key ∉ keysOf s.m_usedSortedList := fun hm => g1 (h3 _ hm)
        refine ⟨hap, ?_, ?_, h4, h5, h6⟩
        · show (keysOf (s.m_usedSortedList ++ [appInfo])).Nodup
          rw [keysOf_append]
          refine (List.Perm.nodup_iff List.perm_append_comm).mp ?_
          exact List.nodup_cons.mpr ⟨hnu, h2⟩
        · show ∀ k ∈ keysOf (s.m_usedSortedList ++ [appInfo]),
            k ∈ keysOf (s.m_allAppInfoList ++ [appInfo])
          intro k hk
          rw [keysOf_append, List.mem_append] at hk ⊢
          rcases hk with hk | hk
          · exact Or.inl (h3 k hk)
          · exact Or.inr hk
      · have hc2 : (operation == "created") = false := by simpa using hc
        by_cases hd : operation = "deleted"
        · subst hd
          refine ⟨hap, ?_, ?_, h4, h5, h6⟩
          · show (keysOf (QList.removeOne ItemInfo.opEq s.m_usedSortedList appInfo)).Nodup
            exact h2.sublist ((removeOne_sublist _ _).map _)
          · show ∀ k ∈ keysOf (QList.removeOne ItemInfo.opEq s.m_usedSortedList appInfo),
              k ∈ keysOf (QList.removeOne ItemInfo.opEq s.m_allAppInfoList appInfo)
            intro k hk
            have hk2 := (removeOne_keys_mem _ appInfo k h2).mp hk
            exact (removeOne_keys_mem _ appInfo k (List.nodup_append.mp h1).1).mpr
              ⟨h3 k hk2.1, hk2.2⟩
        · have hd2 : (operation == "deleted") = false := by simpa using hd
          by_cases hu : operation = "updated"
          · subst hu
            refine ⟨hap, h2, ?_, h4, h5, h6⟩
            show ∀ k ∈ keysOf s.m_usedSortedList,
              k ∈ keysOf (updateFirst s.m_allAppInfoList appInfo)
            rw [updateFirst_keys]
            exact h3
          · have hu2 : (operation == "updated") = false := by simpa using hu
            have e : handleItemChanged s operation appInfo =
                { s with m_delayRefreshTimer := some delayRefreshTimerInterval } := by
              simp only [handleItemChanged, hc2, hd2, hu2, Bool.false_eq_true, if_false]
            rw [e]
            exact ⟨h1, h2, h3, h4, h5, h6⟩
    | delayRefreshData =>
      have gnd := generateCategoryMap_used_nodup qSort preset
        { s with m_delayRefreshTimer := none } h2
      exact ⟨hap, gnd.1, gnd.2, h4, gnd.1, h6⟩

theorem runCalls_wellFormed (qSort : Sorter) (hq : IsSorter qSort) (preset : List String)
    (s : AppsManager) (calls : List Call) (h : WellFormed s)
    (hg : guardedCalls qSort preset s calls) :
    WellFormed (runCalls qSort preset s calls) := by
  unfold runCalls
  induction calls generalizing s with
  | nil => exact h
  | cons c cs ih =>
    simp only [List.foldl_cons]
    exact ih _ (applyCall_wellFormed qSort hq preset s c hg.1 h) hg.2

/-- C12 (as amended). From a state whose all-items list, stash, usage-ordered
list, search results and persisted lists have no key twice, with no key shared
by all-items and stash and every usage-ordered key an all-items key, every
sequence of `handleItemChanged`, `stashItem`, `restoreItem`,
`abandonStashedItem`, `delayRefreshData`, `refreshCategoryInfoList` and
`searchDone` calls in which the backend lists no key twice (in a fetch answer
or in a search result) and announces as created only keys that are in neither
all-items nor stash reaches a state in which each of the all-items list, the
stash, the usage-ordered list and the search-result list has no two records
with the same key. -/
theorem guarded_calls_keep_keys_unique (qSort : Sorter) (hq : IsSorter qSort)
    (preset : List String) (s : AppsManager) (calls : List Call) (h : WellFormed s)
    (hg : guardedCalls qSort preset s calls) :
    (keysOf (runCalls qSort preset s calls).m_allAppInfoList).Nodup ∧
    (keysOf (runCalls qSort preset s calls).m_stashList).Nodup ∧
    (keysOf (runCalls qSort preset s calls).m_usedSortedList).Nodup ∧
    (keysOf (runCalls qSort preset s calls).m_appSearchResultList).Nodup := by
  obtain ⟨w1, w2, _, w4, _, _⟩ := runCalls_wellFormed qSort hq preset s calls h hg
  exact ⟨(List.nodup_append.mp w1).1, (List.nodup_append.mp w1).2.1, w2, w4⟩

/-- C12 as stated fails: the manager built on four applications has no key
twice in any list, and a search result that names `a` twice leaves the
search-result list with two records of key `a`. -/
theorem search_result_repeats_key :
    WellFormed sampleManager ∧
    (runCalls insertionSorter ["b", "a"] sampleManager
        [Call.searchDone ["a", "a"]]).m_appSearchResultList =
      [item "a" "Atom" 8 0, item "a" "Atom" 8 0] ∧
    ¬ (keysOf (runCalls insertionSorter ["b", "a"] sampleManager
        [Call.searchDone ["a", "a"]]).m_appSearchResultList).Nodup := by
  refine ⟨?_, by decide, by decide⟩
  unfold WellFormed
  decide

theorem guarded_calls_keep_keys_unique_witness :
    (keysOf (runCalls insertionSorter ["b", "a"] sampleManager
        [Call.op (Op.stashItem "k"),
         Call.op (Op.handleItemChanged "created" (item "q" "Quill" 2 0)),
         Call.searchDone ["a", "q", "k"],
         Call.op (Op.restoreItem "k" 0),
         Call.op Op.delayRefreshData]).m_usedSortedList).Nodup ∧
    (keysOf (runCalls insertionSorter ["b", "a"] sampleManager
        [Call.op (Op.stashItem "k"),
         Call.op (Op.handleItemChanged "created" (item "q" "Quill" 2 0)),
         Call.searchDone ["a", "q", "k"],
         Call.op (Op.restoreItem "k" 0),
         Call.op Op.delayRefreshData]).m_usedSortedList) = ["k", "b", "z", "a", "q"] :=
  ⟨(guarded_calls_keep_keys_unique insertionSorter insertionSorter_isSorter ["b", "a"]
      sampleManager
      [Call.op (Op.stashItem "k"),
       Call.op (Op.handleItemChanged "created" (item "q" "Quill" 2 0)),
       Call.searchDone ["a", "q", "k"],
       Call.op (Op.restoreItem "k" 0),
       Call.op Op.delayRefreshData]
      (by unfold WellFormed; decide)
      (by
        simp only [guardedCalls, Call.guarded, Op.guarded, and_true, true_and]
        decide)).2.2.1,
   by decide⟩

/-! ## Icon sizes -/

theorem perfectIconSize_mem (size : Int) :
    perfectIconSize size ∈ [16, 24, 32, 48, 64, 96, 128, (256 : Int)] := by
  simp only [perfectIconSize, perfectIconSizeLoop]
  split_ifs <;> simp

theorem perfectIconSize_gt (size : Int) (h : size < 256) : size < perfectIconSize size := by
  simp only [perfectIconSize, perfectIconSizeLoop]
  split_ifs <;> omega

theorem perfectIconSize_le_of_mem (size m : Int)
    (hm : m ∈ [16, 24, 32, 48, 64, 96, 128, (256 : Int)]) (hlt : size < m) :
    perfectIconSize size ≤ m := by
  simp only [List.mem_cons, List.mem_singleton, List.not_mem_nil, or_false] at hm
  simp only [perfectIconSize, perfectIconSizeLoop]
  split_ifs <;> omega

theorem perfectIconSize_of_ge (size : Int) (h : 256 ≤ size) : perfectIconSize size = 256 := by
  simp only [perfectIconSize, perfectIconSizeLoop]
  split_ifs <;> omega

theorem perfectIconSize_le_max (size : Int) : perfectIconSize size ≤ 256 := by
  have := perfectIconSize_mem size
  simp only [List.mem_cons, List.mem_singleton, List.not_mem_nil, or_false] at this
  omega

/-- C21. For every integer `size`, `perfectIconSize(size)` is one of 16, 24, 32,
48, 64, 96, 128, 256; for `size < 256` it is the least of them that is
strictly greater than `size` (a request for exactly 16 yields 24), for
`size >= 256` it is 256, and the function is monotone non-decreasing. -/
theorem perfectIconSize_least_above (size : Int) :
    perfectIconSize size ∈ [16, 24, 32, 48, 64, 96, 128, 256] ∧
    (size < 256 →
      size < perfectIconSize size ∧
      ∀ m ∈ [16, 24, 32, 48, 64, 96, 128, (256 : Int)],
        size < m → perfectIconSize size ≤ m) ∧
    (256 ≤ size → perfectIconSize size = 256) ∧
    (∀ other, size ≤ other → perfectIconSize size ≤ perfectIconSize other) ∧
    perfectIconSize 16 = 24 := by
  refine ⟨perfectIconSize_mem size, ?_, perfectIconSize_of_ge size, ?_, by decide⟩
  · intro h
    exact ⟨perfectIconSize_gt size h, fun m hm hlt => perfectIconSize_le_of_mem size m hm hlt⟩
  · intro other h
    by_cases hb : other < 256
    · exact perfectIconSize_le_of_mem size _ (perfectIconSize_mem other)
        (lt_of_le_of_lt h (perfectIconSize_gt other hb))
    · rw [perfectIconSize_of_ge other (by omega)]
      exact perfectIconSize_le_max size

theorem perfectIconSize_least_above_witness :
    perfectIconSize 47 = 48 ∧ perfectIconSize 48 = 64 ∧ perfectIconSize 300 = 256 ∧
    perfectIconSize (-5) = 16 ∧ perfectIconSize 47 ≤ perfectIconSize 48 :=
  ⟨by decide, by decide, (perfectIconSize_least_above 300).2.2.1 (by decide), by decide,
   (perfectIconSize_least_above 47).2.2.2.1 48 (by decide)⟩

/-! ## The page index -/

theorem viewAt_isSome (l : List AppGridView) (i : Int) (h0 : 0 ≤ i) (h1 : i < l.length) :
    ∃ view, viewAt l i = some view := by
  have hlt : i.toNat < l.length := by omega
  refine ⟨l[i.toNat], ?_⟩
  simp [viewAt, h0, List.getElem?_eq_getElem hlt]

/-- In a state whose page view list holds at least `m_pageCount >= 1` views,
`showCurrentPage` succeeds and clamps the requested page to the pages there
are. -/
theorem showCurrentPage_of_views (viewX : AppGridView → Int) (s : MultiPagesView) (p : Int)
    (h1 : 1 ≤ s.m_pageCount) (h2 : s.m_pageCount ≤ s.m_appGridViewList.length) :
    ∃ s2, showCurrentPage viewX s p = Except.ok s2 ∧
      s2.m_pageIndex = min (max p 0) (s.m_pageCount - 1) ∧
      0 ≤ s2.m_pageIndex ∧ s2.m_pageIndex ≤ s.m_pageCount - 1 ∧
      (∃ view, viewAt s2.m_appGridViewList s2.m_pageIndex = some view) ∧
      s2.m_pageCount = s.m_pageCount ∧
      s2.m_appGridViewList = s.m_appGridViewList ∧
      s2.pageControlCurrent = s2.m_pageIndex := by
  have hidx : (if p > 0 then (if p < s.m_pageCount then p else s.m_pageCount - 1) else 0) =
      min (max p 0) (s.m_pageCount - 1) := by
    split_ifs <;> omega
  have hb0 : 0 ≤ min (max p 0) (s.m_pageCount - 1) := by omega
  have hb1 : min (max p 0) (s.m_pageCount - 1) ≤ s.m_pageCount - 1 := by omega
  obtain ⟨view, hview⟩ := viewAt_isSome s.m_appGridViewList
    (min (max p 0) (s.m_pageCount - 1)) hb0 (by omega)
  unfold showCurrentPage
  simp only [hidx]
  by_cases hz : min (max p 0) (s.m_pageCount - 1) = 0
  · rw [if_pos hz]
    exact ⟨_, rfl, rfl, hb0, hb1, ⟨view, hview⟩, rfl, rfl, rfl⟩
  · rw [if_neg hz]
    simp only [hview]
    exact ⟨_, rfl, rfl, hb0, hb1, ⟨view, hview⟩, rfl, rfl, rfl⟩

theorem showCurrentPage_frame (viewX : AppGridView → Int) (s s2 : MultiPagesView) (p : Int)
    (h : showCurrentPage viewX s p = Except.ok s2) :
    s2.m_pageCount = s.m_pageCount ∧ s2.m_appGridViewList = s.m_appGridViewList := by
  unfold showCurrentPage at h
  dsimp only at h
  generalize (if p > 0 then (if p < s.m_pageCount then p else s.m_pageCount - 1) else 0) =
    idx at h
  by_cases hz : idx = 0
  · rw [if_pos hz] at h
    cases h; exact ⟨rfl, rfl⟩
  · rw [if_neg hz] at h
    cases hv : viewAt s.m_appGridViewList idx with
    | none => rw [hv] at h; cases h
    | some view => rw [hv] at h; cases h; exact ⟨rfl, rfl⟩

theorem setVisibleFrom_ok (pageCount bound : Int) (l : List AppGridView) (i : Int)
    (r : List AppGridView) (h : setVisibleFrom pageCount bound i l = Except.ok r) :
    r.length = l.length ∧ bound ≤ i + l.length := by
  induction l generalizing i r with
  | nil =>
    simp only [setVisibleFrom] at h
    split_ifs at h with hb
    cases h
    exact ⟨rfl, by simp; omega⟩
  | cons view rest ih =>
    simp only [setVisibleFrom] at h
    split_ifs at h with hb
    · cases hrec : setVisibleFrom pageCount bound (i + 1) rest with
      | error e => rw [hrec] at h; cases h
      | ok r2 =>
        rw [hrec] at h
        cases h
        obtain ⟨e1, e2⟩ := ih (i + 1) r2 hrec
        refine ⟨by simp [e1], ?_⟩
        simp only [List.length_cons, Nat.cast_add, Nat.cast_one]
        omega
    · cases h
      refine ⟨rfl, ?_⟩
      simp only [List.length_cons, Nat.cast_add, Nat.cast_one]
      omega

theorem ShowPageView_views (s s2 : MultiPagesView) (pageCount : Int)
    (h : ShowPageView s pageCount = Except.ok s2) :
    s2.m_pageCount ≤ s2.m_appGridViewList.length := by
  unfold ShowPageView at h
  cases hrec : setVisibleFrom pageCount (max pageCount s.m_pageCount) 0 s.m_appGridViewList with
  | error e => rw [hrec] at h; cases h
  | ok views =>
    rw [hrec] at h
    cases h
    obtain ⟨e1, e2⟩ := setVisibleFrom_ok _ _ _ _ _ hrec
    show pageCount ≤ (views.length : Int)
    rw [e1]
    omega

theorem addPages_views (pageCount : Int) (fuel : Nat) (s : MultiPagesView) :
    ((addPages pageCount fuel s).m_appGridViewList.length : Int)
        - (addPages pageCount fuel s).m_pageCount =
      (s.m_appGridViewList.length : Int) - s.m_pageCount := by
  induction fuel generalizing s with
  | zero => rfl
  | succ n ih =>
    simp only [addPages]
    split_ifs
    · rw [ih]
      simp only [List.length_append, List.length_singleton, Nat.cast_add, Nat.cast_one]
      omega
    · rfl

theorem removePages_views (pageCount : Int) (fuel : Nat) (s s2 : MultiPagesView)
    (h : removePages pageCount fuel s = Except.ok s2) :
    (s2.m_appGridViewList.length : Int) - s2.m_pageCount =
      (s.m_appGridViewList.length : Int) - s.m_pageCount := by
  induction fuel generalizing s with
  | zero => simp only [removePages] at h; cases h; rfl
  | succ n ih =>
    simp only [removePages] at h
    split_ifs at h with h1 h2
    · rw [ih _ h]
      have hne : s.m_appGridViewList ≠ [] := by
        intro e; rw [e] at h2; exact h2 rfl
      have hpos : 0 < s.m_appGridViewList.length := List.length_pos.mpr hne
      simp only [List.length_dropLast]
      omega
    · cases h; rfl

theorem updatePageCount_views (s s2 : MultiPagesView) (count : Int)
    (h : updatePageCount s count = Except.ok s2)
    (hs : s.m_pageCount ≤ s.m_appGridViewList.length) :
    s2.m_pageCount ≤ s2.m_appGridViewList.length := by
  unfold updatePageCount at h
  dsimp only at h
  generalize (if count < 1 then 1 else count) = pc at h
  by_cases h1 : pc = s.m_pageCount
  · rw [if_pos h1] at h
    cases h; exact hs
  · rw [if_neg h1] at h
    by_cases h2 : pc > s.m_pageCount
    · rw [if_pos h2] at h
      dsimp only at h
      cases h
      have := addPages_views pc (pc - s.m_pageCount).toNat s
      show (addPages pc (pc - s.m_pageCount).toNat s).m_pageCount ≤
        ((addPages pc (pc - s.m_pageCount).toNat s).m_appGridViewList.length : Int)
      omega
    · rw [if_neg h2] at h
      cases hr : removePages pc (s.m_pageCount - pc).toNat s with
      | error e => rw [hr] at h; cases h
      | ok s1 =>
        rw [hr] at h
        cases h
        have := removePages_views pc _ s s1 hr
        show s1.m_pageCount ≤ (s1.m_appGridViewList.length : Int)
        omega

/-- Every state reached from the constructor without an out-of-range access
has at least `m_pageCount` page views. -/
theorem runView_views (viewX : AppGridView → Int) (s s2 : MultiPagesView)
    (calls : List ViewCall) (h : runView viewX s calls = Except.ok s2)
    (hs : s.m_pageCount ≤ s.m_appGridViewList.length) :
    s2.m_pageCount ≤ s2.m_appGridViewList.length := by
  induction calls generalizing s with
  | nil => simp only [runView] at h; cases h; exact hs
  | cons c cs ih =>
    simp only [runView] at h
    cases hc : applyViewCall viewX s c with
    | error e => rw [hc] at h; cases h
    | ok s1 =>
      rw [hc] at h
      apply ih s1 h
      cases c with
      | updatePageCount count => exact updatePageCount_views s s1 count hc hs
      | ShowPageView pageCount => exact ShowPageView_views s s1 pageCount hc
      | showCurrentPage currentPage =>
        obtain ⟨e1, e2⟩ := showCurrentPage_frame viewX s s1 currentPage hc
        rw [e1, e2]; exact hs
      | resetCurPageIndex =>
        simp only [applyViewCall] at hc
        cases hc
        exact hs

/-- C22. In every state of the paged view reached from its constructor with a
page count of at least 1, `showCurrentPage(p)` succeeds for every requested
page `p` and leaves the page index equal to `min(max(p, 0), pageCount - 1)`;
the index lies in `[0, pageCount - 1]` and the page view list has a view at
it.  When the page count is 0 and `p > 0`, the page index is set to `-1` (and
the access to the page view at that index that follows is out of range). -/
theorem showCurrentPage_clamps_index (viewX : AppGridView → Int) (calls : List ViewCall)
    (s : MultiPagesView) (p : Int)
    (hreach : runView viewX MultiPagesView.init calls = Except.ok s) :
    (1 ≤ s.m_pageCount →
      ∃ s2, showCurrentPage viewX s p = Except.ok s2 ∧
        s2.m_pageIndex = min (max p 0) (s.m_pageCount - 1) ∧
        0 ≤ s2.m_pageIndex ∧ s2.m_pageIndex ≤ s.m_pageCount - 1 ∧
        (∃ view, viewAt s2.m_appGridViewList s2.m_pageIndex = some view) ∧
        s2.m_pageCount = s.m_pageCount) ∧
    (s.m_pageCount = 0 → 0 < p →
      showCurrentPage viewX s p = Except.error { s with m_pageIndex := -1 }) := by
  have hviews := runView_views viewX MultiPagesView.init s calls hreach (by decide)
  constructor
  · intro h1
    obtain ⟨s2, e, a1, a2, a3, a4, a5, _, _⟩ := showCurrentPage_of_views viewX s p h1 hviews
    exact ⟨s2, e, a1, a2, a3, a4, a5⟩
  · intro h0 hp
    unfold showCurrentPage
    have hidx : (if p > 0 then (if p < s.m_pageCount then p else s.m_pageCount - 1) else 0) =
        -1 := by
      split_ifs <;> omega
    simp only [hidx]
    simp [viewAt]

theorem showCurrentPage_clamps_index_witness :
    runView (fun _ => 0) MultiPagesView.init [ViewCall.updatePageCount 3] =
      Except.ok samplePages ∧
    (∃ s2, showCurrentPage (fun _ => 0) samplePages 7 = Except.ok s2 ∧ s2.m_pageIndex = 2) ∧
    (∃ s2, showCurrentPage (fun _ => 0) samplePages (-4) = Except.ok s2 ∧
      s2.m_pageIndex = 0) :=
  ⟨rfl,
   (match (showCurrentPage_clamps_index (fun _ => 0) [ViewCall.updatePageCount 3]
      samplePages 7 rfl).1 (by decide) with
    | ⟨s2, e, a1, _⟩ => ⟨s2, e, a1.trans (by decide)⟩),
   (match (showCurrentPage_clamps_index (fun _ => 0) [ViewCall.updatePageCount 3]
      samplePages (-4) rfl).1 (by decide) with
    | ⟨s2, e, a1, _⟩ => ⟨s2, e, a1.trans (by decide)⟩)⟩

end Launcher
